import Mathlib

/-!
# Verification of the numerical-geometry core of `cpp_eigen_opencv`

Shallow embedding of the strided-array container (`shared/ndarray.hpp`) and the
2D computational-geometry algorithms (`shared/geometry.hpp`): monotone-chain
convex hull and minimum-area enclosing rectangle via rotating calipers.

Modelling conventions:
* an `(N,2)` point array is modelled as a `List (ℚ × ℚ)` of its rows; the
  algorithms only read point values through row indices, so the argsort-based
  C++ code is modelled by sorting the value list (the comparator is a strict
  total lexicographic order, so the sorted value sequence is unique);
* arithmetic performed by the source in `double` is modelled exactly: the
  hull code uses only ring operations and comparisons (kept in `ℚ`), the
  rectangle solver's `sqrt`/`atan2` are modelled in `ℝ`;
* the `+∞`-seeded running minimum of the source collapses, on a nonempty
  list, to a fold from the first element (`min(+∞, x) = x`), and the
  `double` infinity seeding `minArea` is modelled by `(⊤ : EReal)`.
-/

namespace ND

/-- Shallow embedding of `ND::NDArray<T, NDim>` (shared/ndarray.hpp): a shape
`m_shape` (a `std::array<size_type, NDim>`, modelled as a list of length
`NDim`) and the linear element buffer `m_data`.  Strides are derived
row-major data, and `m_size` is the product of the shape entries. -/
structure NDArray (α : Type) (NDim : ℕ) where
  shape : List ℕ
  data : List α
  deriving Repr, DecidableEq

namespace NDArray

variable {α β γ : Type} {n : ℕ}

/-- `m_size`: the product of the shape entries. -/
def size (a : NDArray α n) : ℕ := a.shape.prod

/-- `NDArray::Empty(shape)`: allocates via `std::make_shared<T[]>(product)`,
which value-initializes the buffer, so every element is `T{} = 0`. -/
def Empty [Zero α] (shape : List ℕ) : NDArray α n :=
  ⟨shape, List.replicate shape.prod 0⟩

/-- `NDArray::Full(shape, value)`: `Empty` followed by `std::fill` of `value`
over the whole buffer. -/
def Full [Zero α] (shape : List ℕ) (value : α) : NDArray α n :=
  ⟨shape, (Empty (α := α) (n := n) shape).data.map (fun _ => value)⟩

/-- `NDArray::Zeros(shape) = Full(shape, 0)`. -/
def Zeros [Zero α] (shape : List ℕ) : NDArray α n := Full shape 0

/-- `NDArray::Ones(shape) = Full(shape, 1)`. -/
def Ones [Zero α] [One α] (shape : List ℕ) : NDArray α n := Full shape 1

end NDArray

/-- Elementwise `operator+` on two arrays: `result[i] = a[i] + b[i]` into a new
owned array of shape `a.shape()`; the result element type is the C++ promotion
`decltype(T{} + U{})`, modelled by the heterogeneous instance `HAdd α β γ`.
Identical shapes are an asserted precondition of the source. -/
instance [HAdd α β γ] {n : ℕ} : HAdd (NDArray α n) (NDArray β n) (NDArray γ n) :=
  ⟨fun a b => ⟨a.shape, List.zipWith (fun x y => x + y) a.data b.data⟩⟩

/-- Elementwise `operator-` on two arrays (see `HAdd` instance). -/
instance [HSub α β γ] {n : ℕ} : HSub (NDArray α n) (NDArray β n) (NDArray γ n) :=
  ⟨fun a b => ⟨a.shape, List.zipWith (fun x y => x - y) a.data b.data⟩⟩

/-- Elementwise `operator*` on two arrays (see `HAdd` instance). -/
instance [HMul α β γ] {n : ℕ} : HMul (NDArray α n) (NDArray β n) (NDArray γ n) :=
  ⟨fun a b => ⟨a.shape, List.zipWith (fun x y => x * y) a.data b.data⟩⟩

/-- Elementwise `operator/` on two arrays (see `HAdd` instance). -/
instance [HDiv α β γ] {n : ℕ} : HDiv (NDArray α n) (NDArray β n) (NDArray γ n) :=
  ⟨fun a b => ⟨a.shape, List.zipWith (fun x y => x / y) a.data b.data⟩⟩

end ND

namespace Geometry

/-- A 2D point: one row of an `(N,2)` array. -/
abbrev Point : Type := ℚ × ℚ

/-- `Geometry::cross` on two 2-vectors: `a.x*b.y - a.y*b.x` (computed by the
source in the result precision `U = double`; exact here). -/
def cross (a b : Point) : ℚ := a.1 * b.2 - a.2 * b.1

/-- `ND::dot` on two 2-vectors: sum of elementwise products. -/
def pdot (a b : Point) : ℚ := a.1 * b.1 + a.2 * b.2

/-- The strict comparator of `argSortPoints` with `Order::Ascending`:
`p.x < q.x || (p.x <= q.x && p.y < q.y)` — lexicographic order. -/
def pointLt (p q : Point) : Bool :=
  decide (p.1 < q.1) || (decide (p.1 ≤ q.1) && decide (p.2 < q.2))

/-- Strict lexicographic order on points (propositional form of `pointLt`). -/
def lexLt (p q : Point) : Prop := p.1 < q.1 ∨ (p.1 = q.1 ∧ p.2 < q.2)

/-- Reflexive lexicographic order on points. -/
def lexLe (p q : Point) : Prop := lexLt p q ∨ p = q

instance : DecidableRel lexLt := fun p q => by unfold lexLt; infer_instance

instance : DecidableRel lexLe := fun p q => by unfold lexLe; infer_instance

/-- `std::sort` with the `argSortPoints` comparator, materialized to point
values.  The comparator is a strict total order whose only ties are equal
pairs, so every sorting algorithm produces the same value sequence;
insertion sort is therefore a faithful model of the unstable `std::sort`
(the correspondence `pointLt ↔ lexLt` is proved below). -/
def sortPoints (l : List Point) : List Point := l.insertionSort lexLe

/-- The hull pop loop (`while (hull.size() >= 2 && cross(hull[s-1] - hull[s-2],
p - hull[s-2]) <= 0) hull.pop_back()`).  The stack is a list with the most
recently pushed point at the head. -/
def hullPop (p : Point) : List Point → List Point
  | a :: b :: tl =>
    if cross (a - b) (p - b) ≤ 0 then hullPop p (b :: tl) else a :: b :: tl
  | st => st

/-- One iteration of the lower-hull loop: pop, then push `p`. -/
def chainStep (st : List Point) (p : Point) : List Point := p :: hullPop p st

/-- The lower-hull loop over a list of points, from a given initial stack. -/
def chainFold (init : List Point) (ps : List Point) : List Point :=
  ps.foldl chainStep init

/-- The upper pop loop: identical to `hullPop` but guarded by
`hull.size() > lowerSize`, so it never digs into the lower hull. -/
def hullPopUpper (m : ℕ) (p : Point) : List Point → List Point
  | a :: b :: tl =>
    if (b :: tl).length + 1 > m ∧ cross (a - b) (p - b) ≤ 0 then
      hullPopUpper m p (b :: tl)
    else a :: b :: tl
  | st => st

/-- One iteration of the upper-hull loop: guarded pop, then push `p`. -/
def upperStep (m : ℕ) (st : List Point) (p : Point) : List Point :=
  p :: hullPopUpper m p st

/-- Shallow embedding of `Geometry::computeConvexHull(points, count)`.
Effective count `N` is all rows when `count < 0`; with `N < 3` the first `N`
points are returned unchanged.  Otherwise: sort ascending, build the lower
hull over the sorted points, then continue with the upper hull over the
sorted points in descending order (skipping the last), guarded by
`lowerSize`; finally drop the repeated first point.  The C++ stack vector
grows at the back; here the head of the stack list is the back, so the
returned (bottom-to-top) hull is `stack.tail.reverse`. -/
def computeConvexHull (points : List Point) (count : ℤ) : List Point :=
  let N : ℤ := if count < 0 then (points.length : ℤ) else count
  let pts := points.take N.toNat
  if pts.length < 3 then pts
  else
    let sorted := sortPoints pts
    let lower := chainFold [] sorted
    let lowerSize := lower.length
    let stack := (sorted.dropLast.reverse).foldl (upperStep lowerSize) lower
    stack.tail.reverse

/-- `Geometry::RotatedRectangle`: center `(x, y)`, size `(width, height)`,
angle in radians counter-clockwise from the x-axis. -/
structure RotatedRectangle where
  center : ℝ × ℝ
  size : ℝ × ℝ
  angle : ℝ

/-- The default-constructed rectangle: zero center and size, zero angle. -/
def defaultRectangle : RotatedRectangle := ⟨(0, 0), (0, 0), 0⟩

/-- `std::atan2(y, x)`: principal value of the argument, in `(-π, π]`
(with `atan2(0, 0) = 0`). -/
noncomputable def atan2 (y x : ℝ) : ℝ :=
  if 0 < x then Real.arctan (y / x)
  else if x < 0 then
    if 0 ≤ y then Real.arctan (y / x) + Real.pi else Real.arctan (y / x) - Real.pi
  else
    if 0 < y then Real.pi / 2 else if y < 0 then -(Real.pi / 2) else 0

/-- Real dot product of 2-vectors (`ND::dot` at `double`). -/
def rdot (a b : ℝ × ℝ) : ℝ := a.1 * b.1 + a.2 * b.2

/-- Exact value of a point's coordinates in `ℝ`. -/
def toR (p : Point) : ℝ × ℝ := ((p.1 : ℝ), (p.2 : ℝ))

/-- Running minimum seeded with `+∞`, evaluated on a nonempty list: a fold of
`min` from the first element. -/
noncomputable def listMin : List ℝ → ℝ
  | [] => 0
  | x :: xs => xs.foldl min x

/-- Running maximum seeded with `-∞`, evaluated on a nonempty list. -/
noncomputable def listMax : List ℝ → ℝ
  | [] => 0
  | x :: xs => xs.foldl max x

/-- The body of the rotating-calipers loop of `minAreaRectangle` for edge
index `i`: skip zero-length edges, otherwise project all hull points on the
edge's unit direction `ux` and its perpendicular `uy`, form the candidate
rectangle from the projection bounding box, and keep it if its area is
strictly below the current minimum (seeded with `double` infinity,
modelled by `⊤ : EReal`). -/
noncomputable def caliperStep (hull : List Point) (n : ℕ)
    (st : EReal × RotatedRectangle) (i : ℕ) : EReal × RotatedRectangle :=
  let p0 := hull.getD i 0
  let p1 := hull.getD ((i + 1) % n) 0
  let e := p1 - p0
  let edgeLength := Real.sqrt (((e.1 * e.1 + e.2 * e.2 : ℚ) : ℝ))
  if edgeLength ≤ 0 then st
  else
    let ux : ℝ × ℝ := ((e.1 : ℝ) / edgeLength, (e.2 : ℝ) / edgeLength)
    let uy : ℝ × ℝ := (-ux.2, ux.1)
    let projX := hull.map (fun p => rdot (toR p) ux)
    let projY := hull.map (fun p => rdot (toR p) uy)
    let minX := listMin projX
    let maxX := listMax projX
    let minY := listMin projY
    let maxY := listMax projY
    let width := maxX - minX
    let height := maxY - minY
    let area := width * height
    if (area : EReal) < st.1 then
      (area,
        { center := (ux.1 * ((minX + maxX) * (1 / 2)) + uy.1 * ((minY + maxY) * (1 / 2)),
                     ux.2 * ((minX + maxX) * (1 / 2)) + uy.2 * ((minY + maxY) * (1 / 2))),
          size := (width, height),
          angle := atan2 ux.2 ux.1 })
    else st

/-- Shallow embedding of `Geometry::minAreaRectangle(points, count)`: compute
the hull (passing the effective count `N`), return the default rectangle for
an empty hull, a degenerate rectangle centered at the single hull point for
`n = 1`, and otherwise sweep the calipers over all hull edges. -/
noncomputable def minAreaRectangle (points : List Point) (count : ℤ) :
    RotatedRectangle :=
  let N : ℤ := if count < 0 then (points.length : ℤ) else count
  let hull := computeConvexHull points N
  let n := hull.length
  if n = 0 then defaultRectangle
  else if n = 1 then
    { center := toR (hull.getD 0 0), size := (0, 0), angle := 0 }
  else
    ((List.range n).foldl (caliperStep hull n) ((⊤ : EReal), defaultRectangle)).2

end Geometry

namespace Geometry

/-! ## Verification predicates

Stack lists have their most recently pushed point at the head; hull output
lists are bottom-to-top.  All stack invariants are proved relative to an
abstract positivity cone so that the ascending (lower-hull) and descending
(upper-hull) passes are covered by the same lemmas. -/

/-- Strict counter-clockwise turning along a stack (head = top): every three
consecutive entries `a, b, c` from the top make a strict left turn
`c → b → a`. -/
def Turns : List Point → Prop
  | a :: b :: c :: tl => 0 < cross (b - c) (a - b) ∧ Turns (b :: c :: tl)
  | _ => True

/-- `q` lies on or to the left of every directed chain edge of a stack
(edges directed upwards: `b → a` for consecutive entries `a, b` from the
top). -/
def LeftAll (q : Point) : List Point → Prop
  | a :: b :: tl => 0 ≤ cross (a - b) (q - b) ∧ LeftAll q (b :: tl)
  | _ => True

/-- Strict counter-clockwise turning along a bottom-to-top (output order)
list. -/
def TurnsF : List Point → Prop
  | a :: b :: c :: tl => 0 < cross (b - a) (c - b) ∧ TurnsF (b :: c :: tl)
  | _ => True

/-- `q` on or to the left of every directed edge `a → b` of a bottom-to-top
list. -/
def LeftAllF (q : Point) : List Point → Prop
  | a :: b :: tl => 0 ≤ cross (b - a) (q - a) ∧ LeftAllF q (b :: tl)
  | _ => True

/-- The positivity cone of the lexicographic order. -/
def lexpos (d : Point) : Prop := 0 < d.1 ∨ (d.1 = 0 ∧ 0 < d.2)

/-- An abstract positivity cone on 2D vectors: closed under addition and
positive scaling, total and asymmetric on nonzero vectors.  Both the
lexicographic cone and its negation are instances. -/
structure IsPosCone (pos : Point → Prop) : Prop where
  add : ∀ {a b : Point}, pos a → pos b → pos (a + b)
  smul : ∀ {a : Point} (c : ℚ), pos a → 0 < c → pos (c • a)
  total : ∀ {a : Point}, a ≠ 0 → pos a ∨ pos (-a)
  asym : ∀ {a : Point}, pos a → ¬ pos (-a)

/-- Strict order induced by a cone. -/
def cLt (pos : Point → Prop) (a b : Point) : Prop := pos (b - a)

/-- Reflexive order induced by a cone. -/
def cLe (pos : Point → Prop) (a b : Point) : Prop := a = b ∨ pos (b - a)

end Geometry

namespace Geometry

/-! ## Vector algebra -/

theorem cross_shift_base (a b p : Point) :
    cross (a - b) (p - b) = cross (a - b) (p - a) := by
  obtain ⟨a1, a2⟩ := a; obtain ⟨b1, b2⟩ := b; obtain ⟨p1, p2⟩ := p
  simp only [cross, Prod.fst_sub, Prod.snd_sub]
  ring

theorem cross_four (a b p q : Point) :
    cross (p - b) (q - b) =
      cross (a - b) (q - b) + cross (p - a) (q - a) - cross (a - b) (p - a) := by
  obtain ⟨a1, a2⟩ := a; obtain ⟨b1, b2⟩ := b
  obtain ⟨p1, p2⟩ := p; obtain ⟨q1, q2⟩ := q
  simp only [cross, Prod.fst_sub, Prod.snd_sub]
  ring

theorem cross_comm_neg (u v : Point) : cross u v = -cross v u := by
  simp only [cross]; ring

theorem cross_self (u : Point) : cross u u = 0 := by
  simp only [cross]; ring

theorem cross_smul_left (c : ℚ) (u v : Point) :
    cross (c • u) v = c * cross u v := by
  obtain ⟨u1, u2⟩ := u; obtain ⟨v1, v2⟩ := v
  simp only [cross, Prod.smul_fst, Prod.smul_snd, smul_eq_mul]
  ring

theorem cross_smul_right (c : ℚ) (u v : Point) :
    cross u (c • v) = c * cross u v := by
  obtain ⟨u1, u2⟩ := u; obtain ⟨v1, v2⟩ := v
  simp only [cross, Prod.smul_fst, Prod.smul_snd, smul_eq_mul]
  ring

theorem cross_sub_right (u v w : Point) :
    cross u (v - w) = cross u v - cross u w := by
  obtain ⟨u1, u2⟩ := u; obtain ⟨v1, v2⟩ := v; obtain ⟨w1, w2⟩ := w
  simp only [cross, Prod.fst_sub, Prod.snd_sub]
  ring

/-- Basis decomposition: if `cross u v ≠ 0`, any vector `w` splits over
`(u, v)`, with coefficients reading off the two cross products. -/
theorem exists_decomp {u v : Point} (huv : cross u v ≠ 0) (w : Point) :
    ∃ α β : ℚ, w = α • u + β • v ∧
      cross u w = β * cross u v ∧ cross w v = α * cross u v := by
  obtain ⟨u1, u2⟩ := u; obtain ⟨v1, v2⟩ := v; obtain ⟨w1, w2⟩ := w
  refine ⟨cross (w1, w2) (v1, v2) / cross (u1, u2) (v1, v2),
          cross (u1, u2) (w1, w2) / cross (u1, u2) (v1, v2), ?_, ?_, ?_⟩
  · simp only [cross] at huv ⊢
    refine Prod.ext ?_ ?_ <;>
      simp only [Prod.fst_add, Prod.snd_add, Prod.smul_fst, Prod.smul_snd,
        smul_eq_mul] <;>
      field_simp <;> ring
  · simp only [cross] at huv ⊢
    field_simp
  · simp only [cross] at huv ⊢
    field_simp
    try ring

/-- Collinearity factor: a vector with zero cross against a nonzero vector is
a scalar multiple of it. -/
theorem collinear_factor {u v : Point} (h : cross u v = 0) (hu : u ≠ 0) :
    ∃ c : ℚ, v = c • u := by
  obtain ⟨u1, u2⟩ := u; obtain ⟨v1, v2⟩ := v
  simp only [cross] at h
  rcases eq_or_ne u1 0 with h1 | h1
  · subst h1
    have h2 : u2 ≠ 0 := by
      intro h2
      exact hu (by simp [h2, Prod.ext_iff])
    refine ⟨v2 / u2, ?_⟩
    have hv1 : v1 = 0 := by
      have : u2 * v1 = 0 := by linarith
      rcases mul_eq_zero.1 this with h | h
      · exact absurd h h2
      · exact h
    refine Prod.ext ?_ ?_ <;>
      simp only [Prod.smul_fst, Prod.smul_snd, smul_eq_mul]
    · rw [hv1, mul_zero]
    · field_simp
  · refine ⟨v1 / u1, ?_⟩
    refine Prod.ext ?_ ?_ <;>
      simp only [Prod.smul_fst, Prod.smul_snd, smul_eq_mul]
    · field_simp
    · field_simp
      nlinarith [h]

end Geometry

namespace Geometry

/-! ## The lexicographic cone and cone-order facts -/

theorem lexpos_add {a b : Point} (ha : lexpos a) (hb : lexpos b) :
    lexpos (a + b) := by
  rcases ha with h | ⟨h1, h2⟩ <;> rcases hb with g | ⟨g1, g2⟩ <;>
    simp only [lexpos, Prod.fst_add, Prod.snd_add]
  · exact Or.inl (by linarith)
  · exact Or.inl (by linarith)
  · exact Or.inl (by linarith)
  · exact Or.inr ⟨by linarith, by linarith⟩

theorem lexpos_smul {a : Point} (c : ℚ) (ha : lexpos a) (hc : 0 < c) :
    lexpos (c • a) := by
  rcases ha with h | ⟨h1, h2⟩ <;>
    simp only [lexpos, Prod.smul_fst, Prod.smul_snd, smul_eq_mul]
  · exact Or.inl (by positivity)
  · exact Or.inr ⟨by simp [h1], by positivity⟩

theorem lexpos_total {a : Point} (ha : a ≠ 0) : lexpos a ∨ lexpos (-a) := by
  obtain ⟨a1, a2⟩ := a
  simp only [lexpos, Prod.fst_neg, Prod.snd_neg]
  rcases lt_trichotomy 0 a1 with h | h | h
  · exact Or.inl (Or.inl h)
  · rcases lt_trichotomy 0 a2 with g | g | g
    · exact Or.inl (Or.inr ⟨h.symm, g⟩)
    · exact absurd (by simp [← h, ← g, Prod.ext_iff]) ha
    · exact Or.inr (Or.inr ⟨by simp [← h], by linarith⟩)
  · exact Or.inr (Or.inl (by linarith))

theorem lexpos_asym {a : Point} (ha : lexpos a) : ¬ lexpos (-a) := by
  obtain ⟨a1, a2⟩ := a
  simp only [lexpos, Prod.fst_neg, Prod.snd_neg] at ha ⊢
  rcases ha with h | ⟨h1, h2⟩ <;> rintro (g | ⟨g1, g2⟩) <;> linarith

/-- The lexicographic cone is a positivity cone. -/
theorem isPosCone_lexpos : IsPosCone lexpos :=
  ⟨lexpos_add, lexpos_smul, lexpos_total, lexpos_asym⟩

/-- The reversed lexicographic cone is a positivity cone. -/
theorem isPosCone_lexneg : IsPosCone (fun d => lexpos (-d)) := by
  refine ⟨?_, ?_, ?_, ?_⟩
  · intro a b ha hb
    have h := lexpos_add ha hb
    have e : -a + -b = -(a + b) := by ring
    rwa [e] at h
  · intro a c ha hc
    have h := lexpos_smul c ha hc
    have e : c • -a = -(c • a) := by
      simp [smul_neg]
    rwa [e] at h
  · intro a ha
    have ha2 : (-a) ≠ 0 := by simpa using ha
    rcases lexpos_total (a := -a) ha2 with h | h
    · exact Or.inl h
    · exact Or.inr (by simpa using h)
  · intro a ha hb
    have hb2 : lexpos (-(-a)) := hb
    exact lexpos_asym ha hb2

namespace IsPosCone

variable {pos : Point → Prop}

theorem ne_zero (hc : IsPosCone pos) {a : Point} (ha : pos a) : a ≠ 0 := by
  intro h
  subst h
  exact hc.asym ha (by simpa using ha)

theorem cLe_refl (a : Point) : cLe pos a a := Or.inl rfl

theorem cLt_trans (hc : IsPosCone pos) {a b c : Point} (h1 : cLt pos a b)
    (h2 : cLt pos b c) : cLt pos a c := by
  have h := hc.add h2 h1
  simpa [cLt, sub_add_sub_cancel] using h

theorem cLe_trans (hc : IsPosCone pos) {a b c : Point} (h1 : cLe pos a b)
    (h2 : cLe pos b c) : cLe pos a c := by
  rcases h1 with rfl | h1
  · exact h2
  rcases h2 with rfl | h2
  · exact Or.inr h1
  · exact Or.inr (hc.cLt_trans h1 h2)

theorem cLt_of_cLe_of_cLt (hc : IsPosCone pos) {a b c : Point}
    (h1 : cLe pos a b) (h2 : cLt pos b c) : cLt pos a c := by
  rcases h1 with rfl | h1
  · exact h2
  · exact hc.cLt_trans h1 h2

theorem cLt_of_cLt_of_cLe (hc : IsPosCone pos) {a b c : Point}
    (h1 : cLt pos a b) (h2 : cLe pos b c) : cLt pos a c := by
  rcases h2 with rfl | h2
  · exact h1
  · exact hc.cLt_trans h1 h2

theorem cLt_irrefl (hc : IsPosCone pos) (a : Point) : ¬ cLt pos a a := by
  intro h
  exact hc.ne_zero h (by simp)

theorem cLt_asymm (hc : IsPosCone pos) {a b : Point} (h : cLt pos a b) :
    ¬ cLt pos b a := by
  intro h2
  exact hc.cLt_irrefl a (hc.cLt_trans h h2)

theorem cLt_ne (hc : IsPosCone pos) {a b : Point} (h : cLt pos a b) :
    a ≠ b := by
  rintro rfl
  exact hc.cLt_irrefl a h

theorem cLt_of_cLe_ne {a b : Point} (h : cLe pos a b) (hne : a ≠ b) :
    cLt pos a b := by
  rcases h with rfl | h
  · exact absurd rfl hne
  · exact h

theorem cLe_total_of_ne (hc : IsPosCone pos) {a b : Point} (hne : a ≠ b) :
    cLt pos a b ∨ cLt pos b a := by
  rcases hc.total (a := b - a) (sub_ne_zero.2 (Ne.symm hne)) with h | h
  · exact Or.inl h
  · exact Or.inr (by simpa [cLt, neg_sub] using h)

theorem not_cLe_of_cLt (hc : IsPosCone pos) {a b : Point} (h : cLt pos a b) :
    ¬ cLe pos b a := by
  rintro (rfl | h2)
  · exact hc.cLt_irrefl _ h
  · exact hc.cLt_asymm h h2

theorem cLe_of_not_cLt (hc : IsPosCone pos) {a b : Point}
    (h : ¬ cLt pos b a) : cLe pos a b := by
  rcases eq_or_ne a b with rfl | hne
  · exact Or.inl rfl
  · rcases hc.cLe_total_of_ne hne with h2 | h2
    · exact Or.inr h2
    · exact absurd h2 h

/-- A positive multiple of a cone-positive vector has a positive factor. -/
theorem smul_factor_pos (hc : IsPosCone pos) {u : Point} (hu : pos u) {c : ℚ}
    (hcu : pos (c • u)) : 0 < c := by
  rcases lt_trichotomy 0 c with h | h | h
  · exact h
  · exfalso
    apply hc.ne_zero hcu
    simp [← h]
  · exfalso
    have h2 : pos ((-c) • u) := hc.smul (-c) hu (by linarith)
    exact hc.asym hcu (by simpa [neg_smul] using h2)

/-- A cone-negative multiple of a cone-positive vector has a negative
factor. -/
theorem smul_factor_neg (hc : IsPosCone pos) {u : Point} (hu : pos u) {c : ℚ}
    (hcu : pos (-(c • u))) : c < 0 := by
  have h : pos ((-c) • u) := by simpa [neg_smul] using hcu
  have h2 := hc.smul_factor_pos hu h
  linarith

end IsPosCone

/-! ## Comparator correspondence and sortedness -/

theorem pointLt_iff_lexLt (p q : Point) : pointLt p q = true ↔ lexLt p q := by
  simp only [pointLt, lexLt, Bool.or_eq_true, Bool.and_eq_true, decide_eq_true_eq]
  constructor
  · rintro (h | ⟨h1, h2⟩)
    · exact Or.inl h
    · rcases lt_or_eq_of_le h1 with h | h
      · exact Or.inl h
      · exact Or.inr ⟨h, h2⟩
  · rintro (h | ⟨h1, h2⟩)
    · exact Or.inl h
    · exact Or.inr ⟨le_of_eq h1, h2⟩

theorem lexLt_iff_lexpos (p q : Point) : lexLt p q ↔ lexpos (q - p) := by
  obtain ⟨p1, p2⟩ := p; obtain ⟨q1, q2⟩ := q
  simp only [lexLt, lexpos, Prod.fst_sub, Prod.snd_sub]
  constructor
  · rintro (h | ⟨h1, h2⟩)
    · exact Or.inl (by linarith)
    · exact Or.inr ⟨by linarith, by linarith⟩
  · rintro (h | ⟨h1, h2⟩)
    · exact Or.inl (by linarith)
    · exact Or.inr ⟨by linarith, by linarith⟩

theorem lexLe_iff_cLe (p q : Point) : lexLe p q ↔ cLe lexpos p q := by
  simp only [lexLe, cLe, lexLt_iff_lexpos]
  tauto

instance : IsTotal Point lexLe := by
  constructor
  intro a b
  simp only [lexLe_iff_cLe]
  rcases eq_or_ne a b with rfl | hne
  · exact Or.inl (Or.inl rfl)
  · rcases isPosCone_lexpos.cLe_total_of_ne hne with h | h
    · exact Or.inl (Or.inr h)
    · exact Or.inr (Or.inr h)

instance : IsTrans Point lexLe := by
  constructor
  intro a b c h1 h2
  rw [lexLe_iff_cLe] at h1 h2 ⊢
  exact isPosCone_lexpos.cLe_trans h1 h2

theorem sortPoints_sorted (l : List Point) :
    List.Sorted lexLe (sortPoints l) := List.sorted_insertionSort lexLe l

theorem sortPoints_perm (l : List Point) : (sortPoints l).Perm l :=
  List.perm_insertionSort lexLe l

end Geometry

namespace ND

/-! ## Elementwise operator and factory specifications -/

private theorem zipWith_spec {α β γ : Type} (f : α → β → γ) (da : List α)
    (db : List β) (hlen : da.length = db.length) :
    (List.zipWith f da db).length = da.length ∧
      ∀ i : ℕ, ∀ x y, da[i]? = some x → db[i]? = some y →
        (List.zipWith f da db)[i]? = some (f x y) := by
  constructor
  · simp [List.length_zipWith, hlen]
  · intro i x y hx hy
    rw [List.getElem?_zipWith_eq_some]
    exact ⟨x, y, hx, hy, rfl⟩

/-- **C8.** For arrays of identical shape (the asserted precondition of the
source, taken as a hypothesis) and well-formed buffers, each elementwise
binary operator produces a new array of that shape whose buffer has
`size = shape.prod` entries with `result[i] = a[i] OP b[i]` at every linear
index; the result element type `γ` is the natural promotion of the operand
element types, modelled by the heterogeneous operator instances. -/
theorem elementwise_binary_ops {α β γ : Type} [HAdd α β γ] [HSub α β γ]
    [HMul α β γ] [HDiv α β γ] {n : ℕ} (a : NDArray α n) (b : NDArray β n)
    (hshape : a.shape = b.shape)
    (ha : a.data.length = a.size) (hb : b.data.length = b.size) :
    ((a + b : NDArray γ n).shape = a.shape ∧
      (a + b : NDArray γ n).data.length = a.size ∧
      ∀ i : ℕ, ∀ x y, a.data[i]? = some x → b.data[i]? = some y →
        (a + b : NDArray γ n).data[i]? = some (x + y)) ∧
    ((a - b : NDArray γ n).shape = a.shape ∧
      (a - b : NDArray γ n).data.length = a.size ∧
      ∀ i : ℕ, ∀ x y, a.data[i]? = some x → b.data[i]? = some y →
        (a - b : NDArray γ n).data[i]? = some (x - y)) ∧
    ((a * b : NDArray γ n).shape = a.shape ∧
      (a * b : NDArray γ n).data.length = a.size ∧
      ∀ i : ℕ, ∀ x y, a.data[i]? = some x → b.data[i]? = some y →
        (a * b : NDArray γ n).data[i]? = some (x * y)) ∧
    ((a / b : NDArray γ n).shape = a.shape ∧
      (a / b : NDArray γ n).data.length = a.size ∧
      ∀ i : ℕ, ∀ x y, a.data[i]? = some x → b.data[i]? = some y →
        (a / b : NDArray γ n).data[i]? = some (x / y)) := by
  have hlen : a.data.length = b.data.length := by
    rw [ha, hb]
    simp [NDArray.size, hshape]
  have hadd := zipWith_spec (fun (x : α) (y : β) => x + y) a.data b.data hlen
  have hsub := zipWith_spec (fun (x : α) (y : β) => x - y) a.data b.data hlen
  have hmul := zipWith_spec (fun (x : α) (y : β) => x * y) a.data b.data hlen
  have hdiv := zipWith_spec (fun (x : α) (y : β) => x / y) a.data b.data hlen
  exact ⟨⟨rfl, by rw [← ha]; exact hadd.1, hadd.2⟩,
         ⟨rfl, by rw [← ha]; exact hsub.1, hsub.2⟩,
         ⟨rfl, by rw [← ha]; exact hmul.1, hmul.2⟩,
         ⟨rfl, by rw [← ha]; exact hdiv.1, hdiv.2⟩⟩

/-- Concrete instantiation of `elementwise_binary_ops` on two `(2,2)` integer
arrays, with every hypothesis discharged and one entry of each operator
result evaluated. -/
theorem elementwise_binary_ops_witness :
    ((⟨[2, 2], [1, 2, 3, 4]⟩ + ⟨[2, 2], [5, 6, 7, 8]⟩ : NDArray ℤ 2).data[2]? =
        some 10) ∧
    ((⟨[2, 2], [1, 2, 3, 4]⟩ - ⟨[2, 2], [5, 6, 7, 8]⟩ : NDArray ℤ 2).data[2]? =
        some (-4)) ∧
    ((⟨[2, 2], [1, 2, 3, 4]⟩ * ⟨[2, 2], [5, 6, 7, 8]⟩ : NDArray ℤ 2).data[2]? =
        some 21) ∧
    ((⟨[2, 2], [1, 2, 3, 4]⟩ / ⟨[2, 2], [5, 6, 7, 8]⟩ : NDArray ℤ 2).data[2]? =
        some 0) := by
  have h := elementwise_binary_ops (γ := ℤ)
    (⟨[2, 2], [1, 2, 3, 4]⟩ : NDArray ℤ 2) (⟨[2, 2], [5, 6, 7, 8]⟩ : NDArray ℤ 2)
    rfl (by decide) (by decide)
  refine ⟨?_, ?_, ?_, ?_⟩
  · have := h.1.2.2 2 3 7 (by decide) (by decide)
    simpa using this
  · have := h.2.1.2.2 2 3 7 (by decide) (by decide)
    simpa using this
  · have := h.2.2.1.2.2 2 3 7 (by decide) (by decide)
    simpa using this
  · have := h.2.2.2.2.2 2 3 7 (by decide) (by decide)
    simpa using this

/-- **C10.** `Empty(shape)` returns a buffer of value-initialized elements
(`std::make_shared<T[]>` value-initializes), so it is elementwise equal to
`Zeros(shape)` — as whole arrays — even though its storage is described as
uninitialized. -/
theorem empty_eq_zeros {α : Type} [Zero α] {n : ℕ} (shape : List ℕ) :
    (NDArray.Empty shape : NDArray α n) = NDArray.Zeros shape := by
  simp only [NDArray.Empty, NDArray.Zeros, NDArray.Full, NDArray.mk.injEq,
    true_and]
  rw [List.map_const']
  simp

end ND

namespace Geometry

/-! ## The trivial-input branch (C5) -/

/-- **C5.** When the effective point count `N` (the `count` argument, or all
rows when `count < 0`) is below 3, `computeConvexHull` returns exactly the
first `N` input rows, values and order unchanged (`count ≤ rows` is the
asserted precondition of the source). -/
theorem computeConvexHull_trivial (points : List Point) (count : ℤ)
    (hcount : count ≤ (points.length : ℤ))
    (hN : (if count < 0 then (points.length : ℤ) else count) < 3) :
    computeConvexHull points count =
        points.take (if count < 0 then (points.length : ℤ) else count).toNat ∧
      (computeConvexHull points count).length =
        (if count < 0 then (points.length : ℤ) else count).toNat := by
  have hlen : (points.take
      (if count < 0 then (points.length : ℤ) else count).toNat).length =
      (if count < 0 then (points.length : ℤ) else count).toNat := by
    rcases lt_or_le count 0 with h | h
    · simp [h]
    · rw [if_neg (not_lt.2 h)]
      rw [List.length_take]
      omega
  have hlt : (points.take
      (if count < 0 then (points.length : ℤ) else count).toNat).length < 3 := by
    rw [hlen]
    omega
  constructor
  · rw [computeConvexHull, if_pos hlt]
  · rw [computeConvexHull, if_pos hlt, hlen]

/-- Concrete instantiation of `computeConvexHull_trivial`: a two-point
restriction of a three-point set is returned unchanged. -/
theorem computeConvexHull_trivial_witness :
    computeConvexHull [(1, 1), (2, 2), (3, 3)] 2 = [(1, 1), (2, 2)] ∧
      (computeConvexHull [(1, 1), (2, 2), (3, 3)] 2).length = 2 := by
  have h := computeConvexHull_trivial [(1, 1), (2, 2), (3, 3)] 2
    (by norm_num) (by norm_num)
  simpa using h

end Geometry

namespace Geometry

/-! ## Structural properties of the pop loop -/

theorem cross_zero_right (u : Point) : cross u 0 = 0 := by
  simp [cross]

theorem cross_zero_left (u : Point) : cross 0 u = 0 := by
  simp [cross]

theorem hullPop_suffix (p : Point) : ∀ st : List Point, hullPop p st <:+ st
  | [] => by simp [hullPop]
  | [a] => by simp [hullPop]
  | a :: b :: tl => by
    simp only [hullPop]
    split
    · exact (hullPop_suffix p (b :: tl)).trans (List.suffix_cons a (b :: tl))
    · exact List.suffix_rfl

theorem hullPop_ne_nil (p : Point) : ∀ st : List Point, st ≠ [] →
    hullPop p st ≠ []
  | [], h => absurd rfl h
  | [a], _ => by simp [hullPop]
  | a :: b :: tl, _ => by
    simp only [hullPop]
    split
    · exact hullPop_ne_nil p (b :: tl) (by simp)
    · simp

theorem hullPop_getLast? (p : Point) : ∀ st : List Point,
    (hullPop p st).getLast? = st.getLast?
  | [] => by simp [hullPop]
  | [a] => by simp [hullPop]
  | a :: b :: tl => by
    simp only [hullPop]
    split
    · rw [hullPop_getLast? p (b :: tl)]
      simp [List.getLast?_cons_cons]
    · rfl

theorem hullPop_exit (p : Point) : ∀ st : List Point, st ≠ [] →
    (∃ x, hullPop p st = [x]) ∨
      ∃ a b tl, hullPop p st = a :: b :: tl ∧ 0 < cross (a - b) (p - b)
  | [], h => absurd rfl h
  | [a], _ => Or.inl ⟨a, by simp [hullPop]⟩
  | a :: b :: tl, _ => by
    simp only [hullPop]
    split
    · exact hullPop_exit p (b :: tl) (by simp)
    · rename_i hcond
      exact Or.inr ⟨a, b, tl, rfl, lt_of_not_le hcond⟩

/-! ## Closure of stack predicates under suffixes -/

theorem turns_tail {a : Point} {tl : List Point} (h : Turns (a :: tl)) :
    Turns tl := by
  match tl with
  | [] => trivial
  | [b] => trivial
  | b :: c :: tl2 => exact h.2

theorem turns_suffix {st st' : List Point} (h : st' <:+ st) (ht : Turns st) :
    Turns st' := by
  obtain ⟨t, rfl⟩ := h
  induction t with
  | nil => exact ht
  | cons x t ih => exact ih (turns_tail ht)

theorem leftAll_tail {q a : Point} {tl : List Point}
    (h : LeftAll q (a :: tl)) : LeftAll q tl := by
  match tl with
  | [] => trivial
  | b :: tl2 => exact h.2

theorem leftAll_suffix {q : Point} {st st' : List Point} (h : st' <:+ st)
    (ht : LeftAll q st) : LeftAll q st' := by
  obtain ⟨t, rfl⟩ := h
  induction t with
  | nil => exact ht
  | cons x t ih => exact ih (leftAll_tail ht)

theorem chain'_suffix {R : Point → Point → Prop} {st st' : List Point}
    (h : st' <:+ st) (hchain : List.Chain' R st) : List.Chain' R st' := by
  obtain ⟨t, rfl⟩ := h
  induction t with
  | nil => exact hchain
  | cons x t ih => exact ih ((List.chain'_cons'.1 hchain).2)

end Geometry

namespace Geometry

/-! ## Geometric step lemmas for the chain invariants -/

theorem pos_combo {pos : Point → Prop} (hc : IsPosCone pos) {u v : Point}
    (hu : pos u) (hv : pos v) {α β : ℚ} (hα : 0 < α) (hβ : 0 ≤ β) :
    pos (α • u + β • v) := by
  rcases eq_or_lt_of_le hβ with rfl | hβ
  · simpa using hc.smul α hu hα
  · exact hc.add (hc.smul α hu hα) (hc.smul β hv hβ)

theorem pos_combo' {pos : Point → Prop} (hc : IsPosCone pos) {u v : Point}
    (hu : pos u) (hv : pos v) {α β : ℚ} (hα : 0 ≤ α) (hβ : 0 < β) :
    pos (α • u + β • v) := by
  have h := pos_combo hc hv hu hβ hα
  rwa [add_comm] at h

/-- Convexity propagation at the stack top (Lemma A): if `q` is cone-below
`b`, on or left of the edge `a → b`, and the turn `a → b → c` is strictly
counter-clockwise with `a ≺ b ≺ c`, then `q` is on or left of `b → c`. -/
theorem left_turn_step {pos : Point → Prop} (hc : IsPosCone pos)
    {a b c q : Point} (hab : cLt pos a b) (hbc : cLt pos b c)
    (hq : cLe pos q b) (hleft : 0 ≤ cross (b - a) (q - a))
    (hD : 0 < cross (b - a) (c - b)) : 0 ≤ cross (c - b) (q - b) := by
  rcases eq_or_ne q b with rfl | hqb
  · simp [sub_self, cross_zero_right]
  obtain ⟨α, β, hw, hβ, hα⟩ := exists_decomp (ne_of_gt hD) (q - b)
  have hβ0 : 0 ≤ β := by
    have hshift : cross (b - a) (q - a) = cross (b - a) (q - b) := by
      have h := cross_shift_base b a q
      linarith [h]
    nlinarith [hβ, hleft, hshift]
  have hqb' : pos (b - q) := by
    rcases hq with rfl | h
    · exact absurd rfl hqb
    · exact h
  have hα0 : α ≤ 0 := by
    by_contra hpos
    push_neg at hpos
    have h1 : pos (α • (b - a) + β • (c - b)) :=
      pos_combo hc hab hbc hpos hβ0
    rw [← hw] at h1
    exact hc.asym h1 (by simpa [neg_sub] using hqb')
  have hgoal : cross (c - b) (q - b) = -(α * cross (b - a) (c - b)) := by
    have h := cross_comm_neg (q - b) (c - b)
    linarith [hα]
  rw [hgoal]
  nlinarith [hα0, hD]

/-- Cascade case A: during a pop of the top `a` (with second `b`), any point
strictly cone-above `b` that was on or left of the edge `b → a` stays on or
left of `b → p`. -/
theorem cascade_caseA {pos : Point → Prop} (hc : IsPosCone pos)
    {a b p q : Point} (hba : cLt pos b a) (hbp : cLt pos b p)
    (hpop : cross (a - b) (p - b) ≤ 0) (hleft : 0 ≤ cross (a - b) (q - b))
    (hq : cLt pos b q) : 0 ≤ cross (p - b) (q - b) := by
  rcases eq_or_lt_of_le hpop with heq | hlt
  · obtain ⟨lam, hlam⟩ := collinear_factor heq (hc.ne_zero hba)
    have hl : 0 < lam := hc.smul_factor_pos hba (hlam ▸ hbp)
    rw [hlam, cross_smul_left]
    positivity
  · obtain ⟨α, β, hw, hβ, hα⟩ := exists_decomp (ne_of_lt hlt) (q - b)
    have hβ0 : β ≤ 0 := by nlinarith [hβ, hleft]
    have hα0 : 0 ≤ α := by
      by_contra hneg
      push_neg at hneg
      have h1 : pos ((-α) • (a - b) + (-β) • (p - b)) :=
        pos_combo hc hba hbp (by linarith) (by linarith)
      have h2 : (-α) • (a - b) + (-β) • (p - b) = -(q - b) := by
        rw [hw]
        module
      rw [h2] at h1
      exact hc.asym hq h1
    have hgoal : cross (p - b) (q - b) = α * (-cross (a - b) (p - b)) := by
      have h := cross_comm_neg (q - b) (p - b)
      linarith [hα]
    rw [hgoal]
    nlinarith [hα0, hlt]

/-- Cascade case B: pure algebra — left of the edge `b → a` and left of
`a → p` implies left of the shortcut `b → p` when the path turns clockwise
at `a`. -/
theorem cascade_caseB {a b p q : Point}
    (hleft1 : 0 ≤ cross (a - b) (q - b)) (hleft2 : 0 ≤ cross (p - a) (q - a))
    (hpop : cross (a - b) (p - b) ≤ 0) : 0 ≤ cross (p - b) (q - b) := by
  have h4 := cross_four a b p q
  have hs := cross_shift_base a b p
  linarith

/-- A freshly pushed point is on or left of every edge below it: it is left
of the top edge (the pop-loop exit condition), and the chain turns only
counter-clockwise below. -/
theorem leftAll_descend {pos : Point → Prop} (hc : IsPosCone pos) (p : Point) :
    ∀ (tl : List Point) (a b : Point),
    List.Chain' (fun x y => cLt pos y x) (a :: b :: tl) →
    Turns (a :: b :: tl) →
    0 ≤ cross (a - b) (p - b) → cLe pos a p →
    LeftAll p (a :: b :: tl)
  | [], a, b, _, _, htop, _ => ⟨htop, trivial⟩
  | c :: tl2, a, b, hchain, hturns, htop, hap => by
    have hchain' := List.chain'_cons'.1 hchain
    have hcb : cLt pos c b := by
      have h := (List.chain'_cons'.1 hchain'.2).1
      simpa using h c rfl
    have hba : cLt pos b a := by simpa using hchain'.1 b rfl
    have hbp : cLt pos b p := hc.cLt_of_cLt_of_cLe hba hap
    have hD : 0 < cross (b - c) (a - b) := hturns.1
    -- dual propagation one level down
    obtain ⟨α, β, hw, hβ, hα⟩ := exists_decomp (ne_of_gt hD) (p - b)
    have hα0 : α ≤ 0 := by
      have h := cross_comm_neg (p - b) (a - b)
      nlinarith [hα, htop]
    have hβ0 : 0 ≤ β := by
      by_contra hneg
      push_neg at hneg
      have h1 : pos ((-α) • (b - c) + (-β) • (a - b)) :=
        pos_combo' hc hcb hba (by linarith) (by linarith)
      have h2 : (-α) • (b - c) + (-β) • (a - b) = -(p - b) := by
        rw [hw]
        module
      rw [h2] at h1
      exact hc.asym hbp h1
    have hnext : 0 ≤ cross (b - c) (p - c) := by
      have hs : cross (b - c) (p - c) = cross (b - c) (p - b) := by
        have h := cross_shift_base b c p
        linarith
      nlinarith [hβ, hβ0, hD, hs]
    exact ⟨htop, leftAll_descend hc p tl2 b c hchain'.2 hturns.2 hnext
      (Or.inr hbp)⟩

end Geometry

namespace Geometry

/-! ## The pop-cascade lemma and the chain invariant -/

theorem cLe_antisymm {pos : Point → Prop} (hc : IsPosCone pos) {a b : Point}
    (h1 : cLe pos a b) (h2 : cLe pos b a) : a = b := by
  rcases h1 with rfl | h1
  · rfl
  rcases h2 with rfl | h2
  · rfl
  · exact absurd h1 (hc.cLt_asymm h2)

/-- The cascade invariant: every processed point `q` is either cone-at-most
the current top, or on / left of the edge from the top towards the incoming
point `p`; `hullPop` preserves it. -/
theorem hullPop_cascade {pos : Point → Prop} (hc : IsPosCone pos)
    (p q : Point) : ∀ st : List Point,
    List.Chain' (fun x y => cLe pos y x) st →
    LeftAll q st →
    (∀ x ∈ st, cLe pos x p) →
    st ≠ [] →
    (cLe pos q (st.headD 0) ∨ 0 ≤ cross (p - st.headD 0) (q - st.headD 0)) →
    (cLe pos q ((hullPop p st).headD 0) ∨
      0 ≤ cross (p - (hullPop p st).headD 0) (q - (hullPop p st).headD 0))
  | [], _, _, _, hne, _ => absurd rfl hne
  | [a], _, _, _, _, hstart => by simpa [hullPop] using hstart
  | a :: b :: tl, hchain, hleft, hmem, _, hstart => by
    simp only [hullPop]
    split
    · rename_i hpop
      apply hullPop_cascade hc p q (b :: tl) (List.chain'_cons'.1 hchain).2
        (leftAll_tail hleft) (fun x hx => hmem x (List.mem_cons_of_mem a hx))
        (by simp)
      simp only [List.headD_cons]
      by_cases hqb : cLe pos q b
      · exact Or.inl hqb
      · have hbq : cLt pos b q := by
          rcases eq_or_ne q b with rfl | hne
          · exact absurd (Or.inl rfl) hqb
          · rcases hc.cLe_total_of_ne hne with h | h
            · exact absurd (Or.inr h) hqb
            · exact h
        rcases eq_or_ne p b with rfl | hpb
        · exact Or.inr (by simp [sub_self, cross_zero_left])
        have hbp : cLt pos b p :=
          IsPosCone.cLt_of_cLe_ne (hmem b (by simp)) (Ne.symm hpb)
        rcases hstart with hqa | hright
        · -- case A: `q` cone-above `b` but at most the popped top `a`
          rcases eq_or_ne a b with rfl | hab
          · exact absurd hqa hqb
          have hba : cLt pos b a :=
            IsPosCone.cLt_of_cLe_ne
              (by simpa using (List.chain'_cons'.1 hchain).1 b rfl)
              (Ne.symm hab)
          simp only [List.headD_cons] at hqa
          exact Or.inr (cascade_caseA hc hba hbp hpop hleft.1 hbq)
        · -- case B
          simp only [List.headD_cons] at hright
          exact Or.inr (cascade_caseB hleft.1 hright hpop)
    · exact hstart

/-- After the pop loop and the push of `p`, every previously processed point
`q` is on or left of the new top edge. -/
theorem push_edge_left {pos : Point → Prop} (hc : IsPosCone pos)
    {st : List Point} {p q : Point}
    (hchain : List.Chain' (fun x y => cLe pos y x) st)
    (hleft : LeftAll q st)
    (hmem : ∀ x ∈ st, cLe pos x p)
    (hne : st ≠ [])
    (hbot : cLe pos (st.getLastD 0) q)
    (htop : cLe pos q (st.headD 0)) :
    0 ≤ cross (p - (hullPop p st).headD 0) (q - (hullPop p st).headD 0) := by
  have hcas := hullPop_cascade hc p q st hchain hleft hmem hne (Or.inl htop)
  rcases hcas with hql | hr
  · -- `q` at most the post-pop top: use the exit condition
    rcases hullPop_exit p st hne with ⟨x, hx⟩ | ⟨a, b, tl, hst', hstrict⟩
    · -- the stack collapsed to its bottom
      have hxbot : x = st.getLastD 0 := by
        have h1 := hullPop_getLast? p st
        rw [hx] at h1
        simp only [List.getLast?_singleton] at h1
        rcases st with _ | ⟨y, ys⟩
        · exact absurd rfl hne
        · rw [List.getLastD_eq_getLast?]
          rw [← h1]
          rfl
      rw [hx] at hql ⊢
      simp only [List.headD_cons] at hql ⊢
      have : q = x := by
        apply cLe_antisymm hc hql
        rw [hxbot]
        exact hbot
      rw [this]
      simp [sub_self, cross_zero_right]
    · -- strict exit: one application of the turn-propagation lemma
      rw [hst'] at hql ⊢
      simp only [List.headD_cons] at hql ⊢
      have hsub : (a :: b :: tl) <:+ st := hst' ▸ hullPop_suffix p st
      have hchain' : List.Chain' (fun x y => cLe pos y x) (a :: b :: tl) :=
        chain'_suffix hsub hchain
      have hab : a ≠ b := by
        intro h
        rw [h, sub_self, cross_zero_left] at hstrict
        exact lt_irrefl 0 hstrict
      have hba : cLt pos b a :=
        IsPosCone.cLt_of_cLe_ne
          (by simpa using (List.chain'_cons'.1 hchain').1 b rfl) (Ne.symm hab)
      have hap : a ≠ p := by
        intro h
        rw [← h] at hstrict
        have := cross_shift_base a b a
        rw [sub_self, cross_zero_right] at this
        linarith
      have hap' : cLt pos a p :=
        IsPosCone.cLt_of_cLe_ne (hmem a (hsub.subset (by simp))) hap
      have hleft' : LeftAll q (a :: b :: tl) := leftAll_suffix hsub hleft
      have hD : 0 < cross (a - b) (p - a) := by
        have := cross_shift_base a b p
        linarith
      exact left_turn_step hc hba hap' hql hleft'.1 hD
  · exact hr

end Geometry

namespace Geometry

/-- The monotone-chain stack invariant, relative to a positivity cone `pos`
and the list `processed` of points consumed so far (in cone order). -/
structure ChainInv (pos : Point → Prop) (processed : List Point)
    (st : List Point) : Prop where
  ne : st ≠ []
  sub : ∀ x ∈ st, x ∈ processed
  top : ∀ q ∈ processed, cLe pos q (st.headD 0)
  bot : ∀ q ∈ processed, cLe pos (st.getLastD 0) q
  chain : List.Chain' (fun x y => cLe pos y x) st
  strict : List.Chain' (fun x y => cLt pos y x) st ∨ ∃ x, st = [x, x]
  turns : Turns st
  left : ∀ q ∈ processed, LeftAll q st

theorem hullPop_pair (p x : Point) : hullPop p [x, x] = [x] := by
  simp [hullPop, sub_self, cross_zero_left]

theorem chainInv_step {pos : Point → Prop} (hc : IsPosCone pos)
    {processed st : List Point} {p : Point}
    (inv : ChainInv pos processed st) (hp : ∀ q ∈ processed, cLe pos q p) :
    ChainInv pos (processed ++ [p]) (chainStep st p) := by
  have hsub : hullPop p st <:+ st := hullPop_suffix p st
  have hne' : hullPop p st ≠ [] := hullPop_ne_nil p st inv.ne
  have hmemp : ∀ x ∈ st, cLe pos x p := fun x hx => hp x (inv.sub x hx)
  have hlast : (p :: hullPop p st).getLastD 0 = st.getLastD 0 := by
    rcases hpe : hullPop p st with _ | ⟨y, ys⟩
    · exact absurd hpe hne'
    · have h1 : (y :: ys).getLast? = st.getLast? := by
        rw [← hpe]
        exact hullPop_getLast? p st
      simp only [List.getLastD_eq_getLast?, List.getLast?_cons_cons]
      rw [h1]
  have hstrict' : List.Chain' (fun x y => cLt pos y x) (hullPop p st) := by
    rcases inv.strict with h | ⟨x, hx⟩
    · exact chain'_suffix hsub h
    · rw [hx, hullPop_pair]
      simp
  refine ⟨by simp [chainStep], ?_, ?_, ?_, ?_, ?_, ?_, ?_⟩
  · intro x hx
    rcases List.mem_cons.1 hx with rfl | hx
    · exact List.mem_append_right _ (by simp)
    · exact List.mem_append_left _ (inv.sub x (hsub.subset hx))
  · intro q hq
    simp only [chainStep, List.headD_cons]
    rcases List.mem_append.1 hq with hq | hq
    · exact hp q hq
    · simp only [List.mem_singleton] at hq
      exact hq ▸ Or.inl rfl
  · intro q hq
    simp only [chainStep, hlast]
    rcases List.mem_append.1 hq with hq | hq
    · exact inv.bot q hq
    · simp only [List.mem_singleton] at hq
      subst hq
      have hmem : st.getLastD 0 ∈ st := by
        rcases st with _ | ⟨y, ys⟩
        · exact absurd rfl inv.ne
        · have h2 := List.getLast?_eq_getLast (y :: ys) (by simp)
          rw [List.getLastD_eq_getLast?, h2, Option.getD_some]
          exact List.getLast_mem _
      exact hmemp _ hmem
  · refine List.chain'_cons'.2 ⟨?_, chain'_suffix hsub inv.chain⟩
    intro y hy
    apply hmemp
    apply hsub.subset
    rcases hpe : hullPop p st with _ | ⟨z, zs⟩
    · exact absurd hpe hne'
    · rw [hpe] at hy
      simp only [List.head?_cons, Option.mem_some_iff] at hy
      simp [hpe, ← hy]
  · rcases hullPop_exit p st inv.ne with ⟨x, hx⟩ | ⟨a, b, tl, hst', hstrict⟩
    · rcases eq_or_ne p x with rfl | hpx
      · exact Or.inr ⟨p, by rw [chainStep, hx]⟩
      · left
        rw [chainStep, hx]
        refine List.chain'_cons'.2 ⟨?_, by simp⟩
        intro y hy
        simp only [List.head?_cons, Option.mem_some_iff] at hy
        rw [← hy]
        exact IsPosCone.cLt_of_cLe_ne
          (hmemp x (hsub.subset (by simp [hx]))) (Ne.symm hpx)
    · left
      rw [chainStep, hst']
      refine List.chain'_cons'.2 ⟨?_, hst' ▸ hstrict'⟩
      intro y hy
      simp only [List.head?_cons, Option.mem_some_iff] at hy
      rw [← hy]
      have hap : a ≠ p := by
        intro h
        rw [← h, cross_shift_base, sub_self, cross_zero_right] at hstrict
        exact lt_irrefl 0 hstrict
      exact IsPosCone.cLt_of_cLe_ne
        (hmemp a (hsub.subset (by simp [hst']))) hap
  · rcases hullPop_exit p st inv.ne with ⟨x, hx⟩ | ⟨a, b, tl, hst', hstrict⟩
    · rw [chainStep, hx]
      exact trivial
    · rw [chainStep, hst']
      refine ⟨?_, turns_suffix (hst' ▸ hsub) inv.turns⟩
      have hs := cross_shift_base a b p
      linarith
  · intro q hq
    rcases List.mem_append.1 hq with hq | hq
    · -- previously processed point
      have hedge := push_edge_left hc inv.chain (inv.left q hq) hmemp inv.ne
        (inv.bot q hq) (inv.top q hq)
      rcases hpe : hullPop p st with _ | ⟨y, ys⟩
      · exact absurd hpe hne'
      · rw [chainStep, hpe]
        rw [hpe] at hedge
        simp only [List.headD_cons] at hedge
        exact ⟨hedge, leftAll_suffix (hpe ▸ hsub) (inv.left q hq)⟩
    · -- the new point itself
      simp only [List.mem_singleton] at hq
      rw [hq]
      rcases hullPop_exit p st inv.ne with ⟨x, hx⟩ | ⟨a, b, tl, hst', hstrict⟩
      · rw [chainStep, hx]
        exact ⟨by simp [sub_self, cross_zero_right, cross_self], trivial⟩
      · rw [chainStep, hst']
        refine ⟨by simp [sub_self, cross_zero_right, cross_self], ?_⟩
        exact leftAll_descend hc p tl a b (hst' ▸ hstrict')
          (turns_suffix (hst' ▸ hsub) inv.turns) (le_of_lt hstrict)
          (hmemp a (hsub.subset (by simp [hst'])))

theorem chainInv_fold {pos : Point → Prop} (hc : IsPosCone pos) (b0 : Point)
    (ps : List Point) (hsorted : List.Chain' (cLe pos) (b0 :: ps)) :
    ChainInv pos (b0 :: ps) (chainFold [b0] ps) := by
  haveI : IsTrans Point (cLe pos) := ⟨fun a b c h1 h2 => hc.cLe_trans h1 h2⟩
  induction ps using List.reverseRecOn with
  | nil =>
    have hb : chainFold [b0] [] = [b0] := rfl
    rw [hb]
    refine ⟨by simp, fun x hx => hx, ?_, ?_, List.chain'_singleton b0,
      Or.inl (List.chain'_singleton b0), trivial, fun q hq => trivial⟩
    · intro q hq
      simp only [List.mem_singleton] at hq
      rw [hq]
      exact Or.inl rfl
    · intro q hq
      simp only [List.mem_singleton] at hq
      rw [hq]
      exact Or.inl rfl
  | append_singleton ps p ih =>
    have hpre : List.Chain' (cLe pos) (b0 :: ps) :=
      List.Chain'.prefix hsorted (by
        refine ⟨[p], ?_⟩
        simp)
    have hpair := List.chain'_iff_pairwise.1 hsorted
    have hp : ∀ q ∈ b0 :: ps, cLe pos q p := by
      have hpair2 : List.Pairwise (cLe pos) ((b0 :: ps) ++ [p]) := by
        simpa using hpair
      have h := (List.pairwise_append.1 hpair2).2.2
      intro q hq
      exact h q hq p (by simp)
    have hfold : chainFold [b0] (ps ++ [p]) = chainStep (chainFold [b0] ps) p := by
      simp [chainFold, List.foldl_append]
    rw [hfold]
    have hstep := chainInv_step hc (ih hpre) hp
    simpa using hstep

end Geometry

namespace Geometry

/-! ## The upper pass as a lower pass on a substack -/

/-- The lower-hull stack of the core branch (head = top of stack). -/
def lowerStack (P : List Point) : List Point := chainFold [] (sortPoints P)

/-- The upper-hull substack of the core branch: the upper pass acts as an
unguarded pop loop on the part of the stack sitting on top of the frozen
lower hull, whose base is the lower stack's top. -/
def upperStack (P : List Point) : List Point :=
  chainFold [(lowerStack P).headD 0] ((sortPoints P).dropLast.reverse)

theorem hullPopUpper_eq (p : Point) : ∀ (sub rest : List Point), sub ≠ [] →
    hullPopUpper (rest.length + 1) p (sub ++ rest) = hullPop p sub ++ rest
  | [], _, h => absurd rfl h
  | [x], rest, _ => by
    rcases rest with _ | ⟨r, rest'⟩
    · simp [hullPopUpper, hullPop]
    · show hullPopUpper (rest'.length + 1 + 1) p (x :: r :: rest') = _
      simp only [hullPopUpper, hullPop]
      rw [if_neg]
      · rfl
      · rintro ⟨h1, _⟩
        simp at h1
  | a :: b :: sub', rest, _ => by
    show hullPopUpper (rest.length + 1) p (a :: (b :: (sub' ++ rest))) = _
    have hlen2 : (b :: (sub' ++ rest)).length + 1 > rest.length + 1 := by
      simp
      omega
    simp only [hullPopUpper, hullPop]
    by_cases hcr : cross (a - b) (p - b) ≤ 0
    · rw [if_pos ⟨hlen2, hcr⟩, if_pos hcr]
      exact hullPopUpper_eq p (b :: sub') rest (by simp)
    · rw [if_neg (fun h => hcr h.2), if_neg hcr]
      rfl

theorem upperFold_eq : ∀ (ps sub rest : List Point), sub ≠ [] →
    ps.foldl (upperStep (rest.length + 1)) (sub ++ rest) =
      chainFold sub ps ++ rest
  | [], sub, rest, _ => by simp [chainFold]
  | p :: ps', sub, rest, hne => by
    have hstep : upperStep (rest.length + 1) (sub ++ rest) p =
        chainStep sub p ++ rest := by
      rw [upperStep, chainStep, hullPopUpper_eq p sub rest hne]
      rfl
    calc (p :: ps').foldl (upperStep (rest.length + 1)) (sub ++ rest)
        = ps'.foldl (upperStep (rest.length + 1)) (chainStep sub p ++ rest) := by
          rw [List.foldl_cons, hstep]
      _ = chainFold (chainStep sub p) ps' ++ rest :=
          upperFold_eq ps' (chainStep sub p) rest (by simp [chainStep])
      _ = chainFold sub (p :: ps') ++ rest := by
          simp [chainFold]

/-! ## Elementary facts about the chain fold -/

theorem chainFold_nil_cons (x : Point) (xs : List Point) :
    chainFold [] (x :: xs) = chainFold [x] xs := by
  simp [chainFold, List.foldl_cons, chainStep, hullPop]

theorem chainFold_ne_nil : ∀ (ps init : List Point), init ≠ [] →
    chainFold init ps ≠ []
  | [], init, h => by simpa [chainFold] using h
  | p :: ps', init, _ => by
    rw [chainFold, List.foldl_cons]
    exact chainFold_ne_nil ps' (chainStep init p) (by simp [chainStep])

theorem chainFold_getLast? : ∀ (ps init : List Point), init ≠ [] →
    (chainFold init ps).getLast? = init.getLast?
  | [], init, _ => rfl
  | p :: ps', init, hne => by
    rw [chainFold, List.foldl_cons]
    have h1 := chainFold_getLast? ps' (chainStep init p) (by simp [chainStep])
    rw [chainFold] at h1
    rw [h1]
    show (p :: hullPop p init).getLast? = init.getLast?
    have h2 := hullPop_getLast? p init
    have h3 : hullPop p init ≠ [] := hullPop_ne_nil p init hne
    rcases hpe : hullPop p init with _ | ⟨y, ys⟩
    · exact absurd hpe h3
    · rw [List.getLast?_cons_cons, ← hpe, h2]

theorem chainFold_head : ∀ (ps init : List Point), init ≠ [] →
    (chainFold init ps).headD 0 = ps.getLastD (init.headD 0)
  | [], init, _ => rfl
  | p :: ps', init, _ => by
    rw [chainFold, List.foldl_cons]
    have h1 := chainFold_head ps' (chainStep init p) (by simp [chainStep])
    rw [chainFold] at h1
    rw [h1]
    show ps'.getLastD ((chainStep init p).headD 0) = (p :: ps').getLastD (init.headD 0)
    rw [List.getLastD_cons]
    rfl

/-! ## Decomposition of the hull output -/

theorem computeConvexHull_core (P : List Point) (h3 : 3 ≤ P.length) :
    computeConvexHull P (-1) =
      (lowerStack P).tail.reverse ++ (upperStack P).tail.reverse := by
  have hne : sortPoints P ≠ [] := by
    intro h
    have h0 : P.length = 0 := by
      rw [← (sortPoints_perm P).length_eq, h]
      rfl
    omega
  have hlne : lowerStack P ≠ [] := by
    rcases hs : sortPoints P with _ | ⟨s0, rest⟩
    · exact absurd hs hne
    · rw [lowerStack, hs, chainFold_nil_cons]
      exact chainFold_ne_nil rest [s0] (by simp)
  have hune : upperStack P ≠ [] :=
    chainFold_ne_nil _ _ (by simp)
  rw [computeConvexHull]
  simp only [if_pos (show (-1 : ℤ) < 0 by norm_num), Int.toNat_natCast,
    List.take_length]
  rw [if_neg (show ¬ P.length < 3 by omega)]
  have hsplit : lowerStack P = [(lowerStack P).headD 0] ++ (lowerStack P).tail := by
    rcases hl : lowerStack P with _ | ⟨y, ys⟩
    · exact absurd hl hlne
    · simp
  have hfold : ((sortPoints P).dropLast.reverse).foldl
      (upperStep (lowerStack P).length) (lowerStack P) =
      upperStack P ++ (lowerStack P).tail := by
    have hlen : (lowerStack P).length = (lowerStack P).tail.length + 1 := by
      rcases hl : lowerStack P with _ | ⟨y, ys⟩
      · exact absurd hl hlne
      · simp
    rw [hlen]
    conv_lhs => rw [hsplit]
    exact upperFold_eq _ _ _ (by simp)
  rw [show chainFold [] (sortPoints P) = lowerStack P from rfl]
  rw [hfold]
  have htail : (upperStack P ++ (lowerStack P).tail).tail =
      (upperStack P).tail ++ (lowerStack P).tail := by
    rcases hu : upperStack P with _ | ⟨y, ys⟩
    · exact absurd hu hune
    · simp
  rw [htail, List.reverse_append]

end Geometry

namespace Geometry

/-! ## Invariants of the two passes of the core branch -/

theorem sortPoints_chain (P : List Point) :
    List.Chain' (cLe lexpos) (sortPoints P) := by
  have h : List.Pairwise lexLe (sortPoints P) := sortPoints_sorted P
  have h2 : List.Chain' lexLe (sortPoints P) := List.chain'_iff_pairwise.2 h
  exact List.Chain'.imp (fun a b hab => (lexLe_iff_cLe a b).1 hab) h2


theorem lowerStack_inv (P : List Point) (hne : sortPoints P ≠ []) :
    ChainInv lexpos (sortPoints P) (lowerStack P) := by
  rcases hs : sortPoints P with _ | ⟨s0, rest⟩
  · exact absurd hs hne
  · have hchain := sortPoints_chain P
    rw [hs] at hchain
    rw [lowerStack, hs, chainFold_nil_cons]
    exact chainInv_fold isPosCone_lexpos s0 rest hchain

theorem reverse_eq_getLast_cons {l : List Point} (h : l ≠ []) :
    l.reverse = l.getLastD 0 :: l.dropLast.reverse := by
  conv_lhs => rw [← List.dropLast_append_getLast h]
  rw [List.reverse_append]
  simp [List.getLastD_eq_getLast?, List.getLast?_eq_getLast _ h]

theorem upperStack_inv (P : List Point) (hne : sortPoints P ≠ []) :
    ChainInv (fun d => lexpos (-d)) ((sortPoints P).reverse) (upperStack P) := by
  have hb0 : (lowerStack P).headD 0 = (sortPoints P).getLastD 0 := by
    rcases hs : sortPoints P with _ | ⟨s0, rest⟩
    · exact absurd hs hne
    · rw [lowerStack, hs, chainFold_nil_cons, chainFold_head rest [s0] (by simp)]
      rw [List.getLastD_cons]
      rfl
  have hrev := reverse_eq_getLast_cons hne
  have hchain : List.Chain' (cLe (fun d => lexpos (-d)))
      ((sortPoints P).reverse) := by
    rw [List.chain'_reverse]
    refine (sortPoints_chain P).imp ?_
    intro a b hab
    rcases hab with rfl | hab
    · exact Or.inl rfl
    · refine Or.inr ?_
      show lexpos (-(a - b))
      rw [neg_sub]
      exact hab
  rw [upperStack, hb0]
  rw [hrev] at hchain ⊢
  exact chainInv_fold isPosCone_lexneg _ _ hchain

theorem chainFold_length_two : ∀ (ps init : List Point), init ≠ [] →
    ps ≠ [] → 2 ≤ (chainFold init ps).length
  | [], _, _, hps => absurd rfl hps
  | [p], init, hne, _ => by
    have h := hullPop_ne_nil p init hne
    have h2 := List.length_pos.2 h
    show 2 ≤ (chainStep init p).length
    simp only [chainStep, List.length_cons]
    omega
  | p :: p2 :: ps', init, hne, _ => by
    rw [chainFold, List.foldl_cons]
    exact chainFold_length_two (p2 :: ps') (chainStep init p)
      (by simp [chainStep]) (by simp)

/-- Packaged facts about the two stacks of the core branch. -/
structure CoreFacts (P : List Point) : Prop where
  low : ChainInv lexpos (sortPoints P) (lowerStack P)
  up : ChainInv (fun d => lexpos (-d)) ((sortPoints P).reverse) (upperStack P)
  lowLen : 2 ≤ (lowerStack P).length
  upLen : 2 ≤ (upperStack P).length
  lowHead : (lowerStack P).headD 0 = (sortPoints P).getLastD 0
  lowBot : (lowerStack P).getLastD 0 = (sortPoints P).headD 0
  upBase : (upperStack P).getLastD 0 = (sortPoints P).getLastD 0
  upHead : (upperStack P).headD 0 = (sortPoints P).headD 0
  sortLen : 3 ≤ (sortPoints P).length

theorem coreFacts (P : List Point) (h3 : 3 ≤ P.length) : CoreFacts P := by
  have hsl : (sortPoints P).length = P.length := (sortPoints_perm P).length_eq
  have hne : sortPoints P ≠ [] := by
    intro h
    rw [h] at hsl
    simp at hsl
    omega
  rcases hs : sortPoints P with _ | ⟨s0, rest⟩
  · exact absurd hs hne
  have hrest : rest ≠ [] := by
    intro h
    rw [hs, h] at hsl
    simp at hsl
    omega
  have hdlne : (sortPoints P).dropLast.reverse ≠ [] := by
    intro h
    have h1 : (sortPoints P).dropLast.length = 0 := by
      rw [← List.length_reverse ((sortPoints P).dropLast), h]
      rfl
    rw [List.length_dropLast, hsl] at h1
    omega
  refine ⟨lowerStack_inv P hne, upperStack_inv P hne, ?_, ?_, ?_, ?_, ?_, ?_, ?_⟩
  · rw [lowerStack, hs, chainFold_nil_cons]
    exact chainFold_length_two rest [s0] (by simp) hrest
  · exact chainFold_length_two _ _ (by simp) hdlne
  · rcases hs2 : sortPoints P with _ | ⟨s0', rest'⟩
    · exact absurd hs2 hne
    · rw [lowerStack, hs2, chainFold_nil_cons, chainFold_head rest' [s0'] (by simp)]
      rw [List.getLastD_cons]
      rfl
  · rcases hs2 : sortPoints P with _ | ⟨s0', rest'⟩
    · exact absurd hs2 hne
    · rw [lowerStack, hs2, chainFold_nil_cons, List.getLastD_eq_getLast?,
        chainFold_getLast? rest' [s0'] (by simp)]
      simp
  · rw [upperStack, List.getLastD_eq_getLast?, chainFold_getLast? _ _ (by simp)]
    rcases hs2 : sortPoints P with _ | ⟨s0', rest'⟩
    · exact absurd hs2 hne
    · rw [lowerStack, hs2, chainFold_nil_cons, chainFold_head rest' [s0'] (by simp)]
      rw [List.getLastD_cons]
      rfl
  · rw [upperStack, chainFold_head _ _ (by simp)]
    have hgl : ((sortPoints P).dropLast.reverse).getLastD
        ([(lowerStack P).headD 0].headD 0) = (sortPoints P).headD 0 := by
      rw [hs]
      rcases rest with _ | ⟨s1, rest2⟩
      · exact absurd rfl hrest
      · rw [List.getLastD_eq_getLast?]
        have hdl : ((s0 :: s1 :: rest2).dropLast) = s0 :: (s1 :: rest2).dropLast := rfl
        rw [hdl]
        rw [List.getLast?_reverse]
        simp
    exact hgl
  · omega

end Geometry

namespace Geometry

/-! ## From stack predicates to cyclic edge conditions -/

theorem leftAll_iff_chain' (q : Point) : ∀ st : List Point, LeftAll q st ↔
    List.Chain' (fun x y => 0 ≤ cross (x - y) (q - y)) st
  | [] => by simp [LeftAll]
  | [a] => by simp [LeftAll]
  | a :: b :: tl => by
    rw [List.chain'_cons]
    show (0 ≤ cross (a - b) (q - b) ∧ LeftAll q (b :: tl)) ↔ _
    rw [leftAll_iff_chain' q (b :: tl)]

theorem leftAllF_iff_chain' (q : Point) : ∀ L : List Point, LeftAllF q L ↔
    List.Chain' (fun x y => 0 ≤ cross (y - x) (q - x)) L
  | [] => by simp [LeftAllF]
  | [a] => by simp [LeftAllF]
  | a :: b :: tl => by
    rw [List.chain'_cons]
    show (0 ≤ cross (b - a) (q - a) ∧ LeftAllF q (b :: tl)) ↔ _
    rw [leftAllF_iff_chain' q (b :: tl)]

theorem leftAllF_reverse {q : Point} {st : List Point} (h : LeftAll q st) :
    LeftAllF q st.reverse := by
  rw [leftAllF_iff_chain', List.chain'_reverse]
  rw [leftAll_iff_chain'] at h
  exact List.Chain'.imp (fun a b hab => hab) h

theorem leftAllF_glue (q : Point) : ∀ (A B : List Point), A ≠ [] →
    A.getLast? = B.head? → LeftAllF q A → LeftAllF q B →
    LeftAllF q (A.dropLast ++ B)
  | [], _, h, _, _, _ => absurd rfl h
  | [x], B, _, _, _, hB => by simpa using hB
  | x :: y :: tl, B, _, hseam, hA, hB => by
    have ih := leftAllF_glue q (y :: tl) B (by simp)
      (by simpa using hseam) hA.2 hB
    rcases tl with _ | ⟨z, tl2⟩
    · rcases B with _ | ⟨b0, B'⟩
      · simp at hseam
      · have hb0 : y = b0 := by simpa using hseam
        show LeftAllF q (x :: b0 :: B')
        refine ⟨?_, by simpa using ih⟩
        rw [← hb0]
        exact hA.1
    · show LeftAllF q (x :: y :: ((z :: tl2).dropLast ++ B))
      exact ⟨hA.1, ih⟩

theorem leftAllF_getD (q : Point) : ∀ (L : List Point), LeftAllF q L →
    ∀ j : ℕ, j + 1 < L.length →
    0 ≤ cross (L.getD (j + 1) 0 - L.getD j 0) (q - L.getD j 0)
  | [], _, j, h => by simp at h
  | [a], _, j, h => by simp at h
  | a :: b :: tl, hL, 0, _ => by simpa using hL.1
  | a :: b :: tl, hL, j + 1, h => by
    have h2 := leftAllF_getD q (b :: tl) hL.2 j (by simpa using h)
    simpa using h2

theorem cyclic_edges_of_leftAllF {q : Point} {L : List Point}
    (h : LeftAllF q (L ++ [L.getD 0 0])) {j : ℕ} (hj : j < L.length) :
    0 ≤ cross (L.getD ((j + 1) % L.length) 0 - L.getD j 0)
      (q - L.getD j 0) := by
  have hstep := leftAllF_getD q _ h j (by simp; omega)
  have e1 : (L ++ [L.getD 0 0]).getD j 0 = L.getD j 0 := by
    rw [List.getD_append _ _ _ _ hj]
  rcases eq_or_lt_of_le (Nat.succ_le_of_lt hj) with heq | hlt
  · have heq' : j + 1 = L.length := heq
    have hmod : (j + 1) % L.length = 0 := by
      rw [heq']
      exact Nat.mod_self _
    have e2 : (L ++ [L.getD 0 0]).getD (j + 1) 0 = L.getD 0 0 := by
      rw [List.getD_append_right]
      · rw [heq']
        simp
      · omega
    rw [hmod]
    rw [e1, e2] at hstep
    exact hstep
  · have hmod : (j + 1) % L.length = j + 1 := Nat.mod_eq_of_lt hlt
    have e2 : (L ++ [L.getD 0 0]).getD (j + 1) 0 = L.getD (j + 1) 0 := by
      rw [List.getD_append _ _ _ _ hlt]
    rw [hmod]
    rw [e1, e2] at hstep
    exact hstep

theorem reverse_dropLast_eq (l : List Point) :
    l.reverse.dropLast = l.tail.reverse := by
  rcases l with _ | ⟨a, t⟩
  · rfl
  · simp [List.reverse_cons, List.dropLast_concat]

/-- The hull output, closed with its first vertex repeated, is the lower
chain glued to the upper chain. -/
theorem hull_closed_decomp (P : List Point) (h3 : 3 ≤ P.length) :
    computeConvexHull P (-1) ++ [(computeConvexHull P (-1)).getD 0 0] =
      (lowerStack P).reverse.dropLast ++ (upperStack P).reverse := by
  have cf := coreFacts P h3
  have hlne : lowerStack P ≠ [] := by
    intro h
    have := cf.lowLen
    rw [h] at this
    simp at this
  have hune : upperStack P ≠ [] := by
    intro h
    have := cf.upLen
    rw [h] at this
    simp at this
  have hltne : (lowerStack P).tail ≠ [] := by
    intro h
    have h2 := List.length_tail (lowerStack P)
    rw [h] at h2
    simp only [List.length_nil] at h2
    have := cf.lowLen
    omega
  have hgd0 : ∀ l : List Point, l.getD 0 0 = l.head?.getD 0 := by
    intro l
    rcases l with _ | ⟨a, t⟩ <;> simp
  have hid0 : (computeConvexHull P (-1)).getD 0 0 = (upperStack P).headD 0 := by
    rw [computeConvexHull_core P h3]
    rcases hlt : (lowerStack P).tail with _ | ⟨y, ys⟩
    · exact absurd hlt hltne
    · rw [List.getD_append]
      · -- head of the reversed tail is the bottom of the lower stack
        have h1 : (lowerStack P).getLastD 0 = (y :: ys).getLastD 0 := by
          obtain ⟨z, zs, hl⟩ := List.exists_cons_of_ne_nil hlne
          have hzs : zs = y :: ys := by
            have h' := hlt
            rw [hl] at h'
            simpa using h'
          rw [hl, hzs, List.getLastD_eq_getLast?, List.getLastD_eq_getLast?,
            List.getLast?_cons_cons]
        rw [hgd0, List.head?_reverse, ← List.getLastD_eq_getLast?, ← h1,
          cf.lowBot, ← cf.upHead]
      · simp
  rw [hid0, computeConvexHull_core P h3, reverse_dropLast_eq]
  rw [List.append_assoc]
  congr 1
  rcases hu : upperStack P with _ | ⟨u0, ut⟩
  · exact absurd hu hune
  · simp [List.reverse_cons]

end Geometry

namespace Geometry

theorem computeConvexHull_small (P : List Point) (h : P.length < 3) :
    computeConvexHull P (-1) = P := by
  have h1 : (P.take (if (-1 : ℤ) < 0 then (P.length : ℤ)
      else (-1 : ℤ)).toNat).length < 3 := by
    norm_num
    omega
  rw [computeConvexHull, if_pos h1]
  norm_num

theorem head?_eq_some_headD {l : List Point} (h : l ≠ []) :
    l.head? = some (l.headD 0) := by
  rcases l with _ | ⟨a, t⟩
  · exact absurd rfl h
  · rfl

theorem getLast?_eq_some_getLastD {l : List Point} (h : l ≠ []) :
    l.getLast? = some (l.getLastD 0) := by
  rw [List.getLastD_eq_getLast?]
  rcases hl : l.getLast? with _ | a
  · have h2 : l.getLast?.isSome = true := List.getLast?_isSome.2 h
    rw [hl] at h2
    simp at h2
  · rfl

/-- Every input point lies weakly to the left of the closed cycle of hull
edges (core branch, at least three input points). -/
theorem hull_cyclic_left (P : List Point) (h3 : 3 ≤ P.length) (q : Point)
    (hq : q ∈ P) :
    LeftAllF q (computeConvexHull P (-1) ++
      [(computeConvexHull P (-1)).getD 0 0]) := by
  have cf := coreFacts P h3
  have hlne : lowerStack P ≠ [] := by
    intro h
    have := cf.lowLen
    rw [h] at this
    simp at this
  have hune : upperStack P ≠ [] := by
    intro h
    have := cf.upLen
    rw [h] at this
    simp at this
  have hqS : q ∈ sortPoints P := (sortPoints_perm P).mem_iff.2 hq
  have hlowF : LeftAllF q (lowerStack P).reverse :=
    leftAllF_reverse (cf.low.left q hqS)
  have hupF : LeftAllF q (upperStack P).reverse :=
    leftAllF_reverse (cf.up.left q (by simpa using hqS))
  have hAne : (lowerStack P).reverse ≠ [] := by simpa using hlne
  have hseam : ((lowerStack P).reverse).getLast? =
      ((upperStack P).reverse).head? := by
    rw [List.getLast?_reverse, List.head?_reverse]
    rw [head?_eq_some_headD hlne, getLast?_eq_some_getLastD hune]
    rw [cf.lowHead, cf.upBase]
  rw [hull_closed_decomp P h3]
  exact leftAllF_glue q _ _ hAne hseam hlowF hupF

/-- C2: every point of the input list lies on or inside the returned hull
polygon: for every input point q and every cyclic edge
(h[j], h[(j+1) mod n]) of the hull h = computeConvexHull P (-1), the signed
cross product cross (h[(j+1) mod n] - h[j]) (q - h[j]) is nonnegative
(exact arithmetic). -/
theorem convexHull_containment (P : List Point) (q : Point) (hq : q ∈ P)
    (j : ℕ) (hj : j < (computeConvexHull P (-1)).length) :
    0 ≤ cross
      ((computeConvexHull P (-1)).getD
          ((j + 1) % (computeConvexHull P (-1)).length) 0 -
        (computeConvexHull P (-1)).getD j 0)
      (q - (computeConvexHull P (-1)).getD j 0) := by
  by_cases h3 : 3 ≤ P.length
  · exact cyclic_edges_of_leftAllF (hull_cyclic_left P h3 q hq) hj
  · have hl : computeConvexHull P (-1) = P := computeConvexHull_small P (by omega)
    rw [hl] at hj ⊢
    rcases P with _ | ⟨a, rest⟩
    · simp at hq
    rcases rest with _ | ⟨b, rest2⟩
    · -- one point
      have hj0 : j = 0 := by
        simp at hj
        omega
      subst hj0
      have hqa : q = a := by simpa using hq
      subst hqa
      simp [cross_self, sub_self, cross_zero_right]
    rcases rest2 with _ | ⟨c, rest3⟩
    · -- two points
      have hj01 : j = 0 ∨ j = 1 := by
        simp at hj
        omega
      have hqab : q = a ∨ q = b := by simpa using hq
      rcases hj01 with rfl | rfl
      · have hmod : (0 + 1) % ([a, b] : List Point).length = 1 := by simp
        rw [hmod]
        simp only [List.getD_cons_zero, List.getD_cons_succ]
        rcases hqab with rfl | rfl
        · rw [sub_self, cross_zero_right]
        · rw [cross_self]
      · have hmod : (1 + 1) % ([a, b] : List Point).length = 0 := by simp
        rw [hmod]
        simp only [List.getD_cons_zero, List.getD_cons_succ]
        rcases hqab with rfl | rfl
        · rw [cross_self]
        · rw [sub_self, cross_zero_right]
    · exfalso
      simp at h3

/-- Concrete instantiation of `convexHull_containment` on a two-point input. -/
theorem convexHull_containment_witness :
    ((1 : ℚ), (0 : ℚ)) ∈ [((0 : ℚ), (0 : ℚ)), ((1 : ℚ), (0 : ℚ))] ∧
      0 < (computeConvexHull [((0 : ℚ), (0 : ℚ)), ((1 : ℚ), (0 : ℚ))]
        (-1)).length ∧
      0 ≤ cross
        ((computeConvexHull [((0 : ℚ), (0 : ℚ)), ((1 : ℚ), (0 : ℚ))]
            (-1)).getD
            ((0 + 1) % (computeConvexHull [((0 : ℚ), (0 : ℚ)),
              ((1 : ℚ), (0 : ℚ))] (-1)).length) 0 -
          (computeConvexHull [((0 : ℚ), (0 : ℚ)), ((1 : ℚ), (0 : ℚ))]
            (-1)).getD 0 0)
        (((1 : ℚ), (0 : ℚ)) -
          (computeConvexHull [((0 : ℚ), (0 : ℚ)), ((1 : ℚ), (0 : ℚ))]
            (-1)).getD 0 0) := by
  have hl : computeConvexHull [((0 : ℚ), (0 : ℚ)), ((1 : ℚ), (0 : ℚ))] (-1) =
      [((0 : ℚ), (0 : ℚ)), ((1 : ℚ), (0 : ℚ))] :=
    computeConvexHull_small _ (by norm_num)
  refine ⟨by simp, by rw [hl]; norm_num, ?_⟩
  exact convexHull_containment _ _ (by simp) 0 (by rw [hl]; norm_num)

end Geometry

namespace Geometry

theorem chain'_cLe_head {pos : Point → Prop} (hc : IsPosCone pos) :
    ∀ (a : Point) (l : List Point), List.Chain' (cLe pos) (a :: l) →
      ∀ x ∈ a :: l, cLe pos a x := by
  intro a l
  induction l generalizing a with
  | nil =>
    intro _ x hx
    simp at hx
    subst hx
    exact Or.inl rfl
  | cons b t ih =>
    intro hch x hx
    rw [List.chain'_cons] at hch
    rcases List.mem_cons.1 hx with rfl | hx2
    · exact Or.inl rfl
    · exact hc.cLe_trans hch.1 (ih b hch.2 x hx2)

theorem chain'_cLe_last {pos : Point → Prop} (hc : IsPosCone pos) :
    ∀ (l : List Point), List.Chain' (cLe pos) l →
      ∀ x ∈ l, ∀ y, l.getLast? = some y → cLe pos x y
  | [], _, x, hx, _, _ => by simp at hx
  | [a], _, x, hx, y, hy => by
    simp at hx hy
    rw [hx, ← hy]
    exact Or.inl rfl
  | a :: b :: t, hch, x, hx, y, hy => by
    rw [List.chain'_cons] at hch
    rw [List.getLast?_cons_cons] at hy
    rcases List.mem_cons.1 hx with rfl | hx2
    · exact hc.cLe_trans hch.1
        (chain'_cLe_last hc (b :: t) hch.2 b (by simp) y hy)
    · exact chain'_cLe_last hc (b :: t) hch.2 x hx2 y hy

/-- Seam lemma: two convex chains share an endpoint `T`; `a` is the
neighbour of `T` on the first chain and `c` its neighbour on the second,
both strictly below `T` in the cone order.  If every processed point lies
weakly left of both edges incident to `T`, the seam turn at `T` is strict:
a zero turn would force every processed point onto the line through `a`
and `T`, collapsing both stacks to two entries each. -/
theorem junction_strict {pos : Point → Prop} (hc : IsPosCone pos)
    {Pr S1 S2 : List Point} {T a c : Point} {t1 t2 : List Point}
    (hS1 : S1 = T :: a :: t1) (hS2 : S2.reverse = T :: c :: t2)
    (hTa : pos (T - a)) (hTc : pos (T - c))
    (hL : ∀ q ∈ Pr, 0 ≤ cross (T - a) (q - a))
    (hU : ∀ q ∈ Pr, 0 ≤ cross (c - T) (q - T))
    (hT1 : Turns S1) (hT2 : Turns S2)
    (hsub1 : ∀ x ∈ S1, x ∈ Pr) (hsub2 : ∀ x ∈ S2, x ∈ Pr)
    (hbig : 5 ≤ S1.length + S2.length) :
    0 < cross (T - a) (c - T) := by
  have hca : c ∈ Pr := hsub2 c (List.mem_reverse.1 (by rw [hS2]; simp))
  have h1 : 0 ≤ cross (T - a) (c - a) := hL c hca
  have hkey0 : cross (T - a) (c - T) = cross (T - a) (c - a) := by
    have h0 : c - T = (c - a) - (T - a) := by abel
    rw [h0, cross_sub_right, cross_self, sub_zero]
  rcases lt_or_eq_of_le h1 with hlt | heq
  · rw [hkey0]
    exact hlt
  exfalso
  have heq' : cross (T - a) (c - a) = 0 := heq.symm
  have hv : T - a ≠ 0 := hc.ne_zero hTa
  obtain ⟨t, ht⟩ := collinear_factor heq' hv
  have hTceq : T - c = (1 - t) • (T - a) := by
    rw [sub_smul, one_smul, ← ht]
    abel
  have htlt : 0 < 1 - t := hc.smul_factor_pos hTa (hTceq ▸ hTc)
  have hcT : c - T = (t - 1) • (T - a) := by
    have h0 : c - T = -(T - c) := by abel
    rw [h0, hTceq, ← neg_smul, neg_sub]
  have key : ∀ q ∈ Pr, cross (T - a) (q - a) = 0 := by
    intro q hq
    have hq1 := hL q hq
    have hq2 := hU q hq
    have hq2' : 0 ≤ (t - 1) * cross (T - a) (q - T) := by
      rw [← cross_smul_left, ← hcT]
      exact hq2
    have hqT : cross (T - a) (q - T) = cross (T - a) (q - a) := by
      have h0 : q - T = (q - a) - (T - a) := by abel
      rw [h0, cross_sub_right, cross_self, sub_zero]
    rw [hqT] at hq2'
    by_contra hne
    have hXpos : 0 < cross (T - a) (q - a) := lt_of_le_of_ne hq1 (Ne.symm hne)
    have hneg : (t - 1) * cross (T - a) (q - a) < 0 :=
      mul_neg_of_neg_of_pos (by linarith) hXpos
    linarith
  have hlen1 : S1.length = 2 := by
    rcases t1 with _ | ⟨w, t1'⟩
    · rw [hS1]
      rfl
    · exfalso
      rw [hS1] at hT1
      have htr : 0 < cross (a - w) (T - a) := hT1.1
      have hw : w ∈ Pr := hsub1 w (by rw [hS1]; simp)
      have hwa := key w hw
      have hcomp : cross (a - w) (T - a) = cross (T - a) (w - a) := by
        simp only [cross, Prod.fst_sub, Prod.snd_sub]
        ring
      rw [hcomp, hwa] at htr
      exact lt_irrefl 0 htr
  have hlen2 : S2.length = 2 := by
    rcases t2 with _ | ⟨w, t2'⟩
    · have h0 : S2.reverse.length = 2 := by
        rw [hS2]
        rfl
      simpa using h0
    · exfalso
      have hS2' : S2 = t2'.reverse ++ [w, c, T] := by
        have h0 := congrArg List.reverse hS2
        rw [List.reverse_reverse] at h0
        rw [h0]
        simp
      have hsfx : [w, c, T] <:+ S2 := by
        rw [hS2']
        exact List.suffix_append _ _
      have hT3 : Turns [w, c, T] := turns_suffix hsfx hT2
      have htr : 0 < cross (c - T) (w - c) := hT3.1
      have hwPr : w ∈ Pr := hsub2 w (List.mem_reverse.1 (by rw [hS2]; simp))
      have hwa := key w hwPr
      have hwc : cross (T - a) (w - c) = 0 := by
        have h0 : w - c = (w - a) - (c - a) := by abel
        rw [h0, cross_sub_right, hwa, heq', sub_zero]
      rw [hcT, cross_smul_left, hwc, mul_zero] at htr
      exact lt_irrefl 0 htr
  rw [hlen1, hlen2] at hbig
  omega

end Geometry

namespace Geometry

theorem getD_reverse {l : List Point} {i : ℕ} (h : i < l.length) :
    l.reverse.getD i 0 = l.getD (l.length - 1 - i) 0 := by
  rw [List.getD_eq_getElem?_getD, List.getD_eq_getElem?_getD,
    List.getElem?_reverse h]

theorem turns_getD : ∀ (L : List Point), Turns L →
    ∀ i : ℕ, i + 2 < L.length →
      0 < cross (L.getD (i + 1) 0 - L.getD (i + 2) 0)
        (L.getD i 0 - L.getD (i + 1) 0)
  | [], _, i, h => by simp at h
  | [a], _, i, h => by
    simp at h
  | [a, b], _, i, h => by
    simp at h
  | a :: b :: c :: tl, hL, 0, _ => by simpa using hL.1
  | a :: b :: c :: tl, hL, i + 1, h => by
    have h2 := turns_getD (b :: c :: tl) hL.2 i (by simp at h ⊢; omega)
    simpa using h2

theorem turnsF_getD : ∀ (L : List Point), TurnsF L →
    ∀ i : ℕ, i + 2 < L.length →
      0 < cross (L.getD (i + 1) 0 - L.getD i 0)
        (L.getD (i + 2) 0 - L.getD (i + 1) 0)
  | [], _, i, h => by simp at h
  | [a], _, i, h => by
    simp at h
  | [a, b], _, i, h => by
    simp at h
  | a :: b :: c :: tl, hL, 0, _ => by simpa using hL.1
  | a :: b :: c :: tl, hL, i + 1, h => by
    have h2 := turnsF_getD (b :: c :: tl) hL.2 i (by simp at h ⊢; omega)
    simpa using h2

theorem turnsF_of_getD : ∀ (L : List Point),
    (∀ i : ℕ, i + 2 < L.length →
      0 < cross (L.getD (i + 1) 0 - L.getD i 0)
        (L.getD (i + 2) 0 - L.getD (i + 1) 0)) →
    TurnsF L
  | [], _ => trivial
  | [_], _ => trivial
  | [_, _], _ => trivial
  | a :: b :: c :: tl, h => by
    constructor
    · have h0 := h 0 (by simp)
      simpa using h0
    · apply turnsF_of_getD (b :: c :: tl)
      intro i hi
      have h2 := h (i + 1) (by simp at hi ⊢; omega)
      simpa using h2

theorem turnsF_reverse {st : List Point} (h : Turns st) : TurnsF st.reverse := by
  apply turnsF_of_getD
  intro i hi
  rw [List.length_reverse] at hi
  have e0 : st.reverse.getD i 0 = st.getD (st.length - 1 - i) 0 :=
    getD_reverse (by omega)
  have e1 : st.reverse.getD (i + 1) 0 = st.getD (st.length - 1 - (i + 1)) 0 :=
    getD_reverse (by omega)
  have e2 : st.reverse.getD (i + 2) 0 = st.getD (st.length - 1 - (i + 2)) 0 :=
    getD_reverse (by omega)
  rw [e0, e1, e2]
  have h1 : st.length - 1 - i = (st.length - 1 - (i + 2)) + 2 := by omega
  have h2 : st.length - 1 - (i + 1) = (st.length - 1 - (i + 2)) + 1 := by omega
  rw [h1, h2]
  exact turns_getD st h (st.length - 1 - (i + 2)) (by omega)

theorem turnsF_append_cons :
    ∀ (A : List Point) (s b : Point) (B' : List Point),
      TurnsF (A ++ [s]) → TurnsF (s :: b :: B') →
      (∀ x, A.getLast? = some x → 0 < cross (s - x) (b - s)) →
      TurnsF (A ++ s :: b :: B')
  | [], _, _, _, _, hB, _ => hB
  | [x], s, b, B', _, hB, hj => ⟨hj x rfl, hB⟩
  | x :: y :: A'', s, b, B', hA, hB, hj => by
    have hj2 : ∀ w, (y :: A'').getLast? = some w → 0 < cross (s - w) (b - s) := by
      intro w hw
      apply hj
      rw [List.getLast?_cons_cons]
      exact hw
    have hA2 : TurnsF ((y :: A'') ++ [s]) := by
      rcases A'' with _ | ⟨z, A'''⟩
      · exact hA.2
      · exact hA.2
    have ih := turnsF_append_cons (y :: A'') s b B' hA2 hB hj2
    rcases A'' with _ | ⟨z, A'''⟩
    · exact ⟨hA.1, ih⟩
    · exact ⟨hA.1, ih⟩

theorem cyclic_turns_of_turnsF {L : List Point} (h3 : 3 ≤ L.length)
    (h : TurnsF (L ++ [L.getD 0 0, L.getD 1 0])) {j : ℕ} (hj : j < L.length) :
    0 < cross
      (L.getD ((j + 1) % L.length) 0 - L.getD j 0)
      (L.getD ((j + 2) % L.length) 0 - L.getD ((j + 1) % L.length) 0) := by
  have hstep := turnsF_getD _ h j (by simp; omega)
  have e0 : (L ++ [L.getD 0 0, L.getD 1 0]).getD j 0 = L.getD j 0 := by
    rw [List.getD_append _ _ _ _ hj]
  rcases lt_trichotomy (j + 2) L.length with hlt | heq | hgt
  · have m1 : (j + 1) % L.length = j + 1 := Nat.mod_eq_of_lt (by omega)
    have m2 : (j + 2) % L.length = j + 2 := Nat.mod_eq_of_lt hlt
    have e1 : (L ++ [L.getD 0 0, L.getD 1 0]).getD (j + 1) 0 = L.getD (j + 1) 0 := by
      rw [List.getD_append _ _ _ _ (by omega)]
    have e2 : (L ++ [L.getD 0 0, L.getD 1 0]).getD (j + 2) 0 = L.getD (j + 2) 0 := by
      rw [List.getD_append _ _ _ _ hlt]
    rw [m1, m2]
    rw [e0, e1, e2] at hstep
    exact hstep
  · have m1 : (j + 1) % L.length = j + 1 := Nat.mod_eq_of_lt (by omega)
    have m2 : (j + 2) % L.length = 0 := by
      rw [heq]
      exact Nat.mod_self _
    have e1 : (L ++ [L.getD 0 0, L.getD 1 0]).getD (j + 1) 0 = L.getD (j + 1) 0 := by
      rw [List.getD_append _ _ _ _ (by omega)]
    have e2 : (L ++ [L.getD 0 0, L.getD 1 0]).getD (j + 2) 0 = L.getD 0 0 := by
      rw [List.getD_append_right]
      · rw [heq]
        simp
      · omega
    rw [m1, m2]
    rw [e0, e1, e2] at hstep
    exact hstep
  · have hj1 : j + 1 = L.length := by omega
    have m1 : (j + 1) % L.length = 0 := by
      rw [hj1]
      exact Nat.mod_self _
    have m2 : (j + 2) % L.length = 1 := by
      have h2 : j + 2 = L.length + 1 := by omega
      rw [h2, Nat.add_mod_left]
      exact Nat.mod_eq_of_lt (by omega)
    have e1 : (L ++ [L.getD 0 0, L.getD 1 0]).getD (j + 1) 0 = L.getD 0 0 := by
      rw [List.getD_append_right]
      · rw [hj1]
        simp
      · omega
    have e2 : (L ++ [L.getD 0 0, L.getD 1 0]).getD (j + 2) 0 = L.getD 1 0 := by
      rw [List.getD_append_right]
      · have h2 : j + 2 - L.length = 1 := by omega
        rw [h2]
        simp
      · omega
    rw [m1, m2]
    rw [e0, e1, e2] at hstep
    exact hstep

end Geometry

namespace Geometry

/-- The hull output, closed with its first two vertices repeated, makes a
strict counter-clockwise turn at every position (core branch with at least
three hull vertices). -/
theorem hull_cyclic_turnsF (P : List Point) (h3 : 3 ≤ P.length)
    (h3n : 3 ≤ (computeConvexHull P (-1)).length) :
    TurnsF (computeConvexHull P (-1) ++
      [(computeConvexHull P (-1)).getD 0 0,
        (computeConvexHull P (-1)).getD 1 0]) := by
  have cf := coreFacts P h3
  have hlne : lowerStack P ≠ [] := by
    intro h
    have := cf.lowLen
    rw [h] at this
    simp at this
  have hune : upperStack P ≠ [] := by
    intro h
    have := cf.upLen
    rw [h] at this
    simp at this
  have hn : (computeConvexHull P (-1)).length + 2 =
      (lowerStack P).length + (upperStack P).length := by
    rw [computeConvexHull_core P h3, List.length_append, List.length_reverse,
      List.length_reverse, List.length_tail, List.length_tail]
    have h1 := cf.lowLen
    have h2 := cf.upLen
    omega
  -- lexicographic extremes differ
  have hMm : (sortPoints P).headD 0 ≠ (sortPoints P).getLastD 0 := by
    intro hmM
    have hchain := sortPoints_chain P
    have hsne : sortPoints P ≠ [] := by
      have h0 := cf.sortLen
      intro h
      rw [h] at h0
      simp at h0
    obtain ⟨s0, srest, hs⟩ := List.exists_cons_of_ne_nil hsne
    have hhead : (sortPoints P).headD 0 = s0 := by
      rw [hs]
      rfl
    have hall : ∀ x ∈ sortPoints P, x = (sortPoints P).headD 0 := by
      intro x hx
      have h1 : cLe lexpos s0 x := by
        apply chain'_cLe_head isPosCone_lexpos s0 srest
        · rw [← hs]
          exact hchain
        · rw [← hs]
          exact hx
      have hgl : (sortPoints P).getLast? = some ((sortPoints P).getLastD 0) :=
        getLast?_eq_some_getLastD hsne
      have h2 : cLe lexpos x ((sortPoints P).getLastD 0) :=
        chain'_cLe_last isPosCone_lexpos (sortPoints P) hchain x hx _ hgl
      rw [← hmM] at h2
      have h1' : cLe lexpos ((sortPoints P).headD 0) x := by
        rw [hhead]
        exact h1
      exact cLe_antisymm isPosCone_lexpos h2 h1'
    have hlow2 : (lowerStack P).length = 2 := by
      rcases hL3 : lowerStack P with _ | ⟨p, _ | ⟨q, _ | ⟨r, tl⟩⟩⟩
      · exact absurd hL3 hlne
      · exfalso
        have h0 := cf.lowLen
        rw [hL3] at h0
        simp at h0
      · rfl
      · exfalso
        have ht := cf.low.turns
        rw [hL3] at ht
        have htop : 0 < cross (q - r) (p - q) := ht.1
        have hp : p = (sortPoints P).headD 0 :=
          hall p (cf.low.sub p (by rw [hL3]; simp))
        have hq : q = (sortPoints P).headD 0 :=
          hall q (cf.low.sub q (by rw [hL3]; simp))
        have hr : r = (sortPoints P).headD 0 :=
          hall r (cf.low.sub r (by rw [hL3]; simp))
        rw [hp, hq, hr] at htop
        simp [sub_self, cross_zero_left] at htop
    have hup2 : (upperStack P).length = 2 := by
      rcases hU3 : upperStack P with _ | ⟨p, _ | ⟨q, _ | ⟨r, tl⟩⟩⟩
      · exact absurd hU3 hune
      · exfalso
        have h0 := cf.upLen
        rw [hU3] at h0
        simp at h0
      · rfl
      · exfalso
        have ht := cf.up.turns
        rw [hU3] at ht
        have htop : 0 < cross (q - r) (p - q) := ht.1
        have hp : p = (sortPoints P).headD 0 :=
          hall p (List.mem_reverse.1 (cf.up.sub p (by rw [hU3]; simp)))
        have hq : q = (sortPoints P).headD 0 :=
          hall q (List.mem_reverse.1 (cf.up.sub q (by rw [hU3]; simp)))
        have hr : r = (sortPoints P).headD 0 :=
          hall r (List.mem_reverse.1 (cf.up.sub r (by rw [hU3]; simp)))
        rw [hp, hq, hr] at htop
        simp [sub_self, cross_zero_left] at htop
    omega
  -- expose the stack structures
  obtain ⟨x0, l1, hLs⟩ := List.exists_cons_of_ne_nil hlne
  have hl1ne : l1 ≠ [] := by
    intro h
    have h0 := cf.lowLen
    rw [hLs, h] at h0
    simp at h0
  obtain ⟨x1, t1, hl1⟩ := List.exists_cons_of_ne_nil hl1ne
  have hLs' : lowerStack P = x0 :: x1 :: t1 := by
    rw [hLs, hl1]
  obtain ⟨y0, s1l, hUs⟩ := List.exists_cons_of_ne_nil hune
  have hs1ne : s1l ≠ [] := by
    intro h
    have h0 := cf.upLen
    rw [hUs, h] at h0
    simp at h0
  obtain ⟨y1, s1, hs1⟩ := List.exists_cons_of_ne_nil hs1ne
  have hUs' : upperStack P = y0 :: y1 :: s1 := by
    rw [hUs, hs1]
  have hWne : (lowerStack P).reverse ≠ [] := by simpa using hlne
  obtain ⟨w0, wr, hW0⟩ := List.exists_cons_of_ne_nil hWne
  have hwrne : wr ≠ [] := by
    intro h
    have h0 : (lowerStack P).reverse.length = 1 := by
      rw [hW0, h]
      rfl
    rw [List.length_reverse] at h0
    have h1 := cf.lowLen
    omega
  obtain ⟨w1, s2, hw1⟩ := List.exists_cons_of_ne_nil hwrne
  have hW : (lowerStack P).reverse = w0 :: w1 :: s2 := by
    rw [hW0, hw1]
  have hZne : (upperStack P).reverse ≠ [] := by simpa using hune
  obtain ⟨z0, zr, hZ0⟩ := List.exists_cons_of_ne_nil hZne
  have hzrne : zr ≠ [] := by
    intro h
    have h0 : (upperStack P).reverse.length = 1 := by
      rw [hZ0, h]
      rfl
    rw [List.length_reverse] at h0
    have h1 := cf.upLen
    omega
  obtain ⟨z1, t2, hz1⟩ := List.exists_cons_of_ne_nil hzrne
  have hZ : (upperStack P).reverse = z0 :: z1 :: t2 := by
    rw [hZ0, hz1]
  -- identify the corner vertices with the sorted extremes
  have hx0 : x0 = (sortPoints P).getLastD 0 := by
    have h := cf.lowHead
    rw [hLs] at h
    simpa using h
  have hy0 : y0 = (sortPoints P).headD 0 := by
    have h := cf.upHead
    rw [hUs] at h
    simpa using h
  have hw0 : w0 = (sortPoints P).headD 0 := by
    have h := getLast?_eq_some_getLastD hlne
    rw [← List.head?_reverse, hW] at h
    simp only [List.head?_cons, Option.some.injEq] at h
    rw [h]
    exact cf.lowBot
  have hz0 : z0 = (sortPoints P).getLastD 0 := by
    have h := getLast?_eq_some_getLastD hune
    rw [← List.head?_reverse, hZ] at h
    simp only [List.head?_cons, Option.some.injEq] at h
    rw [h]
    exact cf.upBase
  have hzx : x0 = z0 := by
    rw [hx0, hz0]
  subst hzx
  have hwy : y0 = w0 := by
    rw [hy0, hw0]
  subst hwy
  -- strict chains
  have hst1 : List.Chain' (fun x y => cLt lexpos y x) (lowerStack P) := by
    rcases cf.low.strict with h | ⟨x, hx⟩
    · exact h
    · exfalso
      apply hMm
      have h1 := cf.lowHead
      have h2 := cf.lowBot
      rw [hx] at h1 h2
      rw [← h2, ← h1]
      rfl
  have hst2 : List.Chain' (fun x y => cLt (fun d => lexpos (-d)) y x)
      (upperStack P) := by
    rcases cf.up.strict with h | ⟨x, hx⟩
    · exact h
    · exfalso
      apply hMm
      have h1 := cf.upHead
      have h2 := cf.upBase
      rw [hx] at h1 h2
      rw [← h1, ← h2]
      rfl
  -- suffix structure at the stack bottoms
  have hUeq : upperStack P = t2.reverse ++ [z1, x0] := by
    have h0 := congrArg List.reverse hZ
    rw [List.reverse_reverse] at h0
    rw [h0]
    simp
  have hsfxU : [z1, x0] <:+ upperStack P := by
    rw [hUeq]
    exact List.suffix_append _ _
  have hLeq : lowerStack P = s2.reverse ++ [w1, y0] := by
    have h0 := congrArg List.reverse hW
    rw [List.reverse_reverse] at h0
    rw [h0]
    simp
  have hsfxL : [w1, y0] <:+ lowerStack P := by
    rw [hLeq]
    exact List.suffix_append _ _
  -- cone facts for the two seams
  have hTa1 : lexpos (x0 - x1) := by
    have h := hst1
    rw [hLs', List.chain'_cons] at h
    exact h.1
  have hTc1 : lexpos (x0 - z1) := by
    have h := List.Chain'.suffix hst2 hsfxU
    rw [List.chain'_cons] at h
    have h1 : lexpos (-(z1 - x0)) := h.1
    rw [neg_sub] at h1
    exact h1
  have hTa2 : lexpos (-(y0 - y1)) := by
    have h := hst2
    rw [hUs', List.chain'_cons] at h
    exact h.1
  have hTc2 : lexpos (-(y0 - w1)) := by
    have h := List.Chain'.suffix hst1 hsfxL
    rw [List.chain'_cons] at h
    have h1 : lexpos (w1 - y0) := h.1
    rw [neg_sub]
    exact h1
  have hbig : 5 ≤ (lowerStack P).length + (upperStack P).length := by omega
  -- the two seam turns
  have J_M : 0 < cross (x0 - x1) (z1 - x0) := by
    refine junction_strict isPosCone_lexpos hLs' hZ hTa1 hTc1 ?_ ?_
      cf.low.turns cf.up.turns cf.low.sub ?_ hbig
    · intro q hq
      have h := cf.low.left q hq
      rw [hLs'] at h
      exact h.1
    · intro q hq
      have h := cf.up.left q (List.mem_reverse.2 hq)
      have h2 := leftAll_suffix hsfxU h
      exact h2.1
    · intro x hx
      exact List.mem_reverse.1 (cf.up.sub x hx)
  have J_m : 0 < cross (y0 - y1) (w1 - y0) := by
    refine junction_strict isPosCone_lexneg hUs' hW hTa2 hTc2 ?_ ?_
      cf.up.turns cf.low.turns ?_ cf.low.sub (by omega)
    · intro q hq
      have h := cf.up.left q (List.mem_reverse.2 hq)
      rw [hUs'] at h
      exact h.1
    · intro q hq
      have h := cf.low.left q hq
      have h2 := leftAll_suffix hsfxL h
      exact h2.1
    · intro x hx
      exact List.mem_reverse.1 (cf.up.sub x hx)
  -- glue the two reversed chains into the closed cycle
  have hTFlow : TurnsF ((lowerStack P).reverse) := turnsF_reverse cf.low.turns
  have hTFup : TurnsF ((upperStack P).reverse) := turnsF_reverse cf.up.turns
  have hArev : (lowerStack P).reverse = (x1 :: t1).reverse ++ [x0] := by
    rw [hLs', List.reverse_cons]
  have hBrev : (upperStack P).reverse = (y1 :: s1).reverse ++ [y0] := by
    rw [hUs', List.reverse_cons]
  have hstep1 : TurnsF ((y1 :: s1).reverse ++ y0 :: w1 :: []) := by
    apply turnsF_append_cons
    · rw [← hBrev]
      exact hTFup
    · trivial
    · intro x hx
      rw [List.getLast?_reverse] at hx
      simp at hx
      rw [← hx]
      exact J_m
  have hD : (y1 :: s1).reverse ++ y0 :: w1 :: [] = x0 :: z1 :: (t2 ++ [w1]) := by
    have h1 : (y1 :: s1).reverse ++ [y0] = x0 :: z1 :: t2 := by
      rw [← hBrev]
      exact hZ
    have h2 : ((y1 :: s1).reverse ++ [y0]) ++ [w1] =
        (y1 :: s1).reverse ++ y0 :: w1 :: [] := by
      simp
    rw [← h2, h1]
    rfl
  have hstep2 : TurnsF ((x1 :: t1).reverse ++ x0 :: z1 :: (t2 ++ [w1])) := by
    apply turnsF_append_cons
    · rw [← hArev]
      exact hTFlow
    · rw [← hD]
      exact hstep1
    · intro x hx
      rw [List.getLast?_reverse] at hx
      simp at hx
      rw [← hx]
      exact J_M
  have hfinal : TurnsF (((x1 :: t1).reverse ++ (y1 :: s1).reverse) ++
      y0 :: w1 :: []) := by
    rw [List.append_assoc, hD]
    exact hstep2
  have hhull : computeConvexHull P (-1) =
      (x1 :: t1).reverse ++ (y1 :: s1).reverse := by
    rw [computeConvexHull_core P h3, hLs', hUs']
    rfl
  -- the first two hull vertices
  have hg0 : (computeConvexHull P (-1)).getD 0 0 = y0 := by
    rw [hhull]
    rw [List.getD_append _ _ _ _ (by simp)]
    have h1 : ((x1 :: t1).reverse ++ [x0]).getD 0 0 =
        (x1 :: t1).reverse.getD 0 0 :=
      List.getD_append _ _ _ _ (by simp)
    rw [← h1, ← hArev, hW]
    simp
  have hg1 : (computeConvexHull P (-1)).getD 1 0 = w1 := by
    rw [hhull]
    rcases ht1 : t1 with _ | ⟨t1h, t1t⟩
    · subst ht1
      have hWW : (y0 :: w1 :: s2 : List Point) = [x1, x0] := by
        rw [← hW, hArev]
        simp
      have hw1x0 : w1 = x0 := by
        simp at hWW
        exact hWW.2.1
      simp only [List.reverse_singleton]
      rw [List.getD_append_right _ _ _ _ (by simp)]
      simp only [List.length_singleton]
      have h1 : ((y1 :: s1).reverse ++ [y0]).getD 0 0 =
          (y1 :: s1).reverse.getD 0 0 :=
        List.getD_append _ _ _ _ (by simp)
      rw [← h1, ← hBrev, hZ]
      simp [hw1x0]
    · subst ht1
      rw [List.getD_append _ _ _ _ (by simp)]
      have h1 : ((x1 :: t1h :: t1t).reverse ++ [x0]).getD 1 0 =
          (x1 :: t1h :: t1t).reverse.getD 1 0 :=
        List.getD_append _ _ _ _ (by simp)
      rw [← h1, ← hArev, hW]
      simp
  rw [hg0, hg1, hhull]
  exact hfinal

end Geometry

namespace Geometry

/-- C3: whenever computeConvexHull returns a hull of n >= 3 points, every
consecutive cyclic triple (h[j], h[(j+1) mod n], h[(j+2) mod n]) turns
strictly counter-clockwise under exact arithmetic:
0 < cross (h[(j+1) mod n] - h[j]) (h[(j+2) mod n] - h[(j+1) mod n]).
Exactly-collinear middle points are excluded by the <= 0 pop threshold. -/
theorem convexHull_ccw (P : List Point)
    (hn : 3 ≤ (computeConvexHull P (-1)).length) (j : ℕ)
    (hj : j < (computeConvexHull P (-1)).length) :
    0 < cross
      ((computeConvexHull P (-1)).getD
          ((j + 1) % (computeConvexHull P (-1)).length) 0 -
        (computeConvexHull P (-1)).getD j 0)
      ((computeConvexHull P (-1)).getD
          ((j + 2) % (computeConvexHull P (-1)).length) 0 -
        (computeConvexHull P (-1)).getD
          ((j + 1) % (computeConvexHull P (-1)).length) 0) := by
  have h3 : 3 ≤ P.length := by
    by_contra hc
    rw [computeConvexHull_small P (by omega)] at hn
    omega
  exact cyclic_turns_of_turnsF hn (hull_cyclic_turnsF P h3 hn) hj

/-- Concrete instantiation of `convexHull_ccw` on a right triangle. -/
theorem convexHull_ccw_witness :
    3 ≤ (computeConvexHull
        [((0 : ℚ), (0 : ℚ)), ((2 : ℚ), (0 : ℚ)), ((0 : ℚ), (2 : ℚ))]
        (-1)).length ∧
      0 < (computeConvexHull
        [((0 : ℚ), (0 : ℚ)), ((2 : ℚ), (0 : ℚ)), ((0 : ℚ), (2 : ℚ))]
        (-1)).length ∧
      0 < cross
        ((computeConvexHull
            [((0 : ℚ), (0 : ℚ)), ((2 : ℚ), (0 : ℚ)), ((0 : ℚ), (2 : ℚ))]
            (-1)).getD
            ((0 + 1) % (computeConvexHull
              [((0 : ℚ), (0 : ℚ)), ((2 : ℚ), (0 : ℚ)), ((0 : ℚ), (2 : ℚ))]
              (-1)).length) 0 -
          (computeConvexHull
            [((0 : ℚ), (0 : ℚ)), ((2 : ℚ), (0 : ℚ)), ((0 : ℚ), (2 : ℚ))]
            (-1)).getD 0 0)
        ((computeConvexHull
            [((0 : ℚ), (0 : ℚ)), ((2 : ℚ), (0 : ℚ)), ((0 : ℚ), (2 : ℚ))]
            (-1)).getD
            ((0 + 2) % (computeConvexHull
              [((0 : ℚ), (0 : ℚ)), ((2 : ℚ), (0 : ℚ)), ((0 : ℚ), (2 : ℚ))]
              (-1)).length) 0 -
          (computeConvexHull
            [((0 : ℚ), (0 : ℚ)), ((2 : ℚ), (0 : ℚ)), ((0 : ℚ), (2 : ℚ))]
            (-1)).getD
            ((0 + 1) % (computeConvexHull
              [((0 : ℚ), (0 : ℚ)), ((2 : ℚ), (0 : ℚ)), ((0 : ℚ), (2 : ℚ))]
              (-1)).length) 0) := by
  have hl : computeConvexHull
      [((0 : ℚ), (0 : ℚ)), ((2 : ℚ), (0 : ℚ)), ((0 : ℚ), (2 : ℚ))] (-1) =
      [((0 : ℚ), (0 : ℚ)), ((2 : ℚ), (0 : ℚ)), ((0 : ℚ), (2 : ℚ))] := by
    norm_num [computeConvexHull, sortPoints, List.insertionSort,
      List.orderedInsert, lexLe, lexLt, chainFold, chainStep, hullPop,
      upperStep, hullPopUpper, cross]
  refine ⟨by rw [hl]; norm_num, by rw [hl]; norm_num, ?_⟩
  exact convexHull_ccw _ (by rw [hl]; norm_num) 0 (by rw [hl]; norm_num)

end Geometry

namespace Geometry

theorem turns_prefix : ∀ {L' L : List Point}, L' <+: L → Turns L → Turns L'
  | [], _, _, _ => trivial
  | [_], _, _, _ => trivial
  | [_, _], _, _, _ => trivial
  | a :: b :: c :: t, L, h, ht => by
    obtain ⟨r, hr⟩ := h
    subst hr
    exact ⟨ht.1, turns_prefix ⟨r, rfl⟩ ht.2⟩

theorem turns_within {L L' : List Point} (h : L' <:+: L) (ht : Turns L) :
    Turns L' := by
  obtain ⟨X, Y, hXY⟩ := h
  have h1 : Turns (L' ++ Y) := by
    apply turns_suffix (show L' ++ Y <:+ X ++ (L' ++ Y) from ⟨X, rfl⟩)
    rw [← List.append_assoc, hXY]
    exact ht
  exact turns_prefix ⟨Y, rfl⟩ h1

theorem pair_infix_of_mem_tail :
    ∀ (a : Point) (l : List Point) (v : Point), v ∈ l →
      ∃ p, [p, v] <:+: a :: l
  | _, [], v, h => by simp at h
  | a, b :: l', v, h => by
    rcases List.mem_cons.1 h with rfl | h2
    · exact ⟨a, [], l', rfl⟩
    · obtain ⟨p, hp⟩ := pair_infix_of_mem_tail b l' v h2
      exact ⟨p, List.infix_cons hp⟩

theorem infix_extend_right {a b : Point} {L : List Point}
    (h : [a, b] <:+: L) (hne : b ≠ L.getLastD 0) :
    ∃ c, [a, b, c] <:+: L := by
  obtain ⟨X, Y, hXY⟩ := h
  rcases Y with _ | ⟨c, Y'⟩
  · exfalso
    apply hne
    rw [← hXY, List.getLastD_eq_getLast?]
    rw [List.append_nil, List.getLast?_append]
    rfl
  · exact ⟨c, X, Y', by rw [← hXY]; simp⟩

theorem chain'_of_within {α : Type} {R : α → α → Prop} {L L' : List α}
    (hc : List.Chain' R L) (h : L' <:+: L) : List.Chain' R L' :=
  List.Chain'.infix hc h

theorem chain'_cLt_head_mem {pos : Point → Prop} (hc : IsPosCone pos) :
    ∀ (a : Point) (l : List Point),
      List.Chain' (fun x y => cLt pos y x) (a :: l) → ∀ x ∈ l, cLt pos x a := by
  intro a l
  induction l generalizing a with
  | nil =>
    intro _ x hx
    simp at hx
  | cons b t ih =>
    intro hch x hx
    rw [List.chain'_cons] at hch
    rcases List.mem_cons.1 hx with rfl | hx2
    · exact hch.1
    · exact hc.cLt_trans (ih b hch.2 x hx2) hch.1

theorem chain'_cLt_nodup {pos : Point → Prop} (hc : IsPosCone pos) :
    ∀ (l : List Point), List.Chain' (fun x y => cLt pos y x) l → l.Nodup
  | [], _ => List.nodup_nil
  | a :: l, h => by
    rw [List.nodup_cons]
    refine ⟨?_, chain'_cLt_nodup hc l h.tail⟩
    intro hmem
    exact hc.cLt_irrefl a (chain'_cLt_head_mem hc a l h a hmem)

theorem lower_strict (P : List Point) (h3 : 3 ≤ P.length)
    (hMm : (sortPoints P).headD 0 ≠ (sortPoints P).getLastD 0) :
    List.Chain' (fun x y => cLt lexpos y x) (lowerStack P) := by
  have cf := coreFacts P h3
  rcases cf.low.strict with h | ⟨x, hx⟩
  · exact h
  · exfalso
    apply hMm
    have h1 := cf.lowHead
    have h2 := cf.lowBot
    rw [hx] at h1 h2
    rw [← h2, ← h1]
    rfl

theorem upper_strict (P : List Point) (h3 : 3 ≤ P.length)
    (hMm : (sortPoints P).headD 0 ≠ (sortPoints P).getLastD 0) :
    List.Chain' (fun x y => cLt (fun d => lexpos (-d)) y x) (upperStack P) := by
  have cf := coreFacts P h3
  rcases cf.up.strict with h | ⟨x, hx⟩
  · exact h
  · exfalso
    apply hMm
    have h1 := cf.upHead
    have h2 := cf.upBase
    rw [hx] at h1 h2
    rw [← h1, ← h2]
    rfl

end Geometry

namespace Geometry

/-- When the lexicographic extremes coincide, all sorted points are equal
and both passes collapse to two-entry stacks. -/
theorem stacks_degenerate (P : List Point) (h3 : 3 ≤ P.length)
    (hmM : (sortPoints P).headD 0 = (sortPoints P).getLastD 0) :
    (lowerStack P).length = 2 ∧ (upperStack P).length = 2 := by
  have cf := coreFacts P h3
  have hlne : lowerStack P ≠ [] := by
    intro h
    have h0 := cf.lowLen
    rw [h] at h0
    simp at h0
  have hune : upperStack P ≠ [] := by
    intro h
    have h0 := cf.upLen
    rw [h] at h0
    simp at h0
  have hchain := sortPoints_chain P
  have hsne : sortPoints P ≠ [] := by
    have h0 := cf.sortLen
    intro h
    rw [h] at h0
    simp at h0
  obtain ⟨s0, srest, hs⟩ := List.exists_cons_of_ne_nil hsne
  have hhead : (sortPoints P).headD 0 = s0 := by
    rw [hs]
    rfl
  have hall : ∀ x ∈ sortPoints P, x = (sortPoints P).headD 0 := by
    intro x hx
    have h1 : cLe lexpos s0 x := by
      apply chain'_cLe_head isPosCone_lexpos s0 srest
      · rw [← hs]
        exact hchain
      · rw [← hs]
        exact hx
    have hgl : (sortPoints P).getLast? = some ((sortPoints P).getLastD 0) :=
      getLast?_eq_some_getLastD hsne
    have h2 : cLe lexpos x ((sortPoints P).getLastD 0) :=
      chain'_cLe_last isPosCone_lexpos (sortPoints P) hchain x hx _ hgl
    rw [← hmM] at h2
    have h1' : cLe lexpos ((sortPoints P).headD 0) x := by
      rw [hhead]
      exact h1
    exact cLe_antisymm isPosCone_lexpos h2 h1'
  constructor
  · rcases hL3 : lowerStack P with _ | ⟨p, _ | ⟨q, _ | ⟨r, tl⟩⟩⟩
    · exact absurd hL3 hlne
    · exfalso
      have h0 := cf.lowLen
      rw [hL3] at h0
      simp at h0
    · rfl
    · exfalso
      have ht := cf.low.turns
      rw [hL3] at ht
      have htop : 0 < cross (q - r) (p - q) := ht.1
      have hp : p = (sortPoints P).headD 0 :=
        hall p (cf.low.sub p (by rw [hL3]; simp))
      have hq : q = (sortPoints P).headD 0 :=
        hall q (cf.low.sub q (by rw [hL3]; simp))
      have hr : r = (sortPoints P).headD 0 :=
        hall r (cf.low.sub r (by rw [hL3]; simp))
      rw [hp, hq, hr] at htop
      simp [sub_self, cross_zero_left] at htop
  · rcases hU3 : upperStack P with _ | ⟨p, _ | ⟨q, _ | ⟨r, tl⟩⟩⟩
    · exact absurd hU3 hune
    · exfalso
      have h0 := cf.upLen
      rw [hU3] at h0
      simp at h0
    · rfl
    · exfalso
      have ht := cf.up.turns
      rw [hU3] at ht
      have htop : 0 < cross (q - r) (p - q) := ht.1
      have hp : p = (sortPoints P).headD 0 :=
        hall p (List.mem_reverse.1 (cf.up.sub p (by rw [hU3]; simp)))
      have hq : q = (sortPoints P).headD 0 :=
        hall q (List.mem_reverse.1 (cf.up.sub q (by rw [hU3]; simp)))
      have hr : r = (sortPoints P).headD 0 :=
        hall r (List.mem_reverse.1 (cf.up.sub r (by rw [hU3]; simp)))
      rw [hp, hq, hr] at htop
      simp [sub_self, cross_zero_left] at htop

/-- No point can appear in both the lower-chain output and the upper-chain
output: at such a point the two incident chain edges would be anti-parallel,
contradicting the strict turn of the lower pass. -/
theorem lowUp_disjoint (P : List Point) (h3 : 3 ≤ P.length)
    (hMm : (sortPoints P).headD 0 ≠ (sortPoints P).getLastD 0) :
    ∀ v ∈ (lowerStack P).tail, v ∉ (upperStack P).tail := by
  intro v hvl hvu
  have cf := coreFacts P h3
  have hlne : lowerStack P ≠ [] := by
    intro h
    have h0 := cf.lowLen
    rw [h] at h0
    simp at h0
  have hune : upperStack P ≠ [] := by
    intro h
    have h0 := cf.upLen
    rw [h] at h0
    simp at h0
  have hst1 := lower_strict P h3 hMm
  have hst2 := upper_strict P h3 hMm
  obtain ⟨x0, l1, hLs⟩ := List.exists_cons_of_ne_nil hlne
  obtain ⟨y0, u1, hUs⟩ := List.exists_cons_of_ne_nil hune
  have hx0 : x0 = (sortPoints P).getLastD 0 := by
    have h := cf.lowHead
    rw [hLs] at h
    simpa using h
  have hy0 : y0 = (sortPoints P).headD 0 := by
    have h := cf.upHead
    rw [hUs] at h
    simpa using h
  -- v is not the lexicographic maximum
  have hvM : v ≠ x0 := by
    intro hvx
    have h1 : cLt lexpos v x0 := by
      apply chain'_cLt_head_mem isPosCone_lexpos x0 l1
      · rw [← hLs]
        exact hst1
      · rw [← show (lowerStack P).tail = l1 by rw [hLs]; rfl]
        exact hvl
    rw [hvx] at h1
    exact isPosCone_lexpos.cLt_irrefl x0 h1
  -- v is not the lexicographic minimum
  have hvm : v ≠ y0 := by
    intro hvy
    have h1 : cLt (fun d => lexpos (-d)) v y0 := by
      apply chain'_cLt_head_mem isPosCone_lexneg y0 u1
      · rw [← hUs]
        exact hst2
      · rw [← show (upperStack P).tail = u1 by rw [hUs]; rfl]
        exact hvu
    rw [hvy] at h1
    exact isPosCone_lexneg.cLt_irrefl y0 h1
  -- neighbours of v in the two stacks
  obtain ⟨p, hpv⟩ : ∃ p, [p, v] <:+: lowerStack P := by
    rw [hLs]
    apply pair_infix_of_mem_tail
    rw [← show (lowerStack P).tail = l1 by rw [hLs]; rfl]
    exact hvl
  obtain ⟨s, hpvs⟩ : ∃ s, [p, v, s] <:+: lowerStack P := by
    apply infix_extend_right hpv
    rw [List.getLastD_eq_getLast?]
    intro hveq
    apply hvm
    rw [hy0, ← cf.lowBot, List.getLastD_eq_getLast?]
    exact hveq
  obtain ⟨d, hdv⟩ : ∃ d, [d, v] <:+: upperStack P := by
    rw [hUs]
    apply pair_infix_of_mem_tail
    rw [← show (upperStack P).tail = u1 by rw [hUs]; rfl]
    exact hvu
  -- memberships
  have hdS : d ∈ sortPoints P := by
    apply List.mem_reverse.1
    apply cf.up.sub
    exact hdv.mem (by simp)
  have hpS : p ∈ sortPoints P := hpv.mem (by simp) |> cf.low.sub p
  have hsS : s ∈ sortPoints P := hpvs.mem (by simp) |> cf.low.sub s
  -- cone directions
  have hppos : lexpos (p - v) := (List.chain'_cons.1 (chain'_of_within hst1 hpv)).1
  have hdneg : lexpos (v - d) := by
    have h1 : lexpos (-(d - v)) := (List.chain'_cons.1 (chain'_of_within hst2 hdv)).1
    rw [neg_sub] at h1
    exact h1
  -- both LeftAll constraints at the crossing edges
  have hlowEdge : ∀ q ∈ sortPoints P, 0 ≤ cross (p - v) (q - v) := by
    intro q hq
    have h := cf.low.left q hq
    rw [leftAll_iff_chain'] at h
    exact (List.chain'_cons.1 (chain'_of_within h hpv)).1
  have hupEdge : ∀ q ∈ sortPoints P, 0 ≤ cross (d - v) (q - v) := by
    intro q hq
    have h := cf.up.left q (List.mem_reverse.2 hq)
    rw [leftAll_iff_chain'] at h
    exact (List.chain'_cons.1 (chain'_of_within h hdv)).1
  -- the two edges are anti-parallel
  have hcol : cross (p - v) (d - v) = 0 := by
    have h1 := hlowEdge d hdS
    have h2 := hupEdge p hpS
    rw [cross_comm_neg] at h2
    linarith
  obtain ⟨c, hcfac⟩ := collinear_factor hcol (isPosCone_lexpos.ne_zero hppos)
  have hcneg : c < 0 := by
    have h1 : lexpos ((-c) • (p - v)) := by
      rw [neg_smul, ← hcfac, neg_sub]
      exact hdneg
    have h2 := isPosCone_lexpos.smul_factor_pos hppos h1
    linarith
  -- the strict lower turn at v
  have hturn : 0 < cross (v - s) (p - v) := (turns_within hpvs cf.low.turns).1
  have hturn' : 0 < cross (p - v) (s - v) := by
    have hid : cross (v - s) (p - v) = cross (p - v) (s - v) := by
      simp only [cross, Prod.fst_sub, Prod.snd_sub]
      ring
    rw [← hid]
    exact hturn
  have hedge := hupEdge s hsS
  rw [hcfac, cross_smul_left] at hedge
  nlinarith

end Geometry

namespace Geometry

/-- In the nondegenerate core branch the hull list has no duplicates. -/
theorem hull_nodup (P : List Point) (h3 : 3 ≤ P.length)
    (hMm : (sortPoints P).headD 0 ≠ (sortPoints P).getLastD 0) :
    (computeConvexHull P (-1)).Nodup := by
  rw [computeConvexHull_core P h3, List.nodup_append]
  refine ⟨?_, ?_, ?_⟩
  · rw [List.nodup_reverse]
    have h1 := chain'_cLt_nodup isPosCone_lexpos _ (lower_strict P h3 hMm)
    exact h1.sublist (List.tail_sublist _)
  · rw [List.nodup_reverse]
    have h1 := chain'_cLt_nodup isPosCone_lexneg _ (upper_strict P h3 hMm)
    exact h1.sublist (List.tail_sublist _)
  · intro a ha hb
    rw [List.mem_reverse] at ha hb
    exact lowUp_disjoint P h3 hMm a ha hb

/-- Subset and cardinality facts for the count = -1 entry point. -/
theorem convexHull_core_props (Q : List Point) :
    (∀ q ∈ computeConvexHull Q (-1), q ∈ Q) ∧
      (computeConvexHull Q (-1)).length ≤ Q.length := by
  by_cases h3 : 3 ≤ Q.length
  · have cf := coreFacts Q h3
    have hsub : ∀ q ∈ computeConvexHull Q (-1), q ∈ Q := by
      intro q hq
      rw [computeConvexHull_core Q h3, List.mem_append] at hq
      have hq2 : q ∈ sortPoints Q := by
        rcases hq with h | h
        · exact cf.low.sub q (List.mem_of_mem_tail (List.mem_reverse.1 h))
        · exact List.mem_reverse.1
            (cf.up.sub q (List.mem_of_mem_tail (List.mem_reverse.1 h)))
      exact (sortPoints_perm Q).mem_iff.1 hq2
    refine ⟨hsub, ?_⟩
    by_cases hMm : (sortPoints Q).headD 0 = (sortPoints Q).getLastD 0
    · obtain ⟨hl2, hu2⟩ := stacks_degenerate Q h3 hMm
      rw [computeConvexHull_core Q h3, List.length_append,
        List.length_reverse, List.length_reverse, List.length_tail,
        List.length_tail, hl2, hu2]
      omega
    · have hnd := hull_nodup Q h3 hMm
      have hsubF : (computeConvexHull Q (-1)).toFinset ⊆ Q.toFinset := by
        intro a ha
        rw [List.mem_toFinset] at ha ⊢
        exact hsub a ha
      have h1 : (computeConvexHull Q (-1)).toFinset.card =
          (computeConvexHull Q (-1)).length := List.toFinset_card_of_nodup hnd
      have h2 : Q.toFinset.card ≤ Q.length := List.toFinset_card_le Q
      have h3c := Finset.card_le_card hsubF
      omega
  · rw [computeConvexHull_small Q (by omega)]
    exact ⟨fun q hq => hq, le_refl _⟩

/-- Any `count` call is the `-1` call on the truncated input. -/
theorem computeConvexHull_take (P : List Point) (count : ℤ) :
    computeConvexHull P count =
      computeConvexHull
        (P.take (if count < 0 then (P.length : ℤ) else count).toNat) (-1) := by
  have hneg : ((-1 : ℤ)) < 0 := by norm_num
  rw [computeConvexHull, computeConvexHull]
  simp only [hneg, if_true, Int.toNat_natCast, List.take_length]

/-- C4: every row of the returned hull equals some row of the input, and
the number of returned rows is at most the effective point count
N = (count < 0 ? P.length : count). -/
theorem convexHull_subset_count (P : List Point) (count : ℤ)
    (hcount : count ≤ (P.length : ℤ)) :
    (∀ q ∈ computeConvexHull P count, q ∈ P) ∧
      ((computeConvexHull P count).length : ℤ) ≤
        (if count < 0 then (P.length : ℤ) else count) := by
  rw [computeConvexHull_take P count]
  obtain ⟨hsub, hlen⟩ := convexHull_core_props
    (P.take (if count < 0 then (P.length : ℤ) else count).toNat)
  constructor
  · intro q hq
    exact List.take_subset _ _ (hsub q hq)
  · rw [List.length_take] at hlen
    rcases lt_or_le count 0 with h | h
    · rw [if_pos h] at hlen ⊢
      omega
    · rw [if_neg (not_lt.2 h)] at hlen ⊢
      omega

/-- Concrete instantiation of `convexHull_subset_count` on a two-point
input. -/
theorem convexHull_subset_count_witness :
    ((-1 : ℤ) ≤ (([((0 : ℚ), (0 : ℚ)), ((2 : ℚ), (0 : ℚ))] :
        List Point).length : ℤ)) ∧
      ((∀ q ∈ computeConvexHull [((0 : ℚ), (0 : ℚ)), ((2 : ℚ), (0 : ℚ))] (-1),
          q ∈ ([((0 : ℚ), (0 : ℚ)), ((2 : ℚ), (0 : ℚ))] : List Point)) ∧
        (((computeConvexHull [((0 : ℚ), (0 : ℚ)), ((2 : ℚ), (0 : ℚ))]
            (-1)).length : ℤ) ≤
          (if (-1 : ℤ) < 0 then (([((0 : ℚ), (0 : ℚ)), ((2 : ℚ), (0 : ℚ))] :
            List Point).length : ℤ) else (-1 : ℤ)))) :=
  ⟨by norm_num, convexHull_subset_count _ _ (by norm_num)⟩

end Geometry

namespace Geometry

/-- C7: on the concrete input {(0,0),(4,0),(4,4),(0,4),(2,2)} the hull is
exactly {(0,0),(4,0),(4,4),(0,4)} (the interior point (2,2) is excluded)
and the minimum-area rectangle has center (2,2), size (4,4) and angle 0. -/
theorem concrete_example :
    computeConvexHull
      [((0 : ℚ), (0 : ℚ)), ((4 : ℚ), (0 : ℚ)), ((4 : ℚ), (4 : ℚ)),
        ((0 : ℚ), (4 : ℚ)), ((2 : ℚ), (2 : ℚ))] (-1) =
      [((0 : ℚ), (0 : ℚ)), ((4 : ℚ), (0 : ℚ)), ((4 : ℚ), (4 : ℚ)),
        ((0 : ℚ), (4 : ℚ))] ∧
    minAreaRectangle
      [((0 : ℚ), (0 : ℚ)), ((4 : ℚ), (0 : ℚ)), ((4 : ℚ), (4 : ℚ)),
        ((0 : ℚ), (4 : ℚ)), ((2 : ℚ), (2 : ℚ))] (-1) =
      { center := ((2 : ℝ), (2 : ℝ)), size := ((4 : ℝ), (4 : ℝ)),
        angle := (0 : ℝ) } := by
  have hhull1 : computeConvexHull
      [((0:ℚ),(0:ℚ)), ((4:ℚ),(0:ℚ)), ((4:ℚ),(4:ℚ)), ((0:ℚ),(4:ℚ)), ((2:ℚ),(2:ℚ))]
      (-1) =
      [((0:ℚ),(0:ℚ)), ((4:ℚ),(0:ℚ)), ((4:ℚ),(4:ℚ)), ((0:ℚ),(4:ℚ))] := by
    norm_num [computeConvexHull, sortPoints, List.insertionSort,
      List.orderedInsert, lexLe, lexLt, chainFold, chainStep, hullPop,
      upperStep, hullPopUpper, cross]
  refine ⟨hhull1, ?_⟩
  have hhull : computeConvexHull
      [((0:ℚ),(0:ℚ)), ((4:ℚ),(0:ℚ)), ((4:ℚ),(4:ℚ)), ((0:ℚ),(4:ℚ)), ((2:ℚ),(2:ℚ))]
      (5 : ℤ) =
      [((0:ℚ),(0:ℚ)), ((4:ℚ),(0:ℚ)), ((4:ℚ),(4:ℚ)), ((0:ℚ),(4:ℚ))] := by
    rw [computeConvexHull_take]
    norm_num [computeConvexHull, sortPoints, List.insertionSort,
      List.orderedInsert, lexLe, lexLt, chainFold, chainStep, hullPop,
      upperStep, hullPopUpper, cross]
  have hL : Real.sqrt (16 : ℝ) = 4 := by
    rw [show (16 : ℝ) = (4 : ℝ) ^ 2 by norm_num]
    exact Real.sqrt_sq (by norm_num)
  have hatan : atan2 0 1 = 0 := by
    rw [atan2, if_pos one_pos]
    norm_num
  rw [minAreaRectangle]
  norm_num at hhull ⊢
  norm_num [hhull]
  norm_num [List.range_succ, List.foldl_append, caliperStep, hL, hatan, rdot,
    toR, listMin, listMax, min_def, max_def, defaultRectangle,
    RotatedRectangle.mk.injEq, EReal.coe_lt_top, Prod.ext_iff]
  simp

end Geometry

namespace Geometry

theorem foldl_const_of_id {α : Type} (f : α → ℕ → α) (init : α) :
    ∀ (l : List ℕ), (∀ (st : α) (i : ℕ), i ∈ l → f st i = st) →
      l.foldl f init = init
  | [], _ => rfl
  | i :: l, h => by
    rw [List.foldl_cons, h init i (by simp)]
    exact foldl_const_of_id f init l (fun st j hj => h st j (by simp [hj]))

/-- A zero-length edge is skipped by the `edgeLength <= 0` guard. -/
theorem caliperStep_skip (hull : List Point) (n : ℕ)
    (st : EReal × RotatedRectangle) (i : ℕ)
    (h : hull.getD ((i + 1) % n) 0 = hull.getD i 0) :
    caliperStep hull n st i = st := by
  simp only [caliperStep, h, sub_self, Prod.fst_zero, Prod.snd_zero]
  norm_num

/-- A replicated point yields the two-point hull `[p, p]`. -/
theorem hull_replicate (p : Point) (N : ℕ) (h2 : 2 ≤ N) :
    computeConvexHull (List.replicate N p) (-1) = [p, p] := by
  by_cases h3 : 3 ≤ N
  · have hlen : (List.replicate N p).length = N := List.length_replicate N p
    have h3' : 3 ≤ (List.replicate N p).length := by
      rw [hlen]
      exact h3
    have cf := coreFacts _ h3'
    have hallS : ∀ x ∈ sortPoints (List.replicate N p), x = p := by
      intro x hx
      exact List.eq_of_mem_replicate ((sortPoints_perm _).mem_iff.1 hx)
    have hsne : sortPoints (List.replicate N p) ≠ [] := by
      have h0 := cf.sortLen
      intro h
      rw [h] at h0
      simp at h0
    have hmM : (sortPoints (List.replicate N p)).headD 0 =
        (sortPoints (List.replicate N p)).getLastD 0 := by
      obtain ⟨s0, rest, hs⟩ := List.exists_cons_of_ne_nil hsne
      have h1 : (sortPoints (List.replicate N p)).headD 0 = p := by
        rw [hs]
        exact hallS s0 (by rw [hs]; simp)
      have hgl := getLast?_eq_some_getLastD hsne
      have h2g : (sortPoints (List.replicate N p)).getLastD 0 ∈
          sortPoints (List.replicate N p) := by
        rcases hx : (sortPoints (List.replicate N p)).getLast? with _ | a
        · rw [hx] at hgl
          simp at hgl
        · rw [hx] at hgl
          have ha : a ∈ sortPoints (List.replicate N p) :=
            List.mem_of_mem_getLast? hx
          have : a = (sortPoints (List.replicate N p)).getLastD 0 := by
            simpa using hgl
          rw [← this]
          exact ha
      rw [h1, hallS _ h2g]
    obtain ⟨hl2, hu2⟩ := stacks_degenerate _ h3' hmM
    have hlowval : lowerStack (List.replicate N p) = [p, p] := by
      rcases hL : lowerStack (List.replicate N p) with _ | ⟨a, _ | ⟨b, _ | ⟨c, tl⟩⟩⟩
      · rw [hL] at hl2
        simp at hl2
      · rw [hL] at hl2
        simp at hl2
      · have ha : a = p := hallS a (cf.low.sub a (by rw [hL]; simp))
        have hb : b = p := hallS b (cf.low.sub b (by rw [hL]; simp))
        rw [ha, hb]
      · rw [hL] at hl2
        simp at hl2
    have hupval : upperStack (List.replicate N p) = [p, p] := by
      rcases hU : upperStack (List.replicate N p) with _ | ⟨a, _ | ⟨b, _ | ⟨c, tl⟩⟩⟩
      · rw [hU] at hu2
        simp at hu2
      · rw [hU] at hu2
        simp at hu2
      · have ha : a = p := hallS a
          (List.mem_reverse.1 (cf.up.sub a (by rw [hU]; simp)))
        have hb : b = p := hallS b
          (List.mem_reverse.1 (cf.up.sub b (by rw [hU]; simp)))
        rw [ha, hb]
      · rw [hU] at hu2
        simp at hu2
    rw [computeConvexHull_core _ h3', hlowval, hupval]
    rfl
  · have hN2 : N = 2 := by omega
    subst hN2
    rw [computeConvexHull_small _ (by simp)]
    rfl

/-- C9: for N >= 2 copies of a single point p, every hull edge has zero
length and is skipped, so minAreaRectangle returns the default rectangle
(center (0,0), size (0,0), angle 0); the one-point case instead returns a
degenerate rectangle centered at p. -/
theorem minAreaRectangle_replicate (p : Point) (N : ℕ) (h2 : 2 ≤ N) :
    minAreaRectangle (List.replicate N p) (-1) =
      { center := ((0 : ℝ), (0 : ℝ)), size := ((0 : ℝ), (0 : ℝ)),
        angle := (0 : ℝ) } ∧
    minAreaRectangle [p] (-1) =
      { center := toR p, size := ((0 : ℝ), (0 : ℝ)), angle := (0 : ℝ) } := by
  constructor
  · have hhull : computeConvexHull (List.replicate N p)
        (if (-1 : ℤ) < 0 then ((List.replicate N p).length : ℤ)
          else (-1 : ℤ)) = [p, p] := by
      rw [if_pos (by norm_num : (-1 : ℤ) < 0), computeConvexHull_take]
      rw [if_neg (not_lt.2 (Int.natCast_nonneg _))]
      rw [Int.toNat_natCast, List.take_length]
      exact hull_replicate p N h2
    rw [minAreaRectangle, hhull]
    norm_num
    rw [foldl_const_of_id]
    · rfl
    · intro st i hi
      apply caliperStep_skip
      simp at hi
      interval_cases i
      · rfl
      · rfl
  · have hhull1 : computeConvexHull [p]
        (if (-1 : ℤ) < 0 then (([p] : List Point).length : ℤ)
          else (-1 : ℤ)) = [p] := by
      rw [if_pos (by norm_num : (-1 : ℤ) < 0), computeConvexHull_take]
      rw [if_neg (not_lt.2 (Int.natCast_nonneg _))]
      rw [Int.toNat_natCast, List.take_length]
      exact computeConvexHull_small [p] (by norm_num)
    rw [minAreaRectangle, hhull1]
    norm_num

/-- Concrete instantiation of `minAreaRectangle_replicate` at two copies of
(1, 1). -/
theorem minAreaRectangle_replicate_witness :
    2 ≤ 2 ∧
      (minAreaRectangle (List.replicate 2 ((1 : ℚ), (1 : ℚ))) (-1) =
        { center := ((0 : ℝ), (0 : ℝ)), size := ((0 : ℝ), (0 : ℝ)),
          angle := (0 : ℝ) } ∧
      minAreaRectangle [((1 : ℚ), (1 : ℚ))] (-1) =
        { center := toR ((1 : ℚ), (1 : ℚ)), size := ((0 : ℝ), (0 : ℝ)),
          angle := (0 : ℝ) }) :=
  ⟨by norm_num, minAreaRectangle_replicate ((1 : ℚ), (1 : ℚ)) 2 (by norm_num)⟩

end Geometry

namespace Geometry

/-- Cyclic vertex access into a hull list. -/
def cyc (L : List Point) (j : ℕ) : Point := L.getD (j % L.length) 0

/-- Rotate a 2-vector by +90 degrees. -/
def perp (v : Point) : Point := (-v.2, v.1)

theorem pdot_sub_left (u v d : Point) : pdot (u - v) d = pdot u d - pdot v d := by
  obtain ⟨u1, u2⟩ := u; obtain ⟨v1, v2⟩ := v; obtain ⟨d1, d2⟩ := d
  simp only [pdot, Prod.fst_sub, Prod.snd_sub]
  ring

theorem pdot_add_left (u v d : Point) : pdot (u + v) d = pdot u d + pdot v d := by
  obtain ⟨u1, u2⟩ := u; obtain ⟨v1, v2⟩ := v; obtain ⟨d1, d2⟩ := d
  simp only [pdot, Prod.fst_add, Prod.snd_add]
  ring

theorem pdot_smul_left (c : ℚ) (u d : Point) :
    pdot (c • u) d = c * pdot u d := by
  obtain ⟨u1, u2⟩ := u; obtain ⟨d1, d2⟩ := d
  simp only [pdot, Prod.smul_fst, Prod.smul_snd, smul_eq_mul]
  ring

theorem pdot_perp (x e : Point) : pdot x (perp e) = cross e x := by
  obtain ⟨x1, x2⟩ := x; obtain ⟨e1, e2⟩ := e
  simp only [pdot, perp, cross]
  ring

theorem cross_add_right (u v w : Point) :
    cross u (v + w) = cross u v + cross u w := by
  obtain ⟨u1, u2⟩ := u; obtain ⟨v1, v2⟩ := v; obtain ⟨w1, w2⟩ := w
  simp only [cross, Prod.fst_add, Prod.snd_add]
  ring

theorem cyc_mod (L : List Point) (j : ℕ) : cyc L (j % L.length) = cyc L j := by
  rw [cyc, cyc, Nat.mod_mod_of_dvd j (dvd_refl L.length)]

theorem cyc_add_len (L : List Point) (j : ℕ) :
    cyc L (j + L.length) = cyc L j := by
  rw [cyc, cyc, Nat.add_mod_right]

theorem cyc_eq_getD (L : List Point) {j : ℕ} (h : j < L.length) :
    cyc L j = L.getD j 0 := by
  rw [cyc, Nat.mod_eq_of_lt h]

theorem cyc_mem (L : List Point) (hL : L ≠ []) (j : ℕ) : cyc L j ∈ L := by
  have hlen : 0 < L.length := List.length_pos.2 hL
  have hlt : j % L.length < L.length := Nat.mod_lt _ hlen
  rw [cyc, List.getD_eq_getElem?_getD, List.getElem?_eq_getElem hlt]
  simp

/-- Support theorem: a point weakly inside a strictly convex cyclic polygon
does not exceed the vertex maximum of any linear functional. -/
theorem support_max (L : List Point) (h3 : 3 ≤ L.length)
    (hturn : ∀ j < L.length,
      0 < cross (cyc L (j + 1) - cyc L j) (cyc L (j + 2) - cyc L (j + 1)))
    (q : Point)
    (hq : ∀ j < L.length, 0 ≤ cross (cyc L (j + 1) - cyc L j) (q - cyc L j))
    (d : Point) :
    ∃ i < L.length, pdot q d ≤ pdot (cyc L i) d := by
  obtain ⟨i, hi, hmax⟩ := Finset.exists_max_image (Finset.range L.length)
    (fun j => pdot (cyc L j) d) ⟨0, by simp; omega⟩
  rw [Finset.mem_range] at hi
  refine ⟨i, hi, ?_⟩
  have hpred_lt : (i + L.length - 1) % L.length < L.length :=
    Nat.mod_lt _ (by omega)
  have hidx1 : ((i + L.length - 1) % L.length + 1) % L.length =
      i % L.length := by
    rw [Nat.mod_add_mod]
    have h0 : i + L.length - 1 + 1 = i + L.length := by omega
    rw [h0, Nat.add_mod_right]
  have hidx2 : ((i + L.length - 1) % L.length + 2) % L.length =
      (i + 1) % L.length := by
    rw [Nat.mod_add_mod]
    have h0 : i + L.length - 1 + 2 = (i + 1) + L.length := by omega
    rw [h0, Nat.add_mod_right]
  have hpred1 : cyc L ((i + L.length - 1) % L.length + 1) = cyc L i := by
    rw [cyc, cyc, hidx1]
  have hpred2 : cyc L ((i + L.length - 1) % L.length + 2) = cyc L (i + 1) := by
    rw [cyc, cyc, hidx2]
  have hturnp := hturn _ hpred_lt
  rw [hpred1, hpred2] at hturnp
  obtain ⟨α, β, hdec, hcu, hcv⟩ := exists_decomp (ne_of_gt hturnp)
    (q - cyc L i)
  have hqp := hq _ hpred_lt
  rw [hpred1] at hqp
  have hshift : cross (cyc L i - cyc L ((i + L.length - 1) % L.length))
      (q - cyc L ((i + L.length - 1) % L.length)) =
      cross (cyc L i - cyc L ((i + L.length - 1) % L.length))
        (q - cyc L i) := by
    have h0 : q - cyc L ((i + L.length - 1) % L.length) =
        (q - cyc L i) + (cyc L i - cyc L ((i + L.length - 1) % L.length)) := by
      abel
    rw [h0, cross_add_right, cross_self, add_zero]
  rw [hshift] at hqp
  have hβ : 0 ≤ β := by
    by_contra hcon
    push_neg at hcon
    have h1 := mul_neg_of_neg_of_pos hcon hturnp
    rw [← hcu] at h1
    linarith
  have hα : α ≤ 0 := by
    have hqi := hq i hi
    have h1 : cross (cyc L (i + 1) - cyc L i) (q - cyc L i) =
        -(α * cross (cyc L i - cyc L ((i + L.length - 1) % L.length))
          (cyc L (i + 1) - cyc L i)) := by
      rw [← hcv, cross_comm_neg]
    rw [h1] at hqi
    by_contra hcon
    push_neg at hcon
    have h2 := mul_pos hcon hturnp
    linarith
  have hexp : pdot q d - pdot (cyc L i) d =
      α * pdot (cyc L i - cyc L ((i + L.length - 1) % L.length)) d +
        β * pdot (cyc L (i + 1) - cyc L i) d := by
    have h0 : pdot q d - pdot (cyc L i) d = pdot (q - cyc L i) d :=
      (pdot_sub_left q (cyc L i) d).symm
    rw [h0, hdec, pdot_add_left, pdot_smul_left, pdot_smul_left]
  have htpred : 0 ≤ pdot (cyc L i - cyc L ((i + L.length - 1) % L.length)) d := by
    have h1 := hmax ((i + L.length - 1) % L.length)
      (Finset.mem_range.2 hpred_lt)
    rw [pdot_sub_left]
    simp only at h1
    linarith
  have hti : pdot (cyc L (i + 1) - cyc L i) d ≤ 0 := by
    have hlt2 : (i + 1) % L.length < L.length := Nat.mod_lt _ (by omega)
    have h1 := hmax ((i + 1) % L.length) (Finset.mem_range.2 hlt2)
    simp only at h1
    rw [cyc_mod] at h1
    rw [pdot_sub_left]
    linarith
  have hm1 : α * pdot (cyc L i - cyc L ((i + L.length - 1) % L.length)) d ≤ 0 :=
    mul_nonpos_of_nonpos_of_nonneg hα htpred
  have hm2 : β * pdot (cyc L (i + 1) - cyc L i) d ≤ 0 :=
    mul_nonpos_of_nonneg_of_nonpos hβ hti
  linarith

/-- Min-side companion of `support_max`. -/
theorem support_min (L : List Point) (h3 : 3 ≤ L.length)
    (hturn : ∀ j < L.length,
      0 < cross (cyc L (j + 1) - cyc L j) (cyc L (j + 2) - cyc L (j + 1)))
    (q : Point)
    (hq : ∀ j < L.length, 0 ≤ cross (cyc L (j + 1) - cyc L j) (q - cyc L j))
    (d : Point) :
    ∃ i < L.length, pdot (cyc L i) d ≤ pdot q d := by
  obtain ⟨i, hi, h⟩ := support_max L h3 hturn q hq (-d)
  refine ⟨i, hi, ?_⟩
  have h1 : pdot q (-d) = -pdot q d := by
    obtain ⟨q1, q2⟩ := q; obtain ⟨d1, d2⟩ := d
    simp only [pdot, Prod.fst_neg, Prod.snd_neg]
    ring
  have h2 : pdot (cyc L i) (-d) = -pdot (cyc L i) d := by
    obtain ⟨d1, d2⟩ := d
    simp only [pdot, Prod.fst_neg, Prod.snd_neg]
    ring
  rw [h1, h2] at h
  linarith

end Geometry

namespace Geometry

theorem pdot_add_right (x u v : Point) :
    pdot x (u + v) = pdot x u + pdot x v := by
  obtain ⟨x1, x2⟩ := x; obtain ⟨u1, u2⟩ := u; obtain ⟨v1, v2⟩ := v
  simp only [pdot, Prod.fst_add, Prod.snd_add]
  ring

theorem cyc_pred_one (L : List Point) (j : ℕ) :
    cyc L ((j + L.length - 1) % L.length + 1) = cyc L j := by
  rcases Nat.eq_zero_or_pos L.length with h0 | h0
  · have hnil : L = [] := List.length_eq_zero.1 h0
    simp [hnil, cyc]
  · rw [cyc, cyc, Nat.mod_add_mod]
    have h1 : j + L.length - 1 + 1 = j + L.length := by omega
    rw [h1, Nat.add_mod_right]

theorem cyc_pred_two (L : List Point) (j : ℕ) :
    cyc L ((j + L.length - 1) % L.length + 2) = cyc L (j + 1) := by
  rcases Nat.eq_zero_or_pos L.length with h0 | h0
  · have hnil : L = [] := List.length_eq_zero.1 h0
    simp [hnil, cyc]
  · rw [cyc, cyc, Nat.mod_add_mod]
    have h1 : j + L.length - 1 + 2 = (j + 1) + L.length := by omega
    rw [h1, Nat.add_mod_right]

/-- Outward corner covector at vertex `j`: the sum of the left normals of
the two incident edges. -/
def wvec (L : List Point) (j : ℕ) : Point :=
  perp (cyc L j - cyc L ((j + L.length - 1) % L.length)) +
    perp (cyc L (j + 1) - cyc L j)

/-- A strictly convex counter-clockwise vertex cycle that weakly contains
its own vertex set. -/
structure ConvexCycle (L : List Point) : Prop where
  len3 : 3 ≤ L.length
  nodup : L.Nodup
  turn : ∀ j < L.length,
    0 < cross (cyc L (j + 1) - cyc L j) (cyc L (j + 2) - cyc L (j + 1))
  leftSelf : ∀ x ∈ L, ∀ j < L.length,
    0 ≤ cross (cyc L (j + 1) - cyc L j) (x - cyc L j)

theorem pdot_wvec (L : List Point) (j : ℕ) (x : Point) :
    pdot x (wvec L j) =
      cross (cyc L j - cyc L ((j + L.length - 1) % L.length)) x +
        cross (cyc L (j + 1) - cyc L j) x := by
  rw [wvec, pdot_add_right, pdot_perp, pdot_perp]

/-- Every vertex is the strict minimizer of its own corner covector. -/
theorem corner_min {L : List Point} (cc : ConvexCycle L) {j : ℕ}
    (hj : j < L.length) {x : Point} (hx : x ∈ L) (hne : x ≠ cyc L j) :
    0 < pdot (x - cyc L j) (wvec L j) := by
  have hpl : (j + L.length - 1) % L.length < L.length :=
    Nat.mod_lt _ (by have := cc.len3; omega)
  have hturnp := cc.turn _ hpl
  rw [cyc_pred_one, cyc_pred_two] at hturnp
  have h2 := cc.leftSelf x hx j hj
  have h1 : 0 ≤ cross (cyc L j - cyc L ((j + L.length - 1) % L.length))
      (x - cyc L j) := by
    have h0 := cc.leftSelf x hx _ hpl
    rw [cyc_pred_one] at h0
    have hsh : cross (cyc L j - cyc L ((j + L.length - 1) % L.length))
        (x - cyc L ((j + L.length - 1) % L.length)) =
        cross (cyc L j - cyc L ((j + L.length - 1) % L.length))
          (x - cyc L j) := by
      have he : x - cyc L ((j + L.length - 1) % L.length) =
          (x - cyc L j) +
            (cyc L j - cyc L ((j + L.length - 1) % L.length)) := by
        abel
      rw [he, cross_add_right, cross_self, add_zero]
    rw [hsh] at h0
    exact h0
  rw [pdot_wvec]
  rcases lt_or_eq_of_le h1 with hs1 | he1
  · linarith
  rcases lt_or_eq_of_le h2 with hs2 | he2
  · linarith
  exfalso
  obtain ⟨α, β, hdec, hcu, hcv⟩ := exists_decomp (ne_of_gt hturnp) (x - cyc L j)
  have hβ : β = 0 := by
    have h0 := hcu
    rw [← he1] at h0
    have hne0 : cross (cyc L j - cyc L ((j + L.length - 1) % L.length))
        (cyc L (j + 1) - cyc L j) ≠ 0 := ne_of_gt hturnp
    field_simp at h0
    rcases h0 with h0 | h0
    · exact h0
    · exact absurd h0 hne0
  have hα : α = 0 := by
    have h0' : cross (x - cyc L j) (cyc L (j + 1) - cyc L j) = 0 := by
      rw [cross_comm_neg, ← he2]
      ring
    rw [h0'] at hcv
    rcases mul_eq_zero.1 hcv.symm with h1 | h1
    · exact h1
    · exact absurd h1 (ne_of_gt hturnp)
  apply hne
  have h0 : x - cyc L j = 0 := by
    rw [hdec, hα, hβ]
    simp
  have h1 := sub_eq_zero.1 h0
  exact h1

end Geometry

namespace Geometry

theorem cyc_eq_getElem (L : List Point) {k : ℕ} (h : k < L.length) :
    cyc L k = L[k] := by
  rw [cyc_eq_getD L h, List.getD_eq_getElem?_getD, List.getElem?_eq_getElem h]
  rfl

/-- On a strictly convex cycle, every vertex other than the two endpoints of
an edge lies strictly to the left of that edge. -/
theorem strict_edge_left {L : List Point} (cc : ConvexCycle L) {j : ℕ}
    (hj : j < L.length) {x : Point} (hx : x ∈ L)
    (hne0 : x ≠ cyc L j) (hne1 : x ≠ cyc L (j + 1)) :
    0 < cross (cyc L (j + 1) - cyc L j) (x - cyc L j) := by
  have hLne : L ≠ [] := by
    intro h
    have := cc.len3
    rw [h] at this
    simp at this
  rcases lt_or_eq_of_le (cc.leftSelf x hx j hj) with hlt | heq
  · exact hlt
  exfalso
  have hvne : cyc L (j + 1) - cyc L j ≠ 0 := by
    intro h0
    have ht := cc.turn j hj
    rw [h0, cross_zero_left] at ht
    exact lt_irrefl 0 ht
  obtain ⟨t, hxfac⟩ := collinear_factor heq.symm hvne
  -- t > 0 from the corner at j
  have hpl : (j + L.length - 1) % L.length < L.length :=
    Nat.mod_lt _ (by have := cc.len3; omega)
  have hturnp := cc.turn _ hpl
  rw [cyc_pred_one, cyc_pred_two] at hturnp
  have hwj : pdot (cyc L (j + 1) - cyc L j) (wvec L j) =
      cross (cyc L j - cyc L ((j + L.length - 1) % L.length))
        (cyc L (j + 1) - cyc L j) := by
    rw [pdot_wvec, cross_self, add_zero]
  have hc1 := corner_min cc hj hx hne0
  rw [hxfac, pdot_smul_left, hwj] at hc1
  have ht0 : 0 < t := by
    by_contra hcon
    push_neg at hcon
    have h1 := mul_nonpos_of_nonpos_of_nonneg hcon (le_of_lt hturnp)
    linarith
  -- t < 1 from the corner at j + 1
  have hn1 : 1 ≤ L.length := by have := cc.len3; omega
  have hj1lt : (j + 1) % L.length < L.length := Nat.mod_lt _ (by omega)
  have hcycj1 : cyc L ((j + 1) % L.length) = cyc L (j + 1) := cyc_mod L (j + 1)
  have hpredj1 : cyc L (((j + 1) % L.length + L.length - 1) % L.length) =
      cyc L j := by
    rw [cyc]
    have h2 : (j + 1) % L.length + L.length - 1 =
        (j + 1) % L.length + (L.length - 1) := by omega
    have h1 : ((j + 1) % L.length + L.length - 1) % L.length =
        j % L.length := by
      rw [h2, Nat.mod_add_mod]
      have h3 : j + 1 + (L.length - 1) = j + L.length := by omega
      rw [h3, Nat.add_mod_right]
    rw [h1]
    exact cyc_mod L j
  have hsuccj1 : cyc L ((j + 1) % L.length + 1) = cyc L (j + 2) := by
    rw [cyc, Nat.mod_add_mod]
    rfl
  have hwj1 : pdot (cyc L (j + 1) - cyc L j) (wvec L ((j + 1) % L.length)) =
      -(cross (cyc L (j + 1) - cyc L j)
        (cyc L (j + 2) - cyc L (j + 1))) := by
    rw [wvec, hpredj1, hcycj1, hsuccj1, pdot_add_right, pdot_perp, pdot_perp,
      cross_self, cross_comm_neg]
    ring
  have hxj1 : x - cyc L ((j + 1) % L.length) =
      (t - 1) • (cyc L (j + 1) - cyc L j) := by
    rw [hcycj1, sub_smul, one_smul, ← hxfac]
    abel
  have hne1' : x ≠ cyc L ((j + 1) % L.length) := by
    rw [hcycj1]
    exact hne1
  have hc2 := corner_min cc hj1lt hx hne1'
  rw [hxj1, pdot_smul_left, hwj1] at hc2
  have hturnj := cc.turn j hj
  have ht1 : t < 1 := by
    by_contra hcon
    push_neg at hcon
    have h1 : 0 ≤ (t - 1) * cross (cyc L (j + 1) - cyc L j)
        (cyc L (j + 2) - cyc L (j + 1)) :=
      mul_nonneg (by linarith) (le_of_lt hturnj)
    linarith
  -- the corner at x itself is contradicted
  obtain ⟨k, hk, hkx⟩ := List.mem_iff_getElem.1 hx
  have hkc : cyc L k = x := by
    rw [cyc_eq_getElem L hk, hkx]
  have hmem0 : cyc L j ∈ L := cyc_mem L hLne j
  have hmem1 : cyc L (j + 1) ∈ L := cyc_mem L hLne (j + 1)
  have hne0' : cyc L j ≠ cyc L k := by
    rw [hkc]
    exact fun h => hne0 h.symm
  have hne1'' : cyc L (j + 1) ≠ cyc L k := by
    rw [hkc]
    exact fun h => hne1 h.symm
  have hcx1 := corner_min cc hk hmem0 hne0'
  have hcx2 := corner_min cc hk hmem1 hne1''
  have he0 : cyc L j - cyc L k = (-t) • (cyc L (j + 1) - cyc L j) := by
    rw [hkc, neg_smul, ← hxfac]
    abel
  have he1 : cyc L (j + 1) - cyc L k =
      (1 - t) • (cyc L (j + 1) - cyc L j) := by
    rw [hkc, sub_smul, one_smul, ← hxfac]
    abel
  rw [he0, pdot_smul_left] at hcx1
  rw [he1, pdot_smul_left] at hcx2
  rcases lt_trichotomy (pdot (cyc L (j + 1) - cyc L j) (wvec L k)) 0 with
    hcc | hcc | hcc
  · have h1 : (1 - t) * pdot (cyc L (j + 1) - cyc L j) (wvec L k) < 0 :=
      mul_neg_of_pos_of_neg (by linarith) hcc
    linarith
  · rw [hcc, mul_zero] at hcx1
    exact lt_irrefl 0 hcx1
  · have h1 : (-t) * pdot (cyc L (j + 1) - cyc L j) (wvec L k) < 0 :=
      mul_neg_of_neg_of_pos (by linarith) hcc
    linarith

/-- Two convex cycles over the same vertex set and with a common current
vertex have the same successor. -/
theorem successor_unique {L1 L2 : List Point} (c1 : ConvexCycle L1)
    (c2 : ConvexCycle L2) (hset : ∀ x, x ∈ L1 ↔ x ∈ L2)
    {i k : ℕ} (hi : i < L1.length) (hk : k < L2.length)
    (hstart : cyc L1 i = cyc L2 k) :
    cyc L1 (i + 1) = cyc L2 (k + 1) := by
  by_contra hne
  have hL1ne : L1 ≠ [] := by
    intro h
    have := c1.len3
    rw [h] at this
    simp at this
  have hL2ne : L2 ≠ [] := by
    intro h
    have := c2.len3
    rw [h] at this
    simp at this
  have hb1a : cyc L1 (i + 1) ≠ cyc L1 i := by
    intro h0
    have ht := c1.turn i hi
    rw [show cyc L1 (i + 1) - cyc L1 i = 0 by rw [h0]; abel,
      cross_zero_left] at ht
    exact lt_irrefl 0 ht
  have hb2a : cyc L2 (k + 1) ≠ cyc L2 k := by
    intro h0
    have ht := c2.turn k hk
    rw [show cyc L2 (k + 1) - cyc L2 k = 0 by rw [h0]; abel,
      cross_zero_left] at ht
    exact lt_irrefl 0 ht
  have hm1 : cyc L1 (i + 1) ∈ L2 := (hset _).1 (cyc_mem L1 hL1ne (i + 1))
  have hm2 : cyc L2 (k + 1) ∈ L1 := (hset _).2 (cyc_mem L2 hL2ne (k + 1))
  have h1 := strict_edge_left c1 hi hm2
    (by rw [hstart]; exact hb2a) (fun h => hne h.symm)
  have h2 := strict_edge_left c2 hk hm1
    (by rw [← hstart]; exact hb1a) hne
  rw [← hstart] at h2
  rw [cross_comm_neg] at h2
  linarith

end Geometry

namespace Geometry

/-- Two convex cycles over the same vertex set and with the same starting
vertex are equal as lists. -/
theorem convexCycle_ext {L1 L2 : List Point} (c1 : ConvexCycle L1)
    (c2 : ConvexCycle L2) (hset : ∀ x, x ∈ L1 ↔ x ∈ L2)
    (h0 : cyc L1 0 = cyc L2 0) : L1 = L2 := by
  have hfin : L1.toFinset = L2.toFinset := by
    ext a
    rw [List.mem_toFinset, List.mem_toFinset]
    exact hset a
  have hlen : L1.length = L2.length := by
    have h1 := List.toFinset_card_of_nodup c1.nodup
    have h2 := List.toFinset_card_of_nodup c2.nodup
    rw [hfin] at h1
    omega
  have hall : ∀ m : ℕ, cyc L1 m = cyc L2 m := by
    intro m
    induction m with
    | zero => exact h0
    | succ m ih =>
      have hn1 : 0 < L1.length := by have := c1.len3; omega
      have hn2 : 0 < L2.length := by have := c2.len3; omega
      have hstart : cyc L1 (m % L1.length) = cyc L2 (m % L2.length) := by
        rw [cyc_mod, cyc_mod]
        exact ih
      have hsucc := successor_unique c1 c2 hset (Nat.mod_lt _ hn1)
        (Nat.mod_lt _ hn2) hstart
      have he1 : cyc L1 (m % L1.length + 1) = cyc L1 (m + 1) := by
        rw [cyc, cyc, Nat.mod_add_mod]
      have he2 : cyc L2 (m % L2.length + 1) = cyc L2 (m + 1) := by
        rw [cyc, cyc, Nat.mod_add_mod]
      rw [he1, he2] at hsucc
      exact hsucc
  apply List.ext_getElem hlen
  intro i h1 h2
  have h := hall i
  rw [cyc_eq_getElem L1 h1, cyc_eq_getElem L2 h2] at h
  exact h

/-- When the lexicographic extremes of the sorted input coincide, all
sorted points are equal. -/
theorem sorted_const (P : List Point) (hne : sortPoints P ≠ [])
    (hmM : (sortPoints P).headD 0 = (sortPoints P).getLastD 0) :
    ∀ x ∈ sortPoints P, x = (sortPoints P).headD 0 := by
  have hchain := sortPoints_chain P
  obtain ⟨s0, srest, hs⟩ := List.exists_cons_of_ne_nil hne
  have hhead : (sortPoints P).headD 0 = s0 := by
    rw [hs]
    rfl
  intro x hx
  have h1 : cLe lexpos s0 x := by
    apply chain'_cLe_head isPosCone_lexpos s0 srest
    · rw [← hs]
      exact hchain
    · rw [← hs]
      exact hx
  have hgl : (sortPoints P).getLast? = some ((sortPoints P).getLastD 0) :=
    getLast?_eq_some_getLastD hne
  have h2 : cLe lexpos x ((sortPoints P).getLastD 0) :=
    chain'_cLe_last isPosCone_lexpos (sortPoints P) hchain x hx _ hgl
  rw [← hmM] at h2
  have h1' : cLe lexpos ((sortPoints P).headD 0) x := by
    rw [hhead]
    exact h1
  exact cLe_antisymm isPosCone_lexpos h2 h1'

theorem hull_ne_extremes (P : List Point) (h3 : 3 ≤ P.length)
    (hn3 : 3 ≤ (computeConvexHull P (-1)).length) :
    (sortPoints P).headD 0 ≠ (sortPoints P).getLastD 0 := by
  intro hmM
  obtain ⟨hl2, hu2⟩ := stacks_degenerate P h3 hmM
  have cf := coreFacts P h3
  have hn : (computeConvexHull P (-1)).length + 2 =
      (lowerStack P).length + (upperStack P).length := by
    rw [computeConvexHull_core P h3, List.length_append, List.length_reverse,
      List.length_reverse, List.length_tail, List.length_tail]
    have h1 := cf.lowLen
    have h2 := cf.upLen
    omega
  omega

/-- The first hull vertex is the lexicographic minimum of the sorted
input (core branch). -/
theorem hull_getD_zero (P : List Point) (h3 : 3 ≤ P.length) :
    (computeConvexHull P (-1)).getD 0 0 = (sortPoints P).headD 0 := by
  have cf := coreFacts P h3
  have hlne : lowerStack P ≠ [] := by
    intro h
    have := cf.lowLen
    rw [h] at this
    simp at this
  have hltne : (lowerStack P).tail ≠ [] := by
    intro h
    have h2 := List.length_tail (lowerStack P)
    rw [h] at h2
    simp only [List.length_nil] at h2
    have := cf.lowLen
    omega
  have hgd0 : ∀ l : List Point, l.getD 0 0 = l.head?.getD 0 := by
    intro l
    rcases l with _ | ⟨a, t⟩ <;> simp
  rw [computeConvexHull_core P h3]
  rcases hlt : (lowerStack P).tail with _ | ⟨y, ys⟩
  · exact absurd hlt hltne
  · rw [List.getD_append]
    · have h1 : (lowerStack P).getLastD 0 = (y :: ys).getLastD 0 := by
        obtain ⟨z, zs, hl⟩ := List.exists_cons_of_ne_nil hlne
        have hzs : zs = y :: ys := by
          have h' := hlt
          rw [hl] at h'
          simpa using h'
        rw [hl, hzs, List.getLastD_eq_getLast?, List.getLastD_eq_getLast?,
          List.getLast?_cons_cons]
      rw [hgd0, List.head?_reverse, ← List.getLastD_eq_getLast?, ← h1,
        cf.lowBot]
    · simp

theorem collinear_no_turn {a b : Point} (hab : b - a ≠ 0) {p q r : Point}
    (hp : cross (b - a) (p - a) = 0) (hq : cross (b - a) (q - a) = 0)
    (hr : cross (b - a) (r - a) = 0) : cross (q - p) (r - q) = 0 := by
  obtain ⟨sp, hsp⟩ := collinear_factor hp hab
  obtain ⟨sq, hsq⟩ := collinear_factor hq hab
  obtain ⟨sr, hsr⟩ := collinear_factor hr hab
  have h1 : q - p = (sq - sp) • (b - a) := by
    have h0 : q - p = (q - a) - (p - a) := by abel
    rw [h0, hsp, hsq, sub_smul]
  have h2 : r - q = (sr - sq) • (b - a) := by
    have h0 : r - q = (r - a) - (q - a) := by abel
    rw [h0, hsq, hsr, sub_smul]
  rw [h1, h2, cross_smul_left, cross_smul_right, cross_self]
  ring

theorem sorted_head_le (P : List Point) (hne : P ≠ []) :
    ∀ x ∈ P, cLe lexpos ((sortPoints P).headD 0) x := by
  have hsne : sortPoints P ≠ [] := by
    intro h
    have hlen := (sortPoints_perm P).length_eq
    rw [h] at hlen
    simp only [List.length_nil] at hlen
    exact hne (List.length_eq_zero.1 hlen.symm)
  obtain ⟨s0, srest, hs⟩ := List.exists_cons_of_ne_nil hsne
  intro x hx
  have hhead : (sortPoints P).headD 0 = s0 := by
    rw [hs]
    rfl
  rw [hhead]
  apply chain'_cLe_head isPosCone_lexpos s0 srest
  · rw [← hs]
    exact sortPoints_chain P
  · rw [← hs]
    exact (sortPoints_perm P).mem_iff.2 hx

theorem sorted_headD_mem (P : List Point) (hne : P ≠ []) :
    (sortPoints P).headD 0 ∈ P := by
  have hsne : sortPoints P ≠ [] := by
    intro h
    have hlen := (sortPoints_perm P).length_eq
    rw [h] at hlen
    simp only [List.length_nil] at hlen
    exact hne (List.length_eq_zero.1 hlen.symm)
  obtain ⟨s0, srest, hs⟩ := List.exists_cons_of_ne_nil hsne
  have hhead : (sortPoints P).headD 0 = s0 := by
    rw [hs]
    rfl
  rw [hhead]
  apply (sortPoints_perm P).mem_iff.1
  rw [hs]
  simp

end Geometry

namespace Geometry

/-- The core-branch hull output is a strictly convex CCW cycle weakly
containing all input points (specialised to its own vertices). -/
theorem hull_convexCycle (P : List Point) (h3 : 3 ≤ P.length)
    (hn3 : 3 ≤ (computeConvexHull P (-1)).length) :
    ConvexCycle (computeConvexHull P (-1)) := by
  have hMm := hull_ne_extremes P h3 hn3
  refine ⟨hn3, hull_nodup P h3 hMm, ?_, ?_⟩
  · intro j hj
    have h := cyclic_turns_of_turnsF hn3 (hull_cyclic_turnsF P h3 hn3) hj
    rw [cyc_eq_getD _ hj]
    exact h
  · intro x hx j hj
    have hxP : x ∈ P := (convexHull_core_props P).1 x hx
    have h := cyclic_edges_of_leftAllF (hull_cyclic_left P h3 x hxP) hj
    rw [cyc_eq_getD _ hj]
    exact h

/-- If the input hull has at least three vertices, so does the hull of the
hull. -/
theorem hull2_len3 (P : List Point) (h3 : 3 ≤ P.length)
    (hn3 : 3 ≤ (computeConvexHull P (-1)).length) :
    3 ≤ (computeConvexHull (computeConvexHull P (-1)) (-1)).length := by
  have ccH := hull_convexCycle P h3 hn3
  have cf2 := coreFacts _ hn3
  have hHne : computeConvexHull P (-1) ≠ [] := by
    intro h
    rw [h] at hn3
    simp at hn3
  have hn2 : (computeConvexHull (computeConvexHull P (-1)) (-1)).length + 2 =
      (lowerStack (computeConvexHull P (-1))).length +
        (upperStack (computeConvexHull P (-1))).length := by
    rw [computeConvexHull_core _ hn3, List.length_append,
      List.length_reverse, List.length_reverse, List.length_tail,
      List.length_tail]
    have h1 := cf2.lowLen
    have h2 := cf2.upLen
    omega
  by_contra hcon
  push_neg at hcon
  have hl1 := cf2.lowLen
  have hu1 := cf2.upLen
  have hn2eq : (computeConvexHull (computeConvexHull P (-1)) (-1)).length = 2 := by
    omega
  by_cases hmM : (sortPoints (computeConvexHull P (-1))).headD 0 =
      (sortPoints (computeConvexHull P (-1))).getLastD 0
  · -- all hull points would be equal, contradicting nodup
    have hsne : sortPoints (computeConvexHull P (-1)) ≠ [] := by
      intro h
      have hlen := (sortPoints_perm (computeConvexHull P (-1))).length_eq
      rw [h] at hlen
      simp only [List.length_nil] at hlen
      exact hHne (List.length_eq_zero.1 hlen.symm)
    have hall := sorted_const _ hsne hmM
    rcases hh : computeConvexHull P (-1) with _ | ⟨a, _ | ⟨b, t⟩⟩
    · exact hHne hh
    · rw [hh] at hn3
      simp at hn3
    · have ha : a = (sortPoints (computeConvexHull P (-1))).headD 0 := by
        apply hall
        apply (sortPoints_perm _).mem_iff.2
        rw [hh]
        simp
      have hb : b = (sortPoints (computeConvexHull P (-1))).headD 0 := by
        apply hall
        apply (sortPoints_perm _).mem_iff.2
        rw [hh]
        simp
      have hnd := ccH.nodup
      rw [hh, List.nodup_cons] at hnd
      apply hnd.1
      rw [ha, ← hb]
      simp
  · -- nondegenerate two-vertex hull forces all hull points collinear
    have hnd2 := hull_nodup _ hn3 hmM
    rcases hh2 : computeConvexHull (computeConvexHull P (-1)) (-1) with
      _ | ⟨a, _ | ⟨b, _ | ⟨c, t⟩⟩⟩
    · rw [hh2] at hn2eq
      simp at hn2eq
    · rw [hh2] at hn2eq
      simp at hn2eq
    · -- hull2 = [a, b]
      have hab : a ≠ b := by
        rw [hh2, List.nodup_cons] at hnd2
        intro h0
        apply hnd2.1
        rw [h0]
        simp
      have habne : b - a ≠ 0 := sub_ne_zero.2 (Ne.symm hab)
      have hcol : ∀ q ∈ computeConvexHull P (-1),
          cross (b - a) (q - a) = 0 := by
        intro q hq
        have h := hull_cyclic_left _ hn3 q hq
        rw [hh2] at h
        have hgd : ((a :: b :: ([] : List Point)).getD 0 0) = a := by simp
        rw [hgd] at h
        have h1 : 0 ≤ cross (b - a) (q - a) := h.1
        have h2 : 0 ≤ cross (a - b) (q - b) := h.2.1
        have hsh : cross (a - b) (q - b) = -(cross (b - a) (q - a)) := by
          simp only [cross, Prod.fst_sub, Prod.snd_sub]
          ring
        rw [hsh] at h2
        linarith
      have hHmem : ∀ j : ℕ, cyc (computeConvexHull P (-1)) j ∈
          computeConvexHull P (-1) := fun j => cyc_mem _ hHne j
      have ht := ccH.turn 0 (by omega)
      have h0 := collinear_no_turn habne (hcol _ (hHmem 0)) (hcol _ (hHmem 1))
        (hcol _ (hHmem 2))
      rw [h0] at ht
      exact lt_irrefl 0 ht
    · rw [hh2] at hn2eq
      simp at hn2eq

/-- C6: applying computeConvexHull to its own output returns the same hull
list (hence the same point set in the same cyclic order, rotation 0). -/
theorem convexHull_idem (P : List Point) :
    computeConvexHull (computeConvexHull P (-1)) (-1) =
      computeConvexHull P (-1) := by
  by_cases hn3 : 3 ≤ (computeConvexHull P (-1)).length
  · have h3 : 3 ≤ P.length := by
      by_contra hc
      rw [computeConvexHull_small P (by omega)] at hn3
      omega
    have hH2_3 := hull2_len3 P h3 hn3
    have ccH := hull_convexCycle P h3 hn3
    have ccH2 := hull_convexCycle (computeConvexHull P (-1)) hn3 hH2_3
    have hHne : computeConvexHull P (-1) ≠ [] := by
      intro h
      rw [h] at hn3
      simp at hn3
    have hH2ne : computeConvexHull (computeConvexHull P (-1)) (-1) ≠ [] := by
      intro h
      rw [h] at hH2_3
      simp at hH2_3
    have hsub : ∀ x ∈ computeConvexHull (computeConvexHull P (-1)) (-1),
        x ∈ computeConvexHull P (-1) :=
      (convexHull_core_props (computeConvexHull P (-1))).1
    have hsup : ∀ x ∈ computeConvexHull P (-1),
        x ∈ computeConvexHull (computeConvexHull P (-1)) (-1) := by
      intro x hxH
      by_contra hnot
      obtain ⟨k, hk, hkx⟩ := List.mem_iff_getElem.1 hxH
      have hkc : cyc (computeConvexHull P (-1)) k = x := by
        rw [cyc_eq_getElem _ hk, hkx]
      have hq : ∀ j < (computeConvexHull (computeConvexHull P (-1)) (-1)).length,
          0 ≤ cross
            (cyc (computeConvexHull (computeConvexHull P (-1)) (-1)) (j + 1) -
              cyc (computeConvexHull (computeConvexHull P (-1)) (-1)) j)
            (x - cyc (computeConvexHull (computeConvexHull P (-1)) (-1)) j) := by
        intro j hj
        have h := cyclic_edges_of_leftAllF
          (hull_cyclic_left (computeConvexHull P (-1)) hn3 x hxH) hj
        rw [cyc_eq_getD _ hj]
        exact h
      obtain ⟨i, hi, hle⟩ := support_min _ hH2_3 ccH2.turn x hq
        (wvec (computeConvexHull P (-1)) k)
      have hvmem : cyc (computeConvexHull (computeConvexHull P (-1)) (-1)) i ∈
          computeConvexHull P (-1) := hsub _ (cyc_mem _ hH2ne i)
      have hvne : cyc (computeConvexHull (computeConvexHull P (-1)) (-1)) i ≠
          cyc (computeConvexHull P (-1)) k := by
        rw [hkc]
        intro h0
        apply hnot
        rw [← h0]
        exact cyc_mem _ hH2ne i
      have hpos := corner_min ccH hk hvmem hvne
      rw [pdot_sub_left, hkc] at hpos
      linarith
    apply convexCycle_ext ccH2 ccH (fun x => ⟨hsub x, hsup x⟩)
    have h1 : cyc (computeConvexHull P (-1)) 0 =
        (sortPoints P).headD 0 := by
      rw [cyc_eq_getD _ (by omega), hull_getD_zero P h3]
    have h2 : cyc (computeConvexHull (computeConvexHull P (-1)) (-1)) 0 =
        (sortPoints (computeConvexHull P (-1))).headD 0 := by
      rw [cyc_eq_getD _ (by omega), hull_getD_zero _ hn3]
    rw [h1, h2]
    -- both heads are the lexicographic minimum of P
    have hPne : P ≠ [] := by
      intro h
      rw [h] at h3
      simp at h3
    have hmH_mem : (sortPoints (computeConvexHull P (-1))).headD 0 ∈
        computeConvexHull P (-1) := sorted_headD_mem _ hHne
    have hmP_mem : (sortPoints P).headD 0 ∈ P := sorted_headD_mem _ hPne
    have hmP_in_H : (sortPoints P).headD 0 ∈ computeConvexHull P (-1) := by
      have h0 : cyc (computeConvexHull P (-1)) 0 ∈ computeConvexHull P (-1) :=
        cyc_mem _ hHne 0
      rw [h1] at h0
      exact h0
    have hle1 : cLe lexpos ((sortPoints (computeConvexHull P (-1))).headD 0)
        ((sortPoints P).headD 0) :=
      sorted_head_le _ hHne _ hmP_in_H
    have hle2 : cLe lexpos ((sortPoints P).headD 0)
        ((sortPoints (computeConvexHull P (-1))).headD 0) :=
      sorted_head_le _ hPne _ ((convexHull_core_props P).1 _ hmH_mem)
    exact cLe_antisymm isPosCone_lexpos hle1 hle2
  · exact computeConvexHull_small _ (by omega)

end Geometry

namespace Geometry

/-- Spec-side containment predicate (written from the specification's words,
for comparison with the computed rectangle): the point, translated by the
rectangle's center and rotated by minus its angle, lies in the axis-aligned
box `[-size.1/2, size.1/2] × [-size.2/2, size.2/2]`. -/
def rectContains (R : RotatedRectangle) (p : Point) : Prop :=
  |((p.1 : ℝ) - R.center.1) * Real.cos R.angle +
      ((p.2 : ℝ) - R.center.2) * Real.sin R.angle| ≤ R.size.1 / 2 ∧
  |(-(((p.1 : ℝ) - R.center.1))) * Real.sin R.angle +
      ((p.2 : ℝ) - R.center.2) * Real.cos R.angle| ≤ R.size.2 / 2

theorem foldl_min_le (t : List ℝ) : ∀ (acc : ℝ),
    t.foldl min acc ≤ acc ∧ ∀ x ∈ t, t.foldl min acc ≤ x := by
  induction t with
  | nil =>
    intro acc
    exact ⟨le_refl _, by simp⟩
  | cons b t ih =>
    intro acc
    have h := ih (min acc b)
    constructor
    · exact le_trans h.1 (min_le_left _ _)
    · intro x hx
      rcases List.mem_cons.1 hx with rfl | hx2
      · exact le_trans h.1 (min_le_right _ _)
      · exact h.2 x hx2

theorem foldl_max_ge (t : List ℝ) : ∀ (acc : ℝ),
    acc ≤ t.foldl max acc ∧ ∀ x ∈ t, x ≤ t.foldl max acc := by
  induction t with
  | nil =>
    intro acc
    exact ⟨le_refl _, by simp⟩
  | cons b t ih =>
    intro acc
    have h := ih (max acc b)
    constructor
    · exact le_trans (le_max_left _ _) h.1
    · intro x hx
      rcases List.mem_cons.1 hx with rfl | hx2
      · exact le_trans (le_max_right _ _) h.1
      · exact h.2 x hx2

theorem listMin_le_of_mem {l : List ℝ} {x : ℝ} (h : x ∈ l) :
    listMin l ≤ x := by
  rcases l with _ | ⟨a, t⟩
  · simp at h
  · rw [listMin]
    rcases List.mem_cons.1 h with rfl | h2
    · exact (foldl_min_le t x).1
    · exact (foldl_min_le t a).2 x h2

theorem le_listMax_of_mem {l : List ℝ} {x : ℝ} (h : x ∈ l) :
    x ≤ listMax l := by
  rcases l with _ | ⟨a, t⟩
  · simp at h
  · rw [listMax]
    rcases List.mem_cons.1 h with rfl | h2
    · exact (foldl_max_ge t x).1
    · exact (foldl_max_ge t a).2 x h2

/-- `std::atan2` recovers the cosine and sine of a unit vector. -/
theorem cos_sin_atan2 {x y : ℝ} (h : x ^ 2 + y ^ 2 = 1) :
    Real.cos (atan2 y x) = x ∧ Real.sin (atan2 y x) = y := by
  rcases lt_trichotomy 0 x with hx | hx | hx
  · rw [atan2, if_pos hx]
    have hxne : x ≠ 0 := ne_of_gt hx
    have h1 : 1 + (y / x) ^ 2 = (1 / x) ^ 2 := by
      field_simp
      linarith
    rw [Real.cos_arctan, Real.sin_arctan, h1, Real.sqrt_sq_eq_abs,
      abs_of_pos (by positivity)]
    constructor
    · field_simp
    · field_simp
  · have hx0 : x = 0 := hx.symm
    subst hx0
    rw [atan2, if_neg (lt_irrefl 0), if_neg (lt_irrefl 0)]
    have hy2 : y ^ 2 = 1 := by linarith
    have hfac : (y - 1) * (y + 1) = 0 := by nlinarith
    rcases mul_eq_zero.1 hfac with h1 | h1
    · have hy1 : y = 1 := by linarith
      rw [hy1, if_pos one_pos]
      simp
    · have hy1 : y = -1 := by linarith
      rw [hy1, if_neg (by norm_num), if_pos (by norm_num)]
      simp
  · rw [atan2, if_neg (by linarith), if_pos hx]
    have hxne : x ≠ 0 := ne_of_lt hx
    have h1 : 1 + (y / x) ^ 2 = (1 / x) ^ 2 := by
      field_simp
      linarith
    have hsq : Real.sqrt (1 + (y / x) ^ 2) = -(1 / x) := by
      rw [h1, Real.sqrt_sq_eq_abs, abs_of_neg (by
        apply div_neg_of_pos_of_neg one_pos hx)]
    by_cases hy : 0 ≤ y
    · rw [if_pos hy, Real.cos_add_pi, Real.sin_add_pi,
        Real.cos_arctan, Real.sin_arctan, hsq]
      constructor
      · field_simp
      · field_simp
    · rw [if_neg hy, Real.cos_sub_pi, Real.sin_sub_pi,
        Real.cos_arctan, Real.sin_arctan, hsq]
      constructor
      · field_simp
      · field_simp

end Geometry


namespace Geometry

/-- Edge `i` of the hull has distinct endpoints. -/
def EdgeNZ (hull : List Point) (n i : ℕ) : Prop :=
  hull.getD ((i + 1) % n) 0 ≠ hull.getD i 0

/-- The caliper state is the candidate produced from the infinite-area seed
at some nonzero edge. -/
def GoodSt (hull : List Point) (n : ℕ) (st : EReal × RotatedRectangle) :
    Prop :=
  ∃ i, EdgeNZ hull n i ∧
    st = caliperStep hull n ((⊤ : EReal), defaultRectangle) i

theorem edge_sq_pos {e : Point} (h : e ≠ 0) :
    0 < (e.1 * e.1 + e.2 * e.2 : ℚ) := by
  rcases e with ⟨e1, e2⟩
  by_contra hc
  push_neg at hc
  apply h
  have h1 : e1 = 0 := by nlinarith [sq_nonneg e1, sq_nonneg e2]
  have h2 : e2 = 0 := by nlinarith [sq_nonneg e1, sq_nonneg e2]
  simp [Prod.ext_iff, h1, h2]

theorem edgeLength_pos {e : Point} (h : e ≠ 0) :
    ¬ Real.sqrt (((e.1 * e.1 + e.2 * e.2 : ℚ) : ℝ)) ≤ 0 := by
  push_neg
  apply Real.sqrt_pos.2
  exact_mod_cast edge_sq_pos h

theorem caliperStep_cases (hull : List Point) (n : ℕ)
    (st : EReal × RotatedRectangle) (i : ℕ) :
    caliperStep hull n st i = st ∨
      caliperStep hull n st i =
        caliperStep hull n ((⊤ : EReal), defaultRectangle) i := by
  by_cases hz : hull.getD ((i + 1) % n) 0 = hull.getD i 0
  · left
    exact caliperStep_skip hull n st i hz
  · have hnz : hull.getD ((i + 1) % n) 0 - hull.getD i 0 ≠ 0 :=
      sub_ne_zero.2 hz
    have hgt := edgeLength_pos hnz
    simp only [caliperStep]
    rw [if_neg hgt]
    split_ifs with h1 h2 h2
    · right
      rfl
    · exfalso
      apply h2
      exact EReal.coe_lt_top _
    · left
      rfl
    · left
      rfl

theorem caliper_fold_good (hull : List Point) (n : ℕ) :
    ∀ (l : List ℕ) (st : EReal × RotatedRectangle),
      (st = ((⊤ : EReal), defaultRectangle) ∨ GoodSt hull n st) →
      ((∃ j ∈ l, EdgeNZ hull n j) ∨ GoodSt hull n st) →
      GoodSt hull n (l.foldl (caliperStep hull n) st)
  | [], st, _, hgood => by
    rcases hgood with ⟨j, hj, _⟩ | h
    · simp at hj
    · simpa using h
  | j :: l, st, hinv, hgood => by
    rw [List.foldl_cons]
    have hstep : caliperStep hull n st j = ((⊤ : EReal), defaultRectangle) ∨
        GoodSt hull n (caliperStep hull n st j) := by
      by_cases hz : hull.getD ((j + 1) % n) 0 = hull.getD j 0
      · rw [caliperStep_skip hull n st j hz]
        exact hinv
      · right
        rcases hinv with rfl | hG
        · exact ⟨j, hz, rfl⟩
        · rcases caliperStep_cases hull n st j with he | he
          · rw [he]
            exact hG
          · rw [he]
            exact ⟨j, hz, rfl⟩
    have hgood' : (∃ k ∈ l, EdgeNZ hull n k) ∨
        GoodSt hull n (caliperStep hull n st j) := by
      rcases hgood with ⟨j', hj', hNZ⟩ | hG
      · rcases List.mem_cons.1 hj' with rfl | hmem
        · right
          rcases hinv with rfl | hG2
          · exact ⟨j', hNZ, rfl⟩
          · rcases caliperStep_cases hull n st j' with he | he
            · rw [he]
              exact hG2
            · rw [he]
              exact ⟨j', hNZ, rfl⟩
        · exact Or.inl ⟨j', hmem, hNZ⟩
      · right
        by_cases hz : hull.getD ((j + 1) % n) 0 = hull.getD j 0
        · rw [caliperStep_skip hull n st j hz]
          exact hG
        · rcases caliperStep_cases hull n st j with he | he
          · rw [he]
            exact hG
          · rw [he]
            exact ⟨j, hz, rfl⟩
    exact caliper_fold_good hull n l _ hstep hgood'

end Geometry

namespace Geometry

theorem rectContains_build (u1 u2 minX maxX minY maxY : ℝ) (q : Point) (θ : ℝ)
    (hcos : Real.cos θ = u1) (hsin : Real.sin θ = u2)
    (hunit : u1 * u1 + u2 * u2 = 1)
    (hX1 : minX ≤ (q.1 : ℝ) * u1 + (q.2 : ℝ) * u2)
    (hX2 : (q.1 : ℝ) * u1 + (q.2 : ℝ) * u2 ≤ maxX)
    (hY1 : minY ≤ (q.1 : ℝ) * (-u2) + (q.2 : ℝ) * u1)
    (hY2 : (q.1 : ℝ) * (-u2) + (q.2 : ℝ) * u1 ≤ maxY) :
    rectContains
      { center := (u1 * ((minX + maxX) * (1 / 2)) +
            (-u2) * ((minY + maxY) * (1 / 2)),
          u2 * ((minX + maxX) * (1 / 2)) + u1 * ((minY + maxY) * (1 / 2))),
        size := (maxX - minX, maxY - minY),
        angle := θ } q := by
  rw [rectContains]
  simp only [hcos, hsin]
  constructor
  · have hid : ((q.1 : ℝ) - (u1 * ((minX + maxX) * (1 / 2)) +
        (-u2) * ((minY + maxY) * (1 / 2)))) * u1 +
        ((q.2 : ℝ) - (u2 * ((minX + maxX) * (1 / 2)) +
          u1 * ((minY + maxY) * (1 / 2)))) * u2 =
        ((q.1 : ℝ) * u1 + (q.2 : ℝ) * u2) - (minX + maxX) * (1 / 2) := by
      linear_combination (-((minX + maxX) * (1 / 2))) * hunit
    rw [hid, abs_le]
    constructor
    · linarith
    · linarith
  · have hid2 : (-((q.1 : ℝ) - (u1 * ((minX + maxX) * (1 / 2)) +
        (-u2) * ((minY + maxY) * (1 / 2))))) * u2 +
        ((q.2 : ℝ) - (u2 * ((minX + maxX) * (1 / 2)) +
          u1 * ((minY + maxY) * (1 / 2)))) * u1 =
        ((q.1 : ℝ) * (-u2) + (q.2 : ℝ) * u1) - (minY + maxY) * (1 / 2) := by
      linear_combination (-((minY + maxY) * (1 / 2))) * hunit
    rw [hid2, abs_le]
    constructor
    · linarith
    · linarith

theorem candidate_contains (hull : List Point) (n i : ℕ)
    (hNZ : EdgeNZ hull n i) (q : Point)
    (hbound : ∀ d : Point,
      (∃ x ∈ hull, pdot x d ≤ pdot q d) ∧ (∃ x ∈ hull, pdot q d ≤ pdot x d)) :
    rectContains (caliperStep hull n ((⊤ : EReal), defaultRectangle) i).2 q := by
  have hnz : hull.getD ((i + 1) % n) 0 - hull.getD i 0 ≠ 0 := sub_ne_zero.2 hNZ
  have hgt := edgeLength_pos hnz
  simp only [caliperStep]
  rw [if_neg hgt, if_pos (EReal.coe_lt_top _)]
  set e : Point := hull.getD ((i + 1) % n) 0 - hull.getD i 0 with he
  set S : ℚ := e.1 * e.1 + e.2 * e.2 with hS
  set L : ℝ := Real.sqrt ((S : ℝ)) with hL
  have hSpos : 0 < S := edge_sq_pos hnz
  have hLpos : 0 < L := by
    rw [hL]
    apply Real.sqrt_pos.2
    exact_mod_cast hSpos
  have hLne : L ≠ 0 := ne_of_gt hLpos
  have hL2 : L * L = (S : ℝ) := by
    rw [hL]
    exact Real.mul_self_sqrt (by exact_mod_cast le_of_lt hSpos)
  set u1 : ℝ := ((e.1 : ℚ) : ℝ) / L with hu1
  set u2 : ℝ := ((e.2 : ℚ) : ℝ) / L with hu2
  have hUnit : u1 * u1 + u2 * u2 = 1 := by
    rw [hu1, hu2]
    rw [div_mul_div_comm, div_mul_div_comm, div_add_div_same, hL2]
    rw [div_eq_one_iff_eq (by exact_mod_cast ne_of_gt hSpos)]
    rw [hS]
    push_cast
    ring
  have hproj : ∀ p : Point, rdot (toR p) (u1, u2) =
      ((pdot p e : ℚ) : ℝ) / L := by
    intro p
    rw [rdot, hu1, hu2]
    simp only [toR, pdot]
    push_cast
    field_simp
  have hprojY : ∀ p : Point, rdot (toR p) (-u2, u1) =
      ((pdot p (perp e) : ℚ) : ℝ) / L := by
    intro p
    rw [rdot, hu1, hu2]
    simp only [toR, pdot, perp]
    push_cast
    field_simp
    ring
  apply rectContains_build
  · exact (cos_sin_atan2 (by rw [sq, sq]; exact hUnit)).1
  · exact (cos_sin_atan2 (by rw [sq, sq]; exact hUnit)).2
  · exact hUnit
  · -- minX bound
    obtain ⟨x, hxmem, hxle⟩ := (hbound e).1
    have h1 : listMin (hull.map (fun p => rdot (toR p) (u1, u2))) ≤
        rdot (toR x) (u1, u2) :=
      listMin_le_of_mem (List.mem_map_of_mem _ hxmem)
    have h2 : rdot (toR x) (u1, u2) ≤ ((pdot q e : ℚ) : ℝ) / L := by
      rw [hproj]
      exact (div_le_div_iff_of_pos_right hLpos).2 (by exact_mod_cast hxle)
    have h3 : (q.1 : ℝ) * u1 + (q.2 : ℝ) * u2 = ((pdot q e : ℚ) : ℝ) / L := by
      rw [← hproj q, rdot]
      simp only [toR]
    rw [h3]
    linarith
  · obtain ⟨x, hxmem, hxle⟩ := (hbound e).2
    have h1 : rdot (toR x) (u1, u2) ≤
        listMax (hull.map (fun p => rdot (toR p) (u1, u2))) :=
      le_listMax_of_mem (List.mem_map_of_mem _ hxmem)
    have h2 : ((pdot q e : ℚ) : ℝ) / L ≤ rdot (toR x) (u1, u2) := by
      rw [hproj]
      exact (div_le_div_iff_of_pos_right hLpos).2 (by exact_mod_cast hxle)
    have h3 : (q.1 : ℝ) * u1 + (q.2 : ℝ) * u2 = ((pdot q e : ℚ) : ℝ) / L := by
      rw [← hproj q, rdot]
      simp only [toR]
    rw [h3]
    linarith
  · obtain ⟨x, hxmem, hxle⟩ := (hbound (perp e)).1
    have h1 : listMin (hull.map (fun p => rdot (toR p) (-u2, u1))) ≤
        rdot (toR x) (-u2, u1) :=
      listMin_le_of_mem (List.mem_map_of_mem _ hxmem)
    have h2 : rdot (toR x) (-u2, u1) ≤ ((pdot q (perp e) : ℚ) : ℝ) / L := by
      rw [hprojY]
      exact (div_le_div_iff_of_pos_right hLpos).2 (by exact_mod_cast hxle)
    have h3 : (q.1 : ℝ) * (-u2) + (q.2 : ℝ) * u1 =
        ((pdot q (perp e) : ℚ) : ℝ) / L := by
      rw [← hprojY q, rdot]
      simp only [toR]
    rw [h3]
    linarith
  · obtain ⟨x, hxmem, hxle⟩ := (hbound (perp e)).2
    have h1 : rdot (toR x) (-u2, u1) ≤
        listMax (hull.map (fun p => rdot (toR p) (-u2, u1))) :=
      le_listMax_of_mem (List.mem_map_of_mem _ hxmem)
    have h2 : ((pdot q (perp e) : ℚ) : ℝ) / L ≤ rdot (toR x) (-u2, u1) := by
      rw [hprojY]
      exact (div_le_div_iff_of_pos_right hLpos).2 (by exact_mod_cast hxle)
    have h3 : (q.1 : ℝ) * (-u2) + (q.2 : ℝ) * u1 =
        ((pdot q (perp e) : ℚ) : ℝ) / L := by
      rw [← hprojY q, rdot]
      simp only [toR]
    rw [h3]
    linarith

end Geometry

namespace Geometry

theorem sorted_le_last (P : List Point) (hne : P ≠ []) :
    ∀ x ∈ P, cLe lexpos x ((sortPoints P).getLastD 0) := by
  have hsne : sortPoints P ≠ [] := by
    intro h
    have hlen := (sortPoints_perm P).length_eq
    rw [h] at hlen
    simp only [List.length_nil] at hlen
    exact hne (List.length_eq_zero.1 hlen.symm)
  intro x hx
  exact chain'_cLe_last isPosCone_lexpos (sortPoints P) (sortPoints_chain P) x
    ((sortPoints_perm P).mem_iff.2 hx) _ (getLast?_eq_some_getLastD hsne)

theorem computeConvexHull_ne_nil (P : List Point) (hne : P ≠ []) :
    computeConvexHull P (-1) ≠ [] := by
  by_cases h3 : 3 ≤ P.length
  · have cf := coreFacts P h3
    have hn : (computeConvexHull P (-1)).length + 2 =
        (lowerStack P).length + (upperStack P).length := by
      rw [computeConvexHull_core P h3, List.length_append,
        List.length_reverse, List.length_reverse, List.length_tail,
        List.length_tail]
      have h1 := cf.lowLen
      have h2 := cf.upLen
      omega
    intro h
    rw [h] at hn
    have h1 := cf.lowLen
    have h2 := cf.upLen
    simp at hn
    omega
  · rw [computeConvexHull_small P (by omega)]
    exact hne

/-- In the nondegenerate two-vertex core branch the hull is exactly the
pair of lexicographic extremes. -/
theorem hull_two_core (P : List Point) (h3 : 3 ≤ P.length)
    (hn2 : (computeConvexHull P (-1)).length = 2) :
    computeConvexHull P (-1) =
      [(sortPoints P).headD 0, (sortPoints P).getLastD 0] := by
  have cf := coreFacts P h3
  have hn : (computeConvexHull P (-1)).length + 2 =
      (lowerStack P).length + (upperStack P).length := by
    rw [computeConvexHull_core P h3, List.length_append,
      List.length_reverse, List.length_reverse, List.length_tail,
      List.length_tail]
    have h1 := cf.lowLen
    have h2 := cf.upLen
    omega
  have hl2 : (lowerStack P).length = 2 := by
    have h1 := cf.lowLen
    have h2 := cf.upLen
    omega
  have hu2 : (upperStack P).length = 2 := by
    have h1 := cf.lowLen
    have h2 := cf.upLen
    omega
  rcases hL : lowerStack P with _ | ⟨l0, _ | ⟨l1, _ | ⟨l2, lt⟩⟩⟩ <;>
    rw [hL] at hl2 <;> simp at hl2
  rcases hU : upperStack P with _ | ⟨v0, _ | ⟨v1, _ | ⟨v2, ut⟩⟩⟩ <;>
    rw [hU] at hu2 <;> simp at hu2
  have hl1 : l1 = (sortPoints P).headD 0 := by
    have h := cf.lowBot
    rw [hL] at h
    rw [← h]
    rfl
  have hv1 : v1 = (sortPoints P).getLastD 0 := by
    have h := cf.upBase
    rw [hU] at h
    rw [← h]
    rfl
  rw [computeConvexHull_core P h3, hL, hU, hl1, hv1]
  rfl

/-- Two-sided vertex bounds for any linear functional, valid for every
input point, in every hull regime. -/
theorem hull_proj_bounds (P : List Point)
    (hdist : ∃ a ∈ P, ∃ b ∈ P, a ≠ b) (q : Point) (hq : q ∈ P) (d : Point) :
    (∃ x ∈ computeConvexHull P (-1), pdot x d ≤ pdot q d) ∧
      (∃ x ∈ computeConvexHull P (-1), pdot q d ≤ pdot x d) := by
  have hPne : P ≠ [] := by
    intro h
    rw [h] at hq
    simp at hq
  by_cases h3 : 3 ≤ P.length
  · have cf := coreFacts P h3
    have hn : (computeConvexHull P (-1)).length + 2 =
        (lowerStack P).length + (upperStack P).length := by
      rw [computeConvexHull_core P h3, List.length_append,
        List.length_reverse, List.length_reverse, List.length_tail,
        List.length_tail]
      have h1 := cf.lowLen
      have h2 := cf.upLen
      omega
    have hHne : computeConvexHull P (-1) ≠ [] := computeConvexHull_ne_nil P hPne
    have hmM : (sortPoints P).headD 0 ≠ (sortPoints P).getLastD 0 := by
      intro h
      obtain ⟨a, ha, b, hb, hab⟩ := hdist
      have hsne : sortPoints P ≠ [] := by
        intro h0
        have hlen := (sortPoints_perm P).length_eq
        rw [h0] at hlen
        simp only [List.length_nil] at hlen
        exact hPne (List.length_eq_zero.1 hlen.symm)
      have hsc := sorted_const P hsne h
      have ha' := hsc a ((sortPoints_perm P).mem_iff.2 ha)
      have hb' := hsc b ((sortPoints_perm P).mem_iff.2 hb)
      exact hab (ha'.trans hb'.symm)
    rcases lt_or_le (computeConvexHull P (-1)).length 3 with hn2 | hn3
    · -- two-vertex collinear hull
      have hl1 := cf.lowLen
      have hu1 := cf.upLen
      have hn2' : (computeConvexHull P (-1)).length = 2 := by omega
      have hh := hull_two_core P h3 hn2'
      have hmem0 : (sortPoints P).headD 0 ∈ computeConvexHull P (-1) := by
        rw [hh]
        simp
      have hmem1 : (sortPoints P).getLastD 0 ∈ computeConvexHull P (-1) := by
        rw [hh]
        simp
      -- q is collinear with the two extremes
      have hleft := hull_cyclic_left P h3 q hq
      rw [hh] at hleft
      have hgd : (([(sortPoints P).headD 0,
          (sortPoints P).getLastD 0] : List Point).getD 0 0) =
          (sortPoints P).headD 0 := by simp
      rw [hgd] at hleft
      have h1 : 0 ≤ cross ((sortPoints P).getLastD 0 - (sortPoints P).headD 0)
          (q - (sortPoints P).headD 0) := hleft.1
      have h2 : 0 ≤ cross ((sortPoints P).headD 0 - (sortPoints P).getLastD 0)
          (q - (sortPoints P).getLastD 0) := hleft.2.1
      have hsh : cross ((sortPoints P).headD 0 - (sortPoints P).getLastD 0)
          (q - (sortPoints P).getLastD 0) =
          -(cross ((sortPoints P).getLastD 0 - (sortPoints P).headD 0)
            (q - (sortPoints P).headD 0)) := by
        simp only [cross, Prod.fst_sub, Prod.snd_sub]
        ring
      rw [hsh] at h2
      have hcol : cross ((sortPoints P).getLastD 0 - (sortPoints P).headD 0)
          (q - (sortPoints P).headD 0) = 0 := by linarith
      have hMmne : (sortPoints P).getLastD 0 - (sortPoints P).headD 0 ≠ 0 :=
        sub_ne_zero.2 (Ne.symm hmM)
      obtain ⟨s, hs⟩ := collinear_factor hcol hMmne
      have hposMm : lexpos ((sortPoints P).getLastD 0 -
          (sortPoints P).headD 0) := by
        rcases sorted_le_last P hPne _ (sorted_headD_mem P hPne) with he | hp
        · exact absurd he hmM
        · exact hp
      have hs0 : 0 ≤ s := by
        rcases sorted_head_le P hPne q hq with he | hp
        · have h0 : q - (sortPoints P).headD 0 = 0 := by
            rw [← he]
            abel
          rw [h0] at hs
          rcases smul_eq_zero.1 hs.symm with h1 | h1
          · exact le_of_eq h1.symm
          · exact absurd h1 hMmne
        · rw [hs] at hp
          exact le_of_lt (isPosCone_lexpos.smul_factor_pos hposMm hp)
      have hs1 : s ≤ 1 := by
        rcases sorted_le_last P hPne q hq with he | hp
        · have h0 : (sortPoints P).getLastD 0 - q =
              (1 - s) • ((sortPoints P).getLastD 0 -
                (sortPoints P).headD 0) := by
            rw [sub_smul, one_smul, ← hs]
            abel
          rw [he] at h0
          have h0' : (0 : Point) =
              (1 - s) • ((sortPoints P).getLastD 0 -
                (sortPoints P).headD 0) := by
            rw [← h0]
            abel
          rcases smul_eq_zero.1 h0'.symm with h1 | h1
          · linarith
          · exact absurd h1 hMmne
        · have h0 : (sortPoints P).getLastD 0 - q =
              (1 - s) • ((sortPoints P).getLastD 0 -
                (sortPoints P).headD 0) := by
            rw [sub_smul, one_smul, ← hs]
            abel
          rw [h0] at hp
          have := isPosCone_lexpos.smul_factor_pos hposMm hp
          linarith
      -- pdot expansion
      have hqd : pdot q d = pdot ((sortPoints P).headD 0) d +
          s * pdot ((sortPoints P).getLastD 0 -
            (sortPoints P).headD 0) d := by
        have h0 : q = (sortPoints P).headD 0 +
            s • ((sortPoints P).getLastD 0 - (sortPoints P).headD 0) := by
          rw [← hs]
          abel
        rw [h0, pdot_add_left, pdot_smul_left]
      have hMd : pdot ((sortPoints P).getLastD 0) d =
          pdot ((sortPoints P).headD 0) d +
            pdot ((sortPoints P).getLastD 0 - (sortPoints P).headD 0) d := by
        rw [← pdot_add_left]
        congr 1
        abel
      rcases le_or_lt 0 (pdot ((sortPoints P).getLastD 0 -
          (sortPoints P).headD 0) d) with ht | ht
      · constructor
        · refine ⟨_, hmem0, ?_⟩
          rw [hqd]
          nlinarith
        · refine ⟨_, hmem1, ?_⟩
          rw [hqd, hMd]
          nlinarith
      · constructor
        · refine ⟨_, hmem1, ?_⟩
          rw [hqd, hMd]
          nlinarith
        · refine ⟨_, hmem0, ?_⟩
          rw [hqd]
          nlinarith
    · -- at least three hull vertices: support theorem
      have ccH := hull_convexCycle P h3 hn3
      have hqcyc : ∀ j < (computeConvexHull P (-1)).length,
          0 ≤ cross (cyc (computeConvexHull P (-1)) (j + 1) -
            cyc (computeConvexHull P (-1)) j)
            (q - cyc (computeConvexHull P (-1)) j) := by
        intro j hj
        have h := cyclic_edges_of_leftAllF (hull_cyclic_left P h3 q hq) hj
        rw [cyc_eq_getD _ hj]
        exact h
      constructor
      · obtain ⟨i, hi, hle⟩ := support_min _ hn3 ccH.turn q hqcyc d
        exact ⟨_, cyc_mem _ hHne i, hle⟩
      · obtain ⟨i, hi, hle⟩ := support_max _ hn3 ccH.turn q hqcyc d
        exact ⟨_, cyc_mem _ hHne i, hle⟩
  · rw [computeConvexHull_small P (by omega)]
    exact ⟨⟨q, hq, le_refl _⟩, ⟨q, hq, le_refl _⟩⟩

end Geometry

namespace Geometry

theorem hull_edge0_nz (P : List Point) (hdist : ∃ a ∈ P, ∃ b ∈ P, a ≠ b) :
    EdgeNZ (computeConvexHull P (-1)) (computeConvexHull P (-1)).length 0 := by
  have hPne : P ≠ [] := by
    intro h
    obtain ⟨a, ha, _⟩ := hdist
    rw [h] at ha
    simp at ha
  rw [EdgeNZ]
  by_cases h3 : 3 ≤ P.length
  · have hmM : (sortPoints P).headD 0 ≠ (sortPoints P).getLastD 0 := by
      intro h
      obtain ⟨a, ha, b, hb, hab⟩ := hdist
      have hsne : sortPoints P ≠ [] := by
        intro h0
        have hlen := (sortPoints_perm P).length_eq
        rw [h0] at hlen
        simp only [List.length_nil] at hlen
        exact hPne (List.length_eq_zero.1 hlen.symm)
      have hsc := sorted_const P hsne h
      have ha' := hsc a ((sortPoints_perm P).mem_iff.2 ha)
      have hb' := hsc b ((sortPoints_perm P).mem_iff.2 hb)
      exact hab (ha'.trans hb'.symm)
    rcases lt_or_le (computeConvexHull P (-1)).length 3 with hn2 | hn3
    · have cf := coreFacts P h3
      have hn : (computeConvexHull P (-1)).length + 2 =
          (lowerStack P).length + (upperStack P).length := by
        rw [computeConvexHull_core P h3, List.length_append,
          List.length_reverse, List.length_reverse, List.length_tail,
          List.length_tail]
        have h1 := cf.lowLen
        have h2 := cf.upLen
        omega
      have hn2' : (computeConvexHull P (-1)).length = 2 := by
        have h1 := cf.lowLen
        have h2 := cf.upLen
        omega
      rw [hull_two_core P h3 hn2']
      exact fun h => hmM h.symm
    · have h01 : (computeConvexHull P (-1)).getD
          (1 % (computeConvexHull P (-1)).length) 0 ≠
          (computeConvexHull P (-1)).getD 0 0 := by
        intro heq
        have ht := (hull_convexCycle P h3 hn3).turn 0 (by omega)
        have hc0 : cyc (computeConvexHull P (-1)) 0 =
            (computeConvexHull P (-1)).getD 0 0 := cyc_eq_getD _ (by omega)
        have hc1 : cyc (computeConvexHull P (-1)) 1 =
            (computeConvexHull P (-1)).getD
              (1 % (computeConvexHull P (-1)).length) 0 := rfl
        rw [hc0, hc1, heq, sub_self, cross_zero_left] at ht
        exact lt_irrefl 0 ht
      have he : (0 + 1) % (computeConvexHull P (-1)).length =
          1 % (computeConvexHull P (-1)).length := by norm_num
      rw [he]
      exact h01
  · rw [computeConvexHull_small P (by omega)]
    obtain ⟨a, ha, b, hb, hab⟩ := hdist
    rcases P with _ | ⟨x, _ | ⟨y, t⟩⟩
    · simp at ha
    · simp at ha hb
      rw [ha, hb] at hab
      simp at hab
    · have ht0 : t = [] := by
        rcases t with _ | ⟨z, t2⟩
        · rfl
        · exfalso
          apply h3
          simp
      subst ht0
      have hxy : x ≠ y := by
        simp at ha hb
        rcases ha with rfl | rfl <;> rcases hb with rfl | rfl
        · simp at hab
        · exact hab
        · exact hab.symm
        · simp at hab
      norm_num
      exact Ne.symm hxy

/-- C1 counterexample: for the duplicated single point (1,1), the returned
rectangle is the default rectangle and does not contain the input point. -/
theorem minAreaRectangle_containment_cex :
    ((1 : ℚ), (1 : ℚ)) ∈
        ([((1 : ℚ), (1 : ℚ)), ((1 : ℚ), (1 : ℚ))] : List Point) ∧
      ¬ rectContains
        (minAreaRectangle [((1 : ℚ), (1 : ℚ)), ((1 : ℚ), (1 : ℚ))] (-1))
        ((1 : ℚ), (1 : ℚ)) := by
  constructor
  · simp
  · have hhull : computeConvexHull [((1 : ℚ), (1 : ℚ)), ((1 : ℚ), (1 : ℚ))]
        (if (-1 : ℤ) < 0 then
          (([((1 : ℚ), (1 : ℚ)), ((1 : ℚ), (1 : ℚ))] : List Point).length : ℤ)
        else (-1 : ℤ)) =
        [((1 : ℚ), (1 : ℚ)), ((1 : ℚ), (1 : ℚ))] := by
      rw [if_pos (by norm_num : (-1 : ℤ) < 0), computeConvexHull_take]
      rw [if_neg (not_lt.2 (Int.natCast_nonneg _)), Int.toNat_natCast,
        List.take_length]
      exact computeConvexHull_small _ (by norm_num)
    have hrect : minAreaRectangle
        [((1 : ℚ), (1 : ℚ)), ((1 : ℚ), (1 : ℚ))] (-1) =
        { center := ((0 : ℝ), (0 : ℝ)), size := ((0 : ℝ), (0 : ℝ)),
          angle := (0 : ℝ) } := by
      rw [minAreaRectangle, hhull]
      norm_num
      rw [foldl_const_of_id]
      · rfl
      · intro st i hi
        apply caliperStep_skip
        simp at hi
        interval_cases i
        · rfl
        · rfl
    rw [hrect]
    intro hcon
    rw [rectContains] at hcon
    have h1 := hcon.1
    norm_num at h1

/-- C1 (amended): the specified containment property fails on inputs all of
whose rows are one repeated point (see `minAreaRectangle_containment_cex`);
whenever the input has two distinct rows, every input point lies in the
returned rectangle. -/
theorem minAreaRectangle_contains (P : List Point)
    (hdist : ∃ a ∈ P, ∃ b ∈ P, a ≠ b) (q : Point) (hq : q ∈ P) :
    rectContains (minAreaRectangle P (-1)) q := by
  have hPne : P ≠ [] := by
    intro h
    obtain ⟨a, ha, _⟩ := hdist
    rw [h] at ha
    simp at ha
  have hHeq : computeConvexHull P
      (if (-1 : ℤ) < 0 then (P.length : ℤ) else (-1 : ℤ)) =
      computeConvexHull P (-1) := by
    rw [if_pos (by norm_num : (-1 : ℤ) < 0), computeConvexHull_take]
    rw [if_neg (not_lt.2 (Int.natCast_nonneg _)), Int.toNat_natCast,
      List.take_length]
  rw [minAreaRectangle, hHeq]
  have hHne := computeConvexHull_ne_nil P hPne
  have hn0 : ¬ (computeConvexHull P (-1)).length = 0 := by
    intro h
    exact hHne (List.length_eq_zero.1 h)
  have hn1 : ¬ (computeConvexHull P (-1)).length = 1 := by
    intro h
    by_cases h3 : 3 ≤ P.length
    · have cf := coreFacts P h3
      have hn : (computeConvexHull P (-1)).length + 2 =
          (lowerStack P).length + (upperStack P).length := by
        rw [computeConvexHull_core P h3, List.length_append,
          List.length_reverse, List.length_reverse, List.length_tail,
          List.length_tail]
        have h1 := cf.lowLen
        have h2 := cf.upLen
        omega
      have h1 := cf.lowLen
      have h2 := cf.upLen
      omega
    · rw [computeConvexHull_small P (by omega)] at h
      obtain ⟨a, ha, b, hb, hab⟩ := hdist
      rcases P with _ | ⟨x, _ | ⟨y, t⟩⟩
      · simp at ha
      · simp at ha hb
        rw [ha, hb] at hab
        simp at hab
      · simp at h
  rw [if_neg hn0, if_neg hn1]
  obtain ⟨i, hNZ, hres⟩ := caliper_fold_good (computeConvexHull P (-1))
    (computeConvexHull P (-1)).length
    (List.range (computeConvexHull P (-1)).length)
    ((⊤ : EReal), defaultRectangle) (Or.inl rfl)
    (Or.inl ⟨0, List.mem_range.2 (Nat.pos_of_ne_zero hn0),
      hull_edge0_nz P hdist⟩)
  rw [hres]
  exact candidate_contains _ _ i hNZ q (fun d => hull_proj_bounds P hdist q hq d)

/-- Concrete instantiation of `minAreaRectangle_contains` on a two-point
input. -/
theorem minAreaRectangle_contains_witness :
    (∃ a ∈ ([((0 : ℚ), (0 : ℚ)), ((1 : ℚ), (0 : ℚ))] : List Point),
      ∃ b ∈ ([((0 : ℚ), (0 : ℚ)), ((1 : ℚ), (0 : ℚ))] : List Point), a ≠ b) ∧
    ((0 : ℚ), (0 : ℚ)) ∈
      ([((0 : ℚ), (0 : ℚ)), ((1 : ℚ), (0 : ℚ))] : List Point) ∧
    rectContains
      (minAreaRectangle [((0 : ℚ), (0 : ℚ)), ((1 : ℚ), (0 : ℚ))] (-1))
      ((0 : ℚ), (0 : ℚ)) := by
  refine ⟨⟨((0 : ℚ), (0 : ℚ)), by simp, ((1 : ℚ), (0 : ℚ)), by simp, ?_⟩,
    by simp, ?_⟩
  · intro h
    rw [Prod.ext_iff] at h
    norm_num at h
  · exact minAreaRectangle_contains _
      ⟨((0 : ℚ), (0 : ℚ)), by simp, ((1 : ℚ), (0 : ℚ)), by simp, by
        intro h
        rw [Prod.ext_iff] at h
        norm_num at h⟩ _ (by simp)

end Geometry
